import Mathlib

/-!
# Merge sorting of sorted blocks: cursors, comparators and the k-way merge

A shallow embedding of `dbms/include/DB/Core/SortDescription.h`
(`SortColumnDescription`, `SortCursorImpl`, `SortCursor`, `SortCursorWithCollation`)
and of the merge driver declared in
`dbms/include/DB/DataStreams/MergeSortingBlockInputStream.h`.

Conventions of the embedding.

* `size_t` values (`pos`, `rows`, `order`, column numbers) are natural numbers.
* `int` values (`direction`, the result of `compareAt`) are integers; a three-way
  result is only ever inspected through its sign.
* A C++ operation that throws, or that reads a vector past its end, returns
  `Except.error`; everything else is a total function.
* `std::vector` is a list, `Poco::SharedPtr<Collator>` is an `Option Collator`
  (`none` is the null pointer).
-/

namespace DB

/-! ## External collaborators -/

/-- Cell value stored in a column. -/
inductive Field where
  | int (v : Int)
  | str (s : String)
  deriving DecidableEq, Repr, Inhabited

/-- Conditions under which an operation of the embedding produces no value. -/
inductive Exception where
  /-- Raised by `Block::getPositionByName` and `Block::getByPosition`. -/
  | ColumnNotFound
  /-- Raised by `dynamic_cast<const ColumnString &>` on a column of another type. -/
  | BadCast
  /-- Raised when a null `Poco::SharedPtr` is dereferenced. -/
  | NullPointer
  /-- Read of a vector or of a column past its end (undefined in C++). -/
  | OutOfRange
  /-- The step budget of a loop of the embedding was used up. -/
  | NotTerminated
  deriving DecidableEq, Repr

deriving instance DecidableEq for Except

/-- Modelled from the spec: `Collator` (DB/Common/Collator.h is not part of the sources).
A locale comparator handle: a locale identifier and a three-way comparison of cell values. -/
structure Collator where
  locale : String
  compare : Field → Field → Int

/-- Modelled from the spec: `IColumn` (DB/Columns/IColumn.h is not part of the sources).
A homogeneous sequence of values together with the name of its runtime type,
as returned by `getName()`. -/
structure IColumn where
  name : String
  data : List Field
  deriving DecidableEq, Repr

/-- Modelled from the spec: `IColumn::size`. -/
def IColumn.size (c : IColumn) : Nat := c.data.length

/-- Modelled from the spec: `IColumn::operator[]`, the value at row `n`. -/
def IColumn.get (c : IColumn) (n : Nat) : Except Exception Field :=
  match c.data[n]? with
  | some x => .ok x
  | none => .error .OutOfRange

/-- Modelled from the spec: `IColumn::compareAt(n, m, rhs)`, the position-wise three-way
comparison of row `n` of this column with row `m` of `rhs` in the native ordering `cmp`. -/
def IColumn.compareAt (cmp : Field → Field → Int) (lhs : IColumn) (n m : Nat) (rhs : IColumn) :
    Except Exception Int := do
  let x ← lhs.get n
  let y ← rhs.get m
  pure (cmp x y)

/-- Modelled from the spec: `ColumnString::compareAt(n, m, rhs, collator)`, the position-wise
three-way comparison performed by the locale comparator. -/
def IColumn.compareAtCollated (lhs : IColumn) (n m : Nat) (rhs : IColumn) (collator : Collator) :
    Except Exception Int := do
  let x ← lhs.get n
  let y ← rhs.get m
  pure (collator.compare x y)

/-- Modelled from the spec: `ColumnWithNameAndType`, one named column of a block. -/
structure ColumnWithNameAndType where
  name : String
  column : IColumn
  deriving DecidableEq, Repr

/-- Modelled from the spec: `Block` (DB/Core/Block.h is not part of the sources),
an ordered collection of named columns. -/
abbrev Block := List ColumnWithNameAndType

/-- Modelled from the spec: `Block::columns`. -/
def Block.columns (block : Block) : Nat := block.length

/-- Modelled from the spec: `Block::getByPosition`; fails with `ColumnNotFound`
when the index is out of range. -/
def Block.getByPosition (block : Block) (j : Nat) : Except Exception ColumnWithNameAndType :=
  match block[j]? with
  | some c => .ok c
  | none => .error .ColumnNotFound

/-- Modelled from the spec: `Block::getPositionByName`; fails with `ColumnNotFound`
when the name is absent from the block. -/
def Block.getPositionByName : Block → String → Except Exception Nat
  | [], _ => .error .ColumnNotFound
  | c :: cs, n =>
    if c.name = n then .ok 0
    else match Block.getPositionByName cs n with
      | .ok p => .ok (p + 1)
      | .error e => .error e

/-- Modelled from the spec: `Block::rows`, the common length of the columns
(zero for a block without columns). -/
def Block.rows : Block → Nat
  | [] => 0
  | c :: _ => c.column.size

/-! ## `SortColumnDescription` -/

/-- Sort rule for one column. -/
structure SortColumnDescription where
  /-- Column name. -/
  column_name : String
  /-- Column number (used when no name is given). -/
  column_number : Nat
  /-- 1 ascending, -1 descending. -/
  direction : Int
  /-- Collator for locale-specific ordering of strings. -/
  collator : Option Collator

/-- `SortColumnDescription(size_t column_number_, int direction_, collator_)`. -/
def SortColumnDescription.ofNumber (column_number : Nat) (direction : Int)
    (collator : Option Collator) : SortColumnDescription :=
  { column_name := "", column_number := column_number, direction := direction,
    collator := collator }

/-- `SortColumnDescription(String column_name_, int direction_, collator_)`. -/
def SortColumnDescription.ofName (column_name : String) (direction : Int)
    (collator : Option Collator) : SortColumnDescription :=
  { column_name := column_name, column_number := 0, direction := direction,
    collator := collator }

/-- Sort rule for several columns. -/
abbrev SortDescription := List SortColumnDescription

/-! ## `SortCursorImpl` -/

/-- Cursor moving over one block, comparable with cursors over other blocks. -/
structure SortCursorImpl where
  all_columns : List IColumn
  sort_columns : List IColumn
  desc : SortDescription
  sort_columns_size : Nat
  pos : Nat
  rows : Nat
  /-- What is compared when the compared columns are equal. -/
  order : Nat
  /-- Whether the collator is to be used for the key. -/
  need_collation : List Bool
  /-- Whether at least one key uses a collator. -/
  has_collation : Bool

namespace SortCursorImpl

/-- First loop of `reset`: `for (j = 0; j < num_columns; ++j)
all_columns.push_back(&*block.getByPosition(j).column)`, started at `j` with `n` rounds left. -/
def resetAllColumns (block : Block) : Nat → Nat → List IColumn → Except Exception (List IColumn)
  | _, 0, acc => .ok acc
  | j, n + 1, acc =>
    match block.getByPosition j with
    | .ok c => resetAllColumns block (j + 1) n (acc ++ [c.column])
    | .error e => .error e

/-- Column number chosen for one key: `!desc[j].column_name.empty()
? block.getPositionByName(desc[j].column_name) : desc[j].column_number`. -/
def resolve (block : Block) (d : SortColumnDescription) : Except Exception Nat :=
  if d.column_name ≠ "" then block.getPositionByName d.column_name else .ok d.column_number

/-- Body of one round of the second loop of `reset` once the column is found:
`sort_columns.push_back(column)`, then
`need_collation[j] = !desc[j].collator.isNull() && sort_columns.back()->getName() == "ColumnString"`,
then `has_collation |= need_collation[j]`. -/
def pushSortColumn (c : SortCursorImpl) (j : Nat) (column : IColumn)
    (collator : Option Collator) : SortCursorImpl :=
  { c with
    sort_columns := c.sort_columns ++ [column]
    need_collation :=
      c.need_collation.set j (collator.isSome && decide (column.name = "ColumnString"))
    has_collation :=
      c.has_collation || (collator.isSome && decide (column.name = "ColumnString")) }

/-- Second loop of `reset`, over the keys `ds` that remain, the first of them being key `j`. -/
def resetSortColumns (block : Block) :
    List SortColumnDescription → Nat → SortCursorImpl → Except Exception SortCursorImpl
  | [], _, c => .ok c
  | d :: ds, j, c =>
    match resolve block d with
    | .error e => .error e
    | .ok column_number =>
      match block.getByPosition column_number with
      | .error e => .error e
      | .ok col =>
        if j < c.need_collation.length then
          resetSortColumns block ds (j + 1) (pushSortColumn c j col.column d.collator)
        else .error .OutOfRange

/-- `void reset(const Block & block)`: put the cursor at the start of a new block. -/
def reset (c : SortCursorImpl) (block : Block) : Except Exception SortCursorImpl :=
  match resetAllColumns block 0 block.columns [] with
  | .error e => .error e
  | .ok all =>
    match resetSortColumns block c.desc 0 { c with all_columns := all, sort_columns := [] } with
    | .error e => .error e
    | .ok c1 =>
      match c1.all_columns[0]? with
      | none => .error .OutOfRange
      | some first => .ok { c1 with pos := 0, rows := first.size }

/-- `SortCursorImpl(const Block & block, const SortDescription & desc_, size_t order_)`. -/
def create (block : Block) (desc : SortDescription) (order : Nat) :
    Except Exception SortCursorImpl :=
  reset
    { all_columns := [], sort_columns := [], desc := desc, sort_columns_size := desc.length,
      pos := 0, rows := 0, order := order,
      need_collation := List.replicate desc.length false, has_collation := false }
    block

/-- `bool isLast() const`. -/
def isLast (c : SortCursorImpl) : Bool := decide (c.pos + 1 ≥ c.rows)

/-- `void next()`. -/
def next (c : SortCursorImpl) : SortCursorImpl := { c with pos := c.pos + 1 }

end SortCursorImpl

/-- Read of element `i` of a vector. -/
def vectorAt {α : Type} (v : List α) (i : Nat) : Except Exception α :=
  match v[i]? with
  | some x => .ok x
  | none => .error .OutOfRange

/-! ## `SortCursor` -/

namespace SortCursor

/-- The call `impl->sort_columns[i]->compareAt(impl->pos, rhs.impl->pos,
*(rhs.impl->sort_columns[i]))` of round `i`. -/
def compareKey (cmp : Field → Field → Int) (a b : SortCursorImpl) (i : Nat) :
    Except Exception Int := do
  let ca ← vectorAt a.sort_columns i
  let cb ← vectorAt b.sort_columns i
  IColumn.compareAt cmp ca a.pos b.pos cb

/-- The value `res` of round `i` of `SortCursor::operator<`:
`desc[i].direction * sort_columns[i]->compareAt(pos, rhs.pos, *rhs.sort_columns[i])`. -/
def res (cmp : Field → Field → Int) (a b : SortCursorImpl) (i : Nat) : Except Exception Int := do
  let d ← vectorAt a.desc i
  let r ← compareKey cmp a b i
  pure (d.direction * r)

/-- The loop of `SortCursor::operator<` from round `i`, with `n` rounds left. -/
def ltFrom (cmp : Field → Field → Int) (a b : SortCursorImpl) : Nat → Nat → Except Exception Bool
  | _, 0 => .ok (decide (a.order > b.order))
  | i, n + 1 =>
    match res cmp a b i with
    | .error e => .error e
    | .ok r =>
      if r > 0 then .ok true
      else if r < 0 then .ok false
      else ltFrom cmp a b (i + 1) n

/-- `bool SortCursor::operator< (const SortCursor & rhs) const`; inverted, so that a
priority queue hands out the elements in the wanted order. -/
def lt (cmp : Field → Field → Int) (a b : SortCursorImpl) : Except Exception Bool :=
  ltFrom cmp a b 0 a.sort_columns_size

end SortCursor

/-! ## `SortCursorWithCollation` -/

namespace SortCursorWithCollation

/-- The value of `res` in round `i` of `SortCursorWithCollation::operator<`
before it is multiplied by the direction. -/
def raw (cmp : Field → Field → Int) (a b : SortCursorImpl) (i : Nat) : Except Exception Int := do
  let flag ← vectorAt a.need_collation i
  if flag then
    let ca ← vectorAt a.sort_columns i
    if ca.name ≠ "ColumnString" then throw Exception.BadCast
    let cb ← vectorAt b.sort_columns i
    let d ← vectorAt a.desc i
    match d.collator with
    | none => throw Exception.NullPointer
    | some collator => IColumn.compareAtCollated ca a.pos b.pos cb collator
  else
    let ca ← vectorAt a.sort_columns i
    let cb ← vectorAt b.sort_columns i
    IColumn.compareAt cmp ca a.pos b.pos cb

/-- The value of `res` in round `i` after `res *= impl->desc[i].direction`. -/
def res (cmp : Field → Field → Int) (a b : SortCursorImpl) (i : Nat) : Except Exception Int := do
  let r ← raw cmp a b i
  let d ← vectorAt a.desc i
  pure (r * d.direction)

/-- The loop of `SortCursorWithCollation::operator<` from round `i`, with `n` rounds left. -/
def ltFrom (cmp : Field → Field → Int) (a b : SortCursorImpl) : Nat → Nat → Except Exception Bool
  | _, 0 => .ok (decide (a.order > b.order))
  | i, n + 1 =>
    match res cmp a b i with
    | .error e => .error e
    | .ok r =>
      if r > 0 then .ok true
      else if r < 0 then .ok false
      else ltFrom cmp a b (i + 1) n

/-- `bool SortCursorWithCollation::operator< (const SortCursorWithCollation & rhs) const`. -/
def lt (cmp : Field → Field → Int) (a b : SortCursorImpl) : Except Exception Bool :=
  ltFrom cmp a b 0 a.sort_columns_size

end SortCursorWithCollation

/-! ## The comparison loop in isolation -/

/-- The loop shared by both comparators: rounds `i`, `i + 1`, ..., `i + n - 1` inspect the
values `r i`, `r (i + 1)`, ...; the first nonzero one decides, and when none is nonzero
the answer is `tie`. -/
def decideFrom (r : Nat → Except Exception Int) (tie : Bool) : Nat → Nat → Except Exception Bool
  | _, 0 => .ok tie
  | i, n + 1 =>
    match r i with
    | .error e => .error e
    | .ok v =>
      if v > 0 then .ok true
      else if v < 0 then .ok false
      else decideFrom r tie (i + 1) n

/-! ## Concrete data used to exercise the definitions -/

/-- Three-way comparison of two character sequences by code point, shorter first. -/
def compareChars : List Char → List Char → Int
  | [], [] => 0
  | [], _ :: _ => -1
  | _ :: _, [] => 1
  | x :: xs, y :: ys =>
    if x.toNat < y.toNat then -1
    else if y.toNat < x.toNat then 1
    else compareChars xs ys

/-- Modelled from the spec: a native ordering of cell values, numbers by value and
strings by code point, used where a concrete ordering is needed. -/
def nativeCompare : Field → Field → Int
  | .int a, .int b => if a < b then -1 else if b < a then 1 else 0
  | .str a, .str b => compareChars a.data b.data
  | .int _, .str _ => -1
  | .str _, .int _ => 1

/-- Modelled from the spec: the locale of the collation example, which orders
strings in the reverse of the native ordering (so "b" comes before "a"). -/
def localeL : Collator :=
  { locale := "locale-L", compare := fun x y => nativeCompare y x }

/-- The cursor that has no column and no key. -/
def emptyCursor : SortCursorImpl :=
  { all_columns := [], sort_columns := [], desc := [], sort_columns_size := 0, pos := 0,
    rows := 0, order := 0, need_collation := [], has_collation := false }

/-- The cursor constructed over `block`, or `emptyCursor` when the construction fails. -/
def cursorOver (block : Block) (desc : SortDescription) (order : Nat) : SortCursorImpl :=
  match SortCursorImpl.create block desc order with
  | .ok c => c
  | .error _ => emptyCursor

/-- One block with an integer column `k` and a string column `v`. -/
def blockKV (rows : List (Int × String)) : Block :=
  [ { name := "k", column := { name := "ColumnInt64", data := rows.map (fun r => Field.int r.1) } },
    { name := "v", column := { name := "ColumnString", data := rows.map (fun r => Field.str r.2) } } ]

/-- One block with a single string column `s` whose runtime type is `type`. -/
def blockS (type : String) (rows : List String) : Block :=
  [ { name := "s", column := { name := type, data := rows.map Field.str } } ]

/-- Ascending by the column named `k`. -/
def descK : SortDescription := [SortColumnDescription.ofName "k" 1 none]

/-- Ascending by the column named `s` under the collation `localeL`. -/
def descS : SortDescription := [SortColumnDescription.ofName "s" 1 (some localeL)]

/-! ## Descriptions that differ in one direction -/

/-- The description `desc` with the direction of key `i` negated and nothing else changed. -/
def negateDirection : SortDescription → Nat → SortDescription
  | [], _ => []
  | d :: ds, 0 => { d with direction := -d.direction } :: ds
  | d :: ds, i + 1 => d :: negateDirection ds i

/-- The cursor `c` carrying the description `desc` in place of its own. -/
def SortCursorImpl.withDesc (c : SortCursorImpl) (desc : SortDescription) : SortCursorImpl :=
  { c with desc := desc }

/-- Ascending by the column named `k`, then ascending by the column named `v`. -/
def descKV : SortDescription :=
  [SortColumnDescription.ofName "k" 1 none, SortColumnDescription.ofName "v" 1 none]

/-! ## Closed form of the construction -/

/-- The column bound to one key by `reset`: the column number is chosen, then the column
at that position is fetched. -/
def SortCursorImpl.resolveColumn (block : Block) (d : SortColumnDescription) :
    Except Exception IColumn :=
  match SortCursorImpl.resolve block d with
  | .error e => .error e
  | .ok column_number =>
    match block.getByPosition column_number with
    | .error e => .error e
    | .ok col => .ok col.column

/-- The columns bound to the keys of a description, in the order of the keys. -/
def SortCursorImpl.resolveAll (block : Block) :
    List SortColumnDescription → Except Exception (List IColumn)
  | [] => .ok []
  | d :: ds =>
    match SortCursorImpl.resolveColumn block d with
    | .error e => .error e
    | .ok col =>
      match SortCursorImpl.resolveAll block ds with
      | .error e => .error e
      | .ok cols => .ok (col :: cols)

/-- The flag computed for one key and the column bound to it. -/
def needCollation (d : SortColumnDescription) (col : IColumn) : Bool :=
  d.collator.isSome && decide (col.name = "ColumnString")

/-- The columns of `blockKV` in the opposite order: the string column `v`, then `k`. -/
def blockVK (rows : List (Int × String)) : Block :=
  [ { name := "v", column := { name := "ColumnString", data := rows.map (fun r => Field.str r.2) } },
    { name := "k", column := { name := "ColumnInt64", data := rows.map (fun r => Field.int r.1) } } ]

/-- Ascending by the column at position 1. -/
def descSecond : SortDescription := [SortColumnDescription.ofNumber 1 1 none]

/-! ## Invariants of a cursor and the walk over one block -/

/-- The arity invariant of a cursor: the vectors indexed by the comparators have as many
entries as the description has keys. -/
structure SortCursorImpl.Arity (c : SortCursorImpl) : Prop where
  sort_columns_length : c.sort_columns.length = c.desc.length
  need_collation_length : c.need_collation.length = c.desc.length
  size_eq : c.sort_columns_size = c.desc.length

/-- The protocol by which the merge walks one cursor: emit the row at `pos`; stop if
`isLast()`, else `next()` and go on. The result is the list of the positions emitted and the
number of calls of `next()`; `none` when the step budget `fuel` does not suffice. -/
def SortCursorImpl.walk : Nat → SortCursorImpl → Option (List Nat × Nat)
  | 0, _ => none
  | fuel + 1, c =>
    if c.isLast then some ([c.pos], 0)
    else
      match SortCursorImpl.walk fuel c.next with
      | none => none
      | some r => some (c.pos :: r.1, r.2 + 1)

/-! ## Identifiers of the streams -/

/-- The character of one decimal digit. -/
def digitChar (n : Nat) : Char :=
  if n = 0 then '0' else if n = 1 then '1' else if n = 2 then '2' else if n = 3 then '3'
  else if n = 4 then '4' else if n = 5 then '5' else if n = 6 then '6' else if n = 7 then '7'
  else if n = 8 then '8' else '9'

/-- The decimal digits of `n`, most significant first, computed in at most `fuel` rounds. -/
def decimalDigits : Nat → Nat → List Char
  | 0, _ => []
  | fuel + 1, n =>
    if n < 10 then [digitChar n]
    else decimalDigits fuel (n / 10) ++ [digitChar (n % 10)]

/-- The text `operator<<` writes for a `size_t`: its decimal digits. -/
def showSize (n : Nat) : String := String.mk (decimalDigits (n + 1) n)

/-- The text `operator<<` writes for an `int`: a minus sign for a negative number, then
the decimal digits of its absolute value. -/
def showInt (i : Int) : String :=
  if i < 0 then "-" ++ showSize i.natAbs else showSize i.natAbs

/-- `String SortColumnDescription::getID() const`. -/
def SortColumnDescription.getID (d : SortColumnDescription) : String :=
  let res := d.column_name ++ ", " ++ showSize d.column_number ++ ", " ++ showInt d.direction
  match d.collator with
  | some collator => res ++ ", collation locale: " ++ collator.locale
  | none => res

/-- `String MergeSortingBlockInputStream::getID() const`, where `upstream` is the identifier
`children.back()->getID()` of the input stream. -/
def MergeSortingBlockInputStream.getID (upstream : String) (description : SortDescription) :
    String :=
  description.foldl (fun res d => res ++ ", " ++ d.getID) ("MergeSorting(" ++ upstream) ++ ")"

/-- The key entry as the specification words it: the column name when one is set, otherwise
the column number, then the direction, then the collation locale when the key has a
collator. -/
def specKeyEntry (d : SortColumnDescription) : String :=
  (if d.column_name ≠ "" then d.column_name else showSize d.column_number) ++ ", "
    ++ showInt d.direction
    ++ (match d.collator with
        | some collator => ", collation locale: " ++ collator.locale
        | none => "")

/-- The key entry the code writes: the column name, the column number and the direction,
then the collation locale when the key has a collator. -/
def keyEntry (d : SortColumnDescription) : String :=
  d.column_name ++ ", " ++ showSize d.column_number ++ ", " ++ showInt d.direction
    ++ (match d.collator with
        | some collator => ", collation locale: " ++ collator.locale
        | none => "")

/-- The value of the character of one decimal digit (zero for any other character). -/
def digitVal (c : Char) : Nat :=
  if c = '1' then 1 else if c = '2' then 2 else if c = '3' then 3 else if c = '4' then 4
  else if c = '5' then 5 else if c = '6' then 6 else if c = '7' then 7 else if c = '8' then 8
  else if c = '9' then 9 else 0

/-- The number written by a sequence of decimal digits. -/
def parseDigits (cs : List Char) : Nat :=
  cs.foldl (fun acc c => acc * 10 + digitVal c) 0

/-- A character that is a decimal digit. -/
def IsDigit (c : Char) : Prop :=
  c = '0' ∨ c = '1' ∨ c = '2' ∨ c = '3' ∨ c = '4' ∨ c = '5' ∨ c = '6' ∨ c = '7' ∨ c = '8' ∨
    c = '9'

/-- The pieces of text of which the entries of a description are made, in order: for each
key its name, its number, its direction and, when it has a collator, the collation text. -/
def idTokens : SortDescription → List (List Char)
  | [] => []
  | d :: ds =>
    match d.collator with
    | none =>
      d.column_name.data :: (showSize d.column_number).data :: (showInt d.direction).data
        :: idTokens ds
    | some collator =>
      d.column_name.data :: (showSize d.column_number).data :: (showInt d.direction).data
        :: ("collation locale: ".data ++ collator.locale.data) :: idTokens ds

/-- The text made of the given pieces, each preceded by a comma and a blank. -/
def renderTokens : List (List Char) → List Char
  | [] => []
  | t :: ts => ',' :: ' ' :: (t ++ renderTokens ts)

/-- Two keys with the same column name, column number, direction and collation locale. -/
def SameKey (a b : SortColumnDescription) : Prop :=
  a.column_name = b.column_name ∧ a.column_number = b.column_number ∧
    a.direction = b.direction ∧
    a.collator.map (fun c => c.locale) = b.collator.map (fun c => c.locale)

/-- A description none of whose column names and collation locales contains a comma. -/
def CommaFree (desc : SortDescription) : Prop :=
  ∀ d ∈ desc, ',' ∉ d.column_name.data ∧
    ∀ collator, d.collator = some collator → ',' ∉ collator.locale.data

/-! ## Three-way comparisons and the order they induce on cursors -/

/-- A three-way comparison that is reflexive-zero, antisymmetric in sign and transitive. -/
structure IsThreeWay {α : Type} (f : α → α → Int) : Prop where
  refl : ∀ x, f x x = 0
  antisymm : ∀ x y, 0 < f x y ↔ f y x < 0
  trans : ∀ x y z, f x y ≤ 0 → f y z ≤ 0 → f x z ≤ 0

/-- The first nonzero value among `g i (x i) (y i)`, `g (i + 1) (x (i + 1)) (y (i + 1))`, ...
(`n` of them), and zero when there is none: the three-way comparison of two rows by a
sequence of keys. -/
def lexFrom (g : Nat → Field → Field → Int) (x y : Nat → Field) : Nat → Nat → Int
  | _, 0 => 0
  | i, n + 1 => if g i (x i) (y i) ≠ 0 then g i (x i) (y i) else lexFrom g x y (i + 1) n

/-- The cell of key `i` at the current position of the cursor (a default value when the
key or the position does not exist). -/
def SortCursorImpl.keyCell (c : SortCursorImpl) (i : Nat) : Field :=
  match c.sort_columns[i]? with
  | some col => col.data.getD c.pos default
  | none => default

/-- The direction of key `i` of a description (zero when there is no such key). -/
def keyDirection (desc : SortDescription) (i : Nat) : Int :=
  match desc[i]? with
  | some d => d.direction
  | none => 0

/-- The comparison the collation-aware comparator applies to key `i` when the flags of the
left cursor are `flags`: the one of the collator of the key when the flag is set, the
native one otherwise. -/
def keyCompare (cmp : Field → Field → Int) (desc : SortDescription) (flags : List Bool)
    (i : Nat) : Field → Field → Int :=
  match flags[i]?, desc[i]? with
  | some true, some d =>
    match d.collator with
    | some collator => collator.compare
    | none => cmp
  | _, _ => cmp

/-- The value of round `i` of the plain comparator, as a function of the two cells. -/
def plainKey (cmp : Field → Field → Int) (desc : SortDescription) (i : Nat) :
    Field → Field → Int :=
  fun x y => keyDirection desc i * cmp x y

/-- The value of round `i` of the collation-aware comparator, as a function of the two
cells. -/
def collatedKey (cmp : Field → Field → Int) (desc : SortDescription) (flags : List Bool)
    (i : Nat) : Field → Field → Int :=
  fun x y => keyCompare cmp desc flags i x y * keyDirection desc i

/-- A cursor on which the comparators can be evaluated: the arity invariant holds, the
position is a row of every sort column, and a set flag belongs to a key that has a collator
and a string column. -/
structure SortCursorImpl.Ready (c : SortCursorImpl) : Prop where
  arity : c.Arity
  in_range : ∀ col ∈ c.sort_columns, c.pos < col.data.length
  flag_sound : ∀ i : Nat, c.need_collation[i]? = some true →
    ∃ d col collator, c.desc[i]? = some d ∧ d.collator = some collator ∧
      c.sort_columns[i]? = some col ∧ col.name = "ColumnString"

/-- The answer of a comparator whose keys compare to `t x y` and whose stability tags are
`oa` and `ob`: true when the keys compare positive, or compare zero with `oa > ob`. -/
def belowBy {α : Type} (t : α → α → Int) (x : α) (oa : Nat) (y : α) (ob : Nat) : Bool :=
  decide (0 < t x y) || (decide (t x y = 0) && decide (oa > ob))

/-- The three-way comparison of the current rows of two cursors by the key sequence and the
directions of the description, every key in the native ordering. -/
def SortCursor.compare3 (cmp : Field → Field → Int) (a b : SortCursorImpl) : Int :=
  lexFrom (plainKey cmp a.desc) a.keyCell b.keyCell 0 a.sort_columns_size

/-- The three-way comparison of the current rows of two cursors by the key sequence and the
directions of the description, a key whose flag is set on the left cursor in the ordering of
its collator and any other key in the native ordering. -/
def SortCursorWithCollation.compare3 (cmp : Field → Field → Int) (a b : SortCursorImpl) : Int :=
  lexFrom (collatedKey cmp a.desc a.need_collation) a.keyCell b.keyCell 0 a.sort_columns_size

/-- Every collator of the description compares as a three-way comparison. -/
def CollatorsThreeWay (desc : SortDescription) : Prop :=
  ∀ d ∈ desc, ∀ collator, d.collator = some collator → IsThreeWay collator.compare

/-- Modelled from the spec: the columns of a block have equal lengths. -/
def Block.Rectangular (block : Block) : Prop :=
  ∀ c ∈ block, c.column.size = block.rows

/-- The cursor of arrival index `order` over a block with the single string row `s`, under
the collated description `descS`. -/
def cursorS (s : String) (order : Nat) : SortCursorImpl :=
  cursorOver (blockS "ColumnString" [s]) descS order

/-- A three-way comparison that is antisymmetric in sign. -/
def AntisymmSign {α : Type} (f : α → α → Int) : Prop :=
  ∀ x y, 0 < f x y ↔ f y x < 0

/-- Every collator of the description compares antisymmetrically in sign. -/
def CollatorsAntisymm (desc : SortDescription) : Prop :=
  ∀ d ∈ desc, ∀ collator, d.collator = some collator → AntisymmSign collator.compare

/-! ## The merge driver -/

/-- Row of the output: the values of all the columns of one input row. -/
abbrev Row := List Field

/-- The values at row `p` of the given columns: `(*all_columns[i])[p]` for every `i`. -/
def columnsAt : List IColumn → Nat → Except Exception Row
  | [], _ => .ok []
  | col :: cols, p =>
    match col.get p with
    | .error e => .error e
    | .ok x =>
      match columnsAt cols p with
      | .error e => .error e
      | .ok xs => .ok (x :: xs)

/-- Modelled from the spec: the copy of the current row of a cursor, all columns of it. -/
def SortCursorImpl.currentRow (c : SortCursorImpl) : Except Exception Row :=
  columnsAt c.all_columns c.pos

/-- Modelled from the spec: extraction from the priority structure, which holds the active
cursors. The cursor handed out is one that is below no other cursor of the structure under
the comparator `lt` (the top of a max-priority queue ordered by `lt`); it is returned with
the cursors that remain. -/
def popTop (lt : SortCursorImpl → SortCursorImpl → Except Exception Bool) :
    List SortCursorImpl → Except Exception (Option (SortCursorImpl × List SortCursorImpl))
  | [] => .ok none
  | x :: xs =>
    match popTop lt xs with
    | .error e => .error e
    | .ok none => .ok (some (x, []))
    | .ok (some (y, ys)) =>
      match lt x y with
      | .error e => .error e
      | .ok true => .ok (some (y, x :: ys))
      | .ok false => .ok (some (x, y :: ys))

/-- Modelled from the spec: step 3 of the merge driver (`mergeImpl`, of which only the
declaration is in the sources). Until the structure is empty: extract the next cursor, append
its current row to the output, then discard the cursor if it is at its last row, else advance
it and put it back. The output pairs every row with the cursor it was copied from, as that
cursor stood; `fuel` bounds the number of rounds. -/
def mergeLoop (lt : SortCursorImpl → SortCursorImpl → Except Exception Bool) :
    Nat → List SortCursorImpl → Except Exception (List (SortCursorImpl × Row))
  | 0, queue => if queue.isEmpty then .ok [] else .error .NotTerminated
  | fuel + 1, queue =>
    match popTop lt queue with
    | .error e => .error e
    | .ok none => .ok []
    | .ok (some (current, rest)) =>
      match current.currentRow with
      | .error e => .error e
      | .ok row =>
        match mergeLoop lt fuel (if current.isLast then rest else current.next :: rest) with
        | .error e => .error e
        | .ok out => .ok ((current, row) :: out)

/-- Modelled from the spec: step 1 of the merge driver. For each input block, in arrival
order, a cursor whose stability tag is the arrival index of the block; blocks with zero rows
are skipped. -/
def buildCursors (description : SortDescription) :
    List Block → Nat → Except Exception (List SortCursorImpl)
  | [], _ => .ok []
  | block :: blocks, index =>
    if block.rows = 0 then buildCursors description blocks (index + 1)
    else
      match SortCursorImpl.create block description index with
      | .error e => .error e
      | .ok c =>
        match buildCursors description blocks (index + 1) with
        | .error e => .error e
        | .ok cs => .ok (c :: cs)

/-- The number of rows that the cursors of a queue have yet to give. -/
def remaining (queue : List SortCursorImpl) : Nat :=
  (queue.map (fun c => c.rows - c.pos)).sum

/-- Modelled from the spec: the merge driver (`MergeSortingBlockInputStream::merge`, of which
only the declaration is in the sources). The cursors are built, the comparator is chosen once
(the collation-aware one if some cursor has `has_collation`, the plain one otherwise) and the
merge loop is run. Every output row comes with the cursor it was copied from. -/
def mergeTrace (cmp : Field → Field → Int) (description : SortDescription)
    (blocks : List Block) : Except Exception (List (SortCursorImpl × Row)) :=
  match buildCursors description blocks 0 with
  | .error e => .error e
  | .ok cursors =>
    if cursors.any (fun c => c.has_collation) then
      mergeLoop (SortCursorWithCollation.lt cmp) (remaining cursors) cursors
    else
      mergeLoop (SortCursor.lt cmp) (remaining cursors) cursors

/-- Modelled from the spec: the rows of the merged block, in order. -/
def merge (cmp : Field → Field → Int) (description : SortDescription) (blocks : List Block) :
    Except Exception (List Row) :=
  match mergeTrace cmp description blocks with
  | .error e => .error e
  | .ok out => .ok (out.map (fun p => p.2))

/-- Row `p` of a block: the value of every column at that row. -/
def Block.rowAt (block : Block) (p : Nat) : Row :=
  block.map (fun c => c.column.data.getD p default)

/-- The rows of a block, in order. -/
def Block.rowList (block : Block) : List Row :=
  (List.range' 0 block.rows).map block.rowAt

/-- The row of a cursor at position `p`. -/
def SortCursorImpl.rowAt (c : SortCursorImpl) (p : Nat) : Row :=
  c.all_columns.map (fun col => col.data.getD p default)

/-- The rows a cursor has yet to give: those from its position to its last row. -/
def SortCursorImpl.rowsLeft (c : SortCursorImpl) : List Row :=
  (List.range' c.pos (c.rows - c.pos)).map c.rowAt

/-- A list in which every element stands in the relation `r` to its successor. -/
def AdjacentSorted {α : Type} (r : α → α → Prop) : List α → Prop
  | [] => True
  | [_] => True
  | x :: y :: l => r x y ∧ AdjacentSorted r (y :: l)

/-- A cursor of the merge while it is in the priority structure: it is ready for the
comparators, stands on a row, and all its columns have `rows` rows. -/
structure SortCursorImpl.Active (c : SortCursorImpl) : Prop where
  arity : c.Arity
  pos_lt : c.pos < c.rows
  sort_size : ∀ col ∈ c.sort_columns, col.data.length = c.rows
  all_size : ∀ col ∈ c.all_columns, col.data.length = c.rows
  flag_sound : ∀ i : Nat, c.need_collation[i]? = some true →
    ∃ d col collator, c.desc[i]? = some d ∧ d.collator = some collator ∧
      c.sort_columns[i]? = some col ∧ col.name = "ColumnString"

/-- The blocks the merge can take: the columns of each have equal lengths, and every key of
the description resolves in each block that has rows. -/
def Mergeable (description : SortDescription) (blocks : List Block) : Prop :=
  ∀ block ∈ blocks, block.Rectangular ∧
    (0 < block.rows → ∀ d ∈ description, ∃ col, SortCursorImpl.resolveColumn block d = .ok col)

/-- The answer of the plain comparator on ready cursors, as a total function. -/
def SortCursor.below (cmp : Field → Field → Int) (a b : SortCursorImpl) : Bool :=
  belowBy (fun x y => lexFrom (plainKey cmp a.desc) x y 0 a.sort_columns_size)
    a.keyCell a.order b.keyCell b.order

/-- The answer of the collation-aware comparator on ready cursors, as a total function. -/
def SortCursorWithCollation.below (cmp : Field → Field → Int) (a b : SortCursorImpl) : Bool :=
  belowBy
    (fun x y => lexFrom (collatedKey cmp a.desc a.need_collation) x y 0 a.sort_columns_size)
    a.keyCell a.order b.keyCell b.order

/-- The rows of a block are in the order of the description: every row compares less than
or equal to the next one, by the key sequence and the directions, a key that needs collation
in this block being compared by its collator. -/
def Block.SortedBy (cmp : Field → Field → Int) (description : SortDescription)
    (block : Block) : Prop :=
  ∀ j, j + 1 < block.rows →
    SortCursorWithCollation.compare3 cmp
      (SortCursorImpl.next^[j] (cursorOver block description 0))
      (SortCursorImpl.next^[j + 1] (cursorOver block description 0)) ≤ 0

/-- The blocks with rows give cursors with the same `need_collation` flags: every key column
is string-typed in all of them or in none. -/
def SameFlags (description : SortDescription) (blocks : List Block) : Prop :=
  ∀ b1 ∈ blocks, ∀ b2 ∈ blocks, 0 < b1.rows → 0 < b2.rows →
    (cursorOver b1 description 0).need_collation = (cursorOver b2 description 0).need_collation

/-- What the merge keeps true of every cursor in the priority structure: it is active, has
the description `description` and the flags `flags`, and the rows it has yet to give are in
the order of the description. -/
structure InMerge (cmp : Field → Field → Int) (description : SortDescription)
    (flags : List Bool) (c : SortCursorImpl) : Prop where
  active : c.Active
  desc_eq : c.desc = description
  flags_eq : c.need_collation = flags
  sorted : ∀ j, c.pos + j + 1 < c.rows →
    SortCursorWithCollation.compare3 cmp (SortCursorImpl.next^[j] c)
      (SortCursorImpl.next^[j + 1] c) ≤ 0

/-- Two blocks with one string row each under the collated description: the column of the
first block has the type "ColumnFixedString", for which the collation is not used, the
column of the second has the type "ColumnString". -/
def blocksMixed : List Block :=
  [blockS "ColumnFixedString" ["b"], blockS "ColumnString" ["a"]]

/-- The blocks of the example of the specification. -/
def blocksExample : List Block :=
  [blockKV [(1, "x"), (3, "y")], blockKV [(2, "z")]]

/-! # Theorems -/

/-! ## The comparison loop -/

theorem SortCursor.ltFrom_eq_decideFrom (cmp : Field → Field → Int) (a b : SortCursorImpl)
    (i n : Nat) :
    SortCursor.ltFrom cmp a b i n
      = decideFrom (SortCursor.res cmp a b) (decide (a.order > b.order)) i n := by
  induction n generalizing i with
  | zero => rfl
  | succ n ih =>
    simp only [SortCursor.ltFrom, decideFrom]
    cases SortCursor.res cmp a b i with
    | error e => rfl
    | ok v => simp only [ih]

theorem SortCursorWithCollation.collated_ltFrom_eq_decideFrom (cmp : Field → Field → Int)
    (a b : SortCursorImpl) (i n : Nat) :
    SortCursorWithCollation.ltFrom cmp a b i n
      = decideFrom (SortCursorWithCollation.res cmp a b) (decide (a.order > b.order)) i n := by
  induction n generalizing i with
  | zero => rfl
  | succ n ih =>
    simp only [SortCursorWithCollation.ltFrom, decideFrom]
    cases SortCursorWithCollation.res cmp a b i with
    | error e => rfl
    | ok v => simp only [ih]

/-- When every inspected round yields zero the loop answers `tie`. -/
theorem decideFrom_all_zero (r : Nat → Except Exception Int) (tie : Bool) (i n : Nat)
    (h : ∀ j, i ≤ j → j < i + n → r j = .ok 0) : decideFrom r tie i n = .ok tie := by
  induction n generalizing i with
  | zero => rfl
  | succ n ih =>
    have h0 : r i = .ok 0 := h i (Nat.le_refl i) (by omega)
    simp only [decideFrom, h0]
    simp only [gt_iff_lt, lt_self_iff_false, if_false]
    exact ih (i + 1) (fun j h1 h2 => h j (by omega) (by omega))

/-- The first nonzero round decides, whatever the later rounds and `tie` are. -/
theorem decideFrom_first_nonzero (r : Nat → Except Exception Int) (tie : Bool) (i n k : Nat)
    (v : Int) (hk : k < n) (hzero : ∀ j, i ≤ j → j < i + k → r j = .ok 0)
    (hv : r (i + k) = .ok v) (hne : v ≠ 0) :
    decideFrom r tie i n = .ok (decide (0 < v)) := by
  induction k generalizing i n with
  | zero =>
    obtain ⟨m, rfl⟩ : ∃ m, n = m + 1 := ⟨n - 1, by omega⟩
    simp only [Nat.add_zero] at hv
    simp only [decideFrom, hv]
    by_cases hpos : 0 < v
    · simp [hpos]
    · have hneg : v < 0 := by omega
      simp [hpos, hneg]
  | succ k ih =>
    obtain ⟨m, rfl⟩ : ∃ m, n = m + 1 := ⟨n - 1, by omega⟩
    have h0 : r i = .ok 0 := hzero i (Nat.le_refl i) (by omega)
    simp only [decideFrom, h0]
    simp only [gt_iff_lt, lt_self_iff_false, if_false]
    refine ih (i + 1) m (by omega) (fun j h1 h2 => hzero j (by omega) (by omega)) ?_
    rw [← hv]; congr 1; omega

/-- The loop only depends on the rounds it can reach. -/
theorem decideFrom_congr (r r1 : Nat → Except Exception Int) (tie : Bool) (i n : Nat)
    (h : ∀ j, i ≤ j → j < i + n → r j = r1 j) : decideFrom r tie i n = decideFrom r1 tie i n := by
  induction n generalizing i with
  | zero => rfl
  | succ n ih =>
    simp only [decideFrom, h i (Nat.le_refl i) (by omega)]
    cases r1 i with
    | error e => rfl
    | ok v => simp only [ih (i + 1) (fun j h1 h2 => h j (by omega) (by omega))]

theorem SortCursor.lt_eq_decideFrom (cmp : Field → Field → Int) (a b : SortCursorImpl) :
    SortCursor.lt cmp a b
      = decideFrom (SortCursor.res cmp a b) (decide (a.order > b.order)) 0 a.sort_columns_size :=
  SortCursor.ltFrom_eq_decideFrom cmp a b 0 a.sort_columns_size

theorem SortCursorWithCollation.collated_lt_eq_decideFrom (cmp : Field → Field → Int)
    (a b : SortCursorImpl) :
    SortCursorWithCollation.lt cmp a b
      = decideFrom (SortCursorWithCollation.res cmp a b) (decide (a.order > b.order)) 0
          a.sort_columns_size :=
  SortCursorWithCollation.collated_ltFrom_eq_decideFrom cmp a b 0 a.sort_columns_size

theorem vectorAt_of_lt {α : Type} (v : List α) (i : Nat) (h : i < v.length) :
    vectorAt v i = .ok (v.get ⟨i, h⟩) := by
  simp [vectorAt, List.getElem?_eq_getElem h]

/-- A key whose two cells compare equal contributes zero, whatever its direction. -/
theorem SortCursor.res_of_compareKey_zero (cmp : Field → Field → Int) (a b : SortCursorImpl)
    (i : Nat) (hi : i < a.desc.length) (h : SortCursor.compareKey cmp a b i = .ok 0) :
    SortCursor.res cmp a b i = .ok 0 := by
  simp [SortCursor.res, vectorAt_of_lt a.desc i hi, h, bind, Except.bind, pure, Except.pure]

theorem SortCursorWithCollation.res_of_raw_zero (cmp : Field → Field → Int)
    (a b : SortCursorImpl) (i : Nat) (hi : i < a.desc.length)
    (h : SortCursorWithCollation.raw cmp a b i = .ok 0) :
    SortCursorWithCollation.res cmp a b i = .ok 0 := by
  simp [SortCursorWithCollation.res, vectorAt_of_lt a.desc i hi, h, bind, Except.bind, pure,
    Except.pure]

/-! ## Stability tie-break -/

/-- C2: when the current rows of two cursors compare equal (0) on every key, each of the two
comparators answers by the stability tag alone: `a < b` holds exactly when
`a.order > b.order`, so in the priority queue the cursor with the smaller tag is on top. -/
theorem stability_tie_break (cmp : Field → Field → Int) (a b : SortCursorImpl)
    (hsize : a.sort_columns_size ≤ a.desc.length) :
    ((∀ i, i < a.sort_columns_size → SortCursor.compareKey cmp a b i = .ok 0) →
      SortCursor.lt cmp a b = .ok (decide (a.order > b.order))) ∧
    ((∀ i, i < a.sort_columns_size → SortCursorWithCollation.raw cmp a b i = .ok 0) →
      SortCursorWithCollation.lt cmp a b = .ok (decide (a.order > b.order))) := by
  constructor
  · intro h
    rw [SortCursor.lt_eq_decideFrom]
    apply decideFrom_all_zero
    intro j _ hj
    have hj1 : j < a.sort_columns_size := by omega
    exact SortCursor.res_of_compareKey_zero cmp a b j (by omega) (h j hj1)
  · intro h
    rw [SortCursorWithCollation.collated_lt_eq_decideFrom]
    apply decideFrom_all_zero
    intro j _ hj
    have hj1 : j < a.sort_columns_size := by omega
    exact SortCursorWithCollation.res_of_raw_zero cmp a b j (by omega) (h j hj1)

/-- Two blocks whose only rows tie on the key `k`: the cursor of arrival index 0 is not below
the cursor of arrival index 1, under either comparator. -/
theorem stability_tie_break_witness :
    (cursorOver (blockKV [(1, "x")]) descK 0).sort_columns_size
        ≤ (cursorOver (blockKV [(1, "x")]) descK 0).desc.length ∧
    SortCursor.lt nativeCompare (cursorOver (blockKV [(1, "x")]) descK 0)
        (cursorOver (blockKV [(1, "y")]) descK 1) = .ok false ∧
    SortCursorWithCollation.lt nativeCompare (cursorOver (blockKV [(1, "x")]) descK 0)
        (cursorOver (blockKV [(1, "y")]) descK 1) = .ok false :=
  ⟨by decide,
   (stability_tie_break nativeCompare (cursorOver (blockKV [(1, "x")]) descK 0)
      (cursorOver (blockKV [(1, "y")]) descK 1) (by decide)).1 (by decide),
   (stability_tie_break nativeCompare (cursorOver (blockKV [(1, "x")]) descK 0)
      (cursorOver (blockKV [(1, "y")]) descK 1) (by decide)).2 (by decide)⟩

theorem IColumn.get_of_getElem? (c : IColumn) (n : Nat) (x : Field) (h : c.data[n]? = some x) :
    c.get n = .ok x := by
  simp [IColumn.get, h]

/-- Round `i` of the plain comparator when every read is in range. -/
theorem SortCursor.res_eq (cmp : Field → Field → Int) (a b : SortCursorImpl) (i : Nat)
    (d : SortColumnDescription) (ca cb : IColumn) (x y : Field)
    (hd : a.desc[i]? = some d) (hca : a.sort_columns[i]? = some ca)
    (hcb : b.sort_columns[i]? = some cb) (hx : ca.data[a.pos]? = some x)
    (hy : cb.data[b.pos]? = some y) :
    SortCursor.res cmp a b i = .ok (d.direction * cmp x y) := by
  simp [SortCursor.res, SortCursor.compareKey, vectorAt, hd, hca, hcb, IColumn.compareAt,
    IColumn.get, hx, hy, bind, Except.bind, pure, Except.pure]

/-! ## The plain comparator -/

/-- C4: `SortCursor::operator<` is the direction-signed lexicographic order. Round `i` computes
`direction_i * compareAt_i(a.pos, b.pos)`; the first round whose value is nonzero decides
(true when the value is positive, false when it is negative) whatever the later keys and the
stability tags are; the stability tag decides only when every key yields zero. -/
theorem plain_comparator_lexicographic (cmp : Field → Field → Int) (a b : SortCursorImpl) :
    (∀ (i : Nat) (d : SortColumnDescription) (ca cb : IColumn) (x y : Field),
      a.desc[i]? = some d → a.sort_columns[i]? = some ca → b.sort_columns[i]? = some cb →
      ca.data[a.pos]? = some x → cb.data[b.pos]? = some y →
      SortCursor.res cmp a b i = .ok (d.direction * cmp x y)) ∧
    (∀ (i : Nat) (v : Int), i < a.sort_columns_size →
      (∀ j, j < i → SortCursor.res cmp a b j = .ok 0) →
      SortCursor.res cmp a b i = .ok v → v ≠ 0 →
      SortCursor.lt cmp a b = .ok (decide (0 < v))) ∧
    ((∀ j, j < a.sort_columns_size → SortCursor.res cmp a b j = .ok 0) →
      SortCursor.lt cmp a b = .ok (decide (a.order > b.order))) := by
  refine ⟨?_, ?_, ?_⟩
  · intro i d ca cb x y hd hca hcb hx hy
    exact SortCursor.res_eq cmp a b i d ca cb x y hd hca hcb hx hy
  · intro i v hi hzero hv hne
    rw [SortCursor.lt_eq_decideFrom]
    exact decideFrom_first_nonzero _ _ 0 a.sort_columns_size i v hi
      (fun j _ hj => hzero j (by omega)) (by simpa using hv) hne
  · intro hzero
    rw [SortCursor.lt_eq_decideFrom]
    exact decideFrom_all_zero _ _ 0 a.sort_columns_size (fun j _ hj => hzero j (by omega))

/-- Keys `(k, v)` with `k` ascending: the row `(1, "x")` against the row `(2, "z")` is decided
by the first key, whose value is `1 * (-1)`. -/
theorem plain_comparator_lexicographic_witness :
    SortCursor.res nativeCompare (cursorOver (blockKV [(1, "x")]) descK 0)
        (cursorOver (blockKV [(2, "z")]) descK 1) 0 = .ok (-1) ∧
    SortCursor.lt nativeCompare (cursorOver (blockKV [(1, "x")]) descK 0)
        (cursorOver (blockKV [(2, "z")]) descK 1) = .ok false ∧
    SortCursor.lt nativeCompare (cursorOver (blockKV [(1, "x")]) descK 0)
        (cursorOver (blockKV [(1, "y")]) descK 1) = .ok false :=
  ⟨(plain_comparator_lexicographic nativeCompare (cursorOver (blockKV [(1, "x")]) descK 0)
      (cursorOver (blockKV [(2, "z")]) descK 1)).1 0 (SortColumnDescription.ofName "k" 1 none)
      { name := "ColumnInt64", data := [Field.int 1] }
      { name := "ColumnInt64", data := [Field.int 2] } (Field.int 1) (Field.int 2)
      rfl rfl rfl rfl rfl,
   ((plain_comparator_lexicographic nativeCompare (cursorOver (blockKV [(1, "x")]) descK 0)
      (cursorOver (blockKV [(2, "z")]) descK 1)).2.1 0 (-1) (by decide) (by decide) (by decide)
      (by decide)).trans (by decide),
   (plain_comparator_lexicographic nativeCompare (cursorOver (blockKV [(1, "x")]) descK 0)
      (cursorOver (blockKV [(1, "y")]) descK 1)).2.2 (by decide)⟩

/-- Round `i` of the collation-aware comparator on a key that uses its collator. -/
theorem SortCursorWithCollation.res_eq_collated (cmp : Field → Field → Int)
    (a b : SortCursorImpl) (i : Nat) (d : SortColumnDescription) (collator : Collator)
    (ca cb : IColumn) (x y : Field)
    (hf : a.need_collation[i]? = some true) (hd : a.desc[i]? = some d)
    (hc : d.collator = some collator) (hca : a.sort_columns[i]? = some ca)
    (hname : ca.name = "ColumnString") (hcb : b.sort_columns[i]? = some cb)
    (hx : ca.data[a.pos]? = some x) (hy : cb.data[b.pos]? = some y) :
    SortCursorWithCollation.res cmp a b i = .ok (collator.compare x y * d.direction) := by
  simp [SortCursorWithCollation.res, SortCursorWithCollation.raw, vectorAt, hf, hd, hc, hca,
    hname, hcb, IColumn.compareAtCollated, IColumn.get, hx, hy, bind, Except.bind, pure,
    Except.pure]

/-- Round `i` of the collation-aware comparator on a key that does not use a collator. -/
theorem SortCursorWithCollation.res_eq_native (cmp : Field → Field → Int)
    (a b : SortCursorImpl) (i : Nat) (d : SortColumnDescription) (ca cb : IColumn) (x y : Field)
    (hf : a.need_collation[i]? = some false) (hd : a.desc[i]? = some d)
    (hca : a.sort_columns[i]? = some ca) (hcb : b.sort_columns[i]? = some cb)
    (hx : ca.data[a.pos]? = some x) (hy : cb.data[b.pos]? = some y) :
    SortCursorWithCollation.res cmp a b i = .ok (cmp x y * d.direction) := by
  simp [SortCursorWithCollation.res, SortCursorWithCollation.raw, vectorAt, hf, hd, hca, hcb,
    IColumn.compareAt, IColumn.get, hx, hy, bind, Except.bind, pure, Except.pure]

/-! ## The collation-aware comparator -/

/-- C7: `SortCursorWithCollation::operator<` runs the first-nonzero-key loop of the plain
comparator; the value of a key whose `need_collation` flag is set is the result of the
collator of that key times the direction, the value of any other key is the native
comparison times the direction. With one ascending collated key whose collator puts "b"
before "a", the cursor on "a" is below the cursor on "b", so "b" is extracted first, while
the plain comparator orders the two cursors the other way round. -/
theorem collation_comparator (cmp : Field → Field → Int) (a b : SortCursorImpl) :
    (∀ (i : Nat) (d : SortColumnDescription) (collator : Collator) (ca cb : IColumn)
      (x y : Field),
      a.need_collation[i]? = some true → a.desc[i]? = some d → d.collator = some collator →
      a.sort_columns[i]? = some ca → ca.name = "ColumnString" →
      b.sort_columns[i]? = some cb → ca.data[a.pos]? = some x → cb.data[b.pos]? = some y →
      SortCursorWithCollation.res cmp a b i = .ok (collator.compare x y * d.direction)) ∧
    (∀ (i : Nat) (d : SortColumnDescription) (ca cb : IColumn) (x y : Field),
      a.need_collation[i]? = some false → a.desc[i]? = some d →
      a.sort_columns[i]? = some ca → b.sort_columns[i]? = some cb →
      ca.data[a.pos]? = some x → cb.data[b.pos]? = some y →
      SortCursorWithCollation.res cmp a b i = .ok (cmp x y * d.direction)) ∧
    (∀ (i : Nat) (v : Int), i < a.sort_columns_size →
      (∀ j, j < i → SortCursorWithCollation.res cmp a b j = .ok 0) →
      SortCursorWithCollation.res cmp a b i = .ok v → v ≠ 0 →
      SortCursorWithCollation.lt cmp a b = .ok (decide (0 < v))) ∧
    ((∀ j, j < a.sort_columns_size → SortCursorWithCollation.res cmp a b j = .ok 0) →
      SortCursorWithCollation.lt cmp a b = .ok (decide (a.order > b.order))) ∧
    (SortCursorWithCollation.lt nativeCompare
        (cursorOver (blockS "ColumnString" ["a"]) descS 0)
        (cursorOver (blockS "ColumnString" ["b"]) descS 1) = .ok true ∧
      SortCursorWithCollation.lt nativeCompare
        (cursorOver (blockS "ColumnString" ["b"]) descS 1)
        (cursorOver (blockS "ColumnString" ["a"]) descS 0) = .ok false ∧
      SortCursor.lt nativeCompare
        (cursorOver (blockS "ColumnString" ["a"]) descS 0)
        (cursorOver (blockS "ColumnString" ["b"]) descS 1) = .ok false) := by
  refine ⟨?_, ?_, ?_, ?_, ?_⟩
  · intro i d collator ca cb x y hf hd hc hca hname hcb hx hy
    exact SortCursorWithCollation.res_eq_collated cmp a b i d collator ca cb x y hf hd hc hca
      hname hcb hx hy
  · intro i d ca cb x y hf hd hca hcb hx hy
    exact SortCursorWithCollation.res_eq_native cmp a b i d ca cb x y hf hd hca hcb hx hy
  · intro i v hi hzero hv hne
    rw [SortCursorWithCollation.collated_lt_eq_decideFrom]
    exact decideFrom_first_nonzero _ _ 0 a.sort_columns_size i v hi
      (fun j _ hj => hzero j (by omega)) (by simpa using hv) hne
  · intro hzero
    rw [SortCursorWithCollation.collated_lt_eq_decideFrom]
    exact decideFrom_all_zero _ _ 0 a.sort_columns_size (fun j _ hj => hzero j (by omega))
  · exact ⟨by decide, by decide, by decide⟩

/-- The collation example: the only key of the cursor on "a" is collated, its value against
the cursor on "b" is `1 * 1`, and that value decides. -/
theorem collation_comparator_witness :
    SortCursorWithCollation.res nativeCompare (cursorOver (blockS "ColumnString" ["a"]) descS 0)
        (cursorOver (blockS "ColumnString" ["b"]) descS 1) 0 = .ok 1 ∧
    SortCursorWithCollation.res nativeCompare (cursorOver (blockKV [(1, "x")]) descK 0)
        (cursorOver (blockKV [(2, "z")]) descK 1) 0 = .ok (-1) ∧
    SortCursorWithCollation.lt nativeCompare (cursorOver (blockS "ColumnString" ["a"]) descS 0)
        (cursorOver (blockS "ColumnString" ["b"]) descS 1) = .ok true ∧
    SortCursorWithCollation.lt nativeCompare (cursorOver (blockKV [(1, "x")]) descK 0)
        (cursorOver (blockKV [(1, "y")]) descK 1) = .ok false :=
  ⟨(collation_comparator nativeCompare (cursorOver (blockS "ColumnString" ["a"]) descS 0)
      (cursorOver (blockS "ColumnString" ["b"]) descS 1)).1 0
      (SortColumnDescription.ofName "s" 1 (some localeL)) localeL
      { name := "ColumnString", data := [Field.str "a"] }
      { name := "ColumnString", data := [Field.str "b"] } (Field.str "a") (Field.str "b")
      rfl rfl rfl rfl rfl rfl rfl rfl,
   (collation_comparator nativeCompare (cursorOver (blockKV [(1, "x")]) descK 0)
      (cursorOver (blockKV [(2, "z")]) descK 1)).2.1 0 (SortColumnDescription.ofName "k" 1 none)
      { name := "ColumnInt64", data := [Field.int 1] }
      { name := "ColumnInt64", data := [Field.int 2] } (Field.int 1) (Field.int 2)
      rfl rfl rfl rfl rfl rfl,
   ((collation_comparator nativeCompare (cursorOver (blockS "ColumnString" ["a"]) descS 0)
      (cursorOver (blockS "ColumnString" ["b"]) descS 1)).2.2.1 0 1 (by decide) (by decide)
      (by decide) (by decide)).trans (by decide),
   (collation_comparator nativeCompare (cursorOver (blockKV [(1, "x")]) descK 0)
      (cursorOver (blockKV [(1, "y")]) descK 1)).2.2.2.1 (by decide)⟩

/-! ## Direction inversion -/

theorem negateDirection_getElem?_ne (desc : SortDescription) (i k : Nat) (h : k ≠ i) :
    (negateDirection desc i)[k]? = desc[k]? := by
  induction desc generalizing i k with
  | nil => rfl
  | cons d ds ih =>
    cases i with
    | zero =>
      cases k with
      | zero => exact absurd rfl h
      | succ k => simp [negateDirection]
    | succ i =>
      cases k with
      | zero => simp [negateDirection]
      | succ k => simpa [negateDirection] using ih i k (by omega)

theorem negateDirection_getElem?_eq (desc : SortDescription) (i : Nat) :
    (negateDirection desc i)[i]?
      = desc[i]?.map (fun d => { d with direction := -d.direction }) := by
  induction desc generalizing i with
  | nil => rfl
  | cons d ds ih =>
    cases i with
    | zero => simp [negateDirection]
    | succ i => simpa [negateDirection] using ih i

theorem negateDirection_length (desc : SortDescription) (i : Nat) :
    (negateDirection desc i).length = desc.length := by
  induction desc generalizing i with
  | nil => rfl
  | cons d ds ih =>
    cases i with
    | zero => simp [negateDirection]
    | succ i => simpa [negateDirection] using ih i

/-- A round other than `i` is not affected by the negation of the direction of key `i`. -/
theorem SortCursor.res_withDesc_ne (cmp : Field → Field → Int) (a b : SortCursorImpl)
    (i k : Nat) (h : k ≠ i) :
    SortCursor.res cmp (a.withDesc (negateDirection a.desc i)) b k = SortCursor.res cmp a b k := by
  simp [SortCursor.res, SortCursor.compareKey, SortCursorImpl.withDesc, vectorAt,
    negateDirection_getElem?_ne a.desc i k h]

/-- Round `i` changes sign when the direction of key `i` is negated. -/
theorem SortCursor.res_withDesc_eq (cmp : Field → Field → Int) (a b : SortCursorImpl)
    (i : Nat) (v : Int) (h : SortCursor.res cmp a b i = .ok v) :
    SortCursor.res cmp (a.withDesc (negateDirection a.desc i)) b i = .ok (-v) := by
  simp only [SortCursor.res, SortCursor.compareKey, SortCursorImpl.withDesc, vectorAt,
    negateDirection_getElem?_eq a.desc i] at h ⊢
  cases hd : a.desc[i]? with
  | none => simp [hd, bind, Except.bind] at h
  | some d =>
    simp only [hd, Option.map_some'] at h ⊢
    cases hca : a.sort_columns[i]? with
    | none => simp [hca, bind, Except.bind] at h
    | some ca =>
      cases hcb : b.sort_columns[i]? with
      | none => simp [hca, hcb, bind, Except.bind] at h
      | some cb =>
        cases hr : IColumn.compareAt cmp ca a.pos b.pos cb with
        | error e => simp [hca, hcb, hr, bind, Except.bind] at h
        | ok r =>
          simp only [hca, hcb, hr, bind, Except.bind, pure, Except.pure] at h ⊢
          injection h with h
          rw [← h]
          simp

theorem SortCursorWithCollation.raw_withDesc (cmp : Field → Field → Int) (a b : SortCursorImpl)
    (i k : Nat) :
    SortCursorWithCollation.raw cmp (a.withDesc (negateDirection a.desc i)) b k
      = SortCursorWithCollation.raw cmp a b k := by
  by_cases h : k = i
  · subst h
    simp only [SortCursorWithCollation.raw, SortCursorImpl.withDesc, vectorAt,
      negateDirection_getElem?_eq a.desc k]
    cases a.desc[k]? <;> rfl
  · simp only [SortCursorWithCollation.raw, SortCursorImpl.withDesc, vectorAt,
      negateDirection_getElem?_ne a.desc i k h]

theorem SortCursorWithCollation.collated_res_withDesc_ne (cmp : Field → Field → Int)
    (a b : SortCursorImpl) (i k : Nat) (h : k ≠ i) :
    SortCursorWithCollation.res cmp (a.withDesc (negateDirection a.desc i)) b k
      = SortCursorWithCollation.res cmp a b k := by
  simp only [SortCursorWithCollation.res, SortCursorWithCollation.raw_withDesc]
  simp [SortCursorImpl.withDesc, vectorAt, negateDirection_getElem?_ne a.desc i k h]

theorem SortCursorWithCollation.collated_res_withDesc_eq (cmp : Field → Field → Int)
    (a b : SortCursorImpl) (i : Nat) (v : Int)
    (h : SortCursorWithCollation.res cmp a b i = .ok v) :
    SortCursorWithCollation.res cmp (a.withDesc (negateDirection a.desc i)) b i = .ok (-v) := by
  simp only [SortCursorWithCollation.res, SortCursorWithCollation.raw_withDesc] at h ⊢
  cases hr : SortCursorWithCollation.raw cmp a b i with
  | error e => simp [hr, bind, Except.bind] at h
  | ok r =>
    simp only [SortCursorImpl.withDesc, vectorAt, negateDirection_getElem?_eq a.desc i] at h ⊢
    cases hd : a.desc[i]? with
    | none => simp [hr, hd, bind, Except.bind] at h
    | some d =>
      simp only [hr, hd, Option.map_some', bind, Except.bind, pure, Except.pure] at h ⊢
      injection h with h
      rw [← h]
      simp

theorem SortCursorImpl.resetSortColumns_withDesc (block : Block)
    (ds : List SortColumnDescription) (j : Nat) (c : SortCursorImpl) (desc1 : SortDescription) :
    SortCursorImpl.resetSortColumns block ds j (c.withDesc desc1)
      = (SortCursorImpl.resetSortColumns block ds j c).map (fun r => r.withDesc desc1) := by
  induction ds generalizing j c with
  | nil => rfl
  | cons d ds ih =>
    simp only [SortCursorImpl.resetSortColumns]
    cases SortCursorImpl.resolve block d with
    | error err => rfl
    | ok n =>
      simp only []
      cases block.getByPosition n with
      | error err => rfl
      | ok col =>
        by_cases hj : j < c.need_collation.length
        · have hj1 : j < (c.withDesc desc1).need_collation.length := hj
          simp only [hj, hj1, if_true]
          exact ih (j + 1) (SortCursorImpl.pushSortColumn c j col.column d.collator)
        · have hj1 : ¬ j < (c.withDesc desc1).need_collation.length := hj
          simp only [hj, hj1, if_false]
          rfl

theorem SortCursorImpl.resetSortColumns_negateDirection (block : Block)
    (ds : List SortColumnDescription) (i j : Nat) (c : SortCursorImpl) (desc1 : SortDescription) :
    SortCursorImpl.resetSortColumns block (negateDirection ds i) j (c.withDesc desc1)
      = (SortCursorImpl.resetSortColumns block ds j c).map (fun r => r.withDesc desc1) := by
  induction ds generalizing i j c with
  | nil => rfl
  | cons d ds ih =>
    cases i with
    | zero =>
      simp only [negateDirection, SortCursorImpl.resetSortColumns, SortCursorImpl.resolve]
      split
      · rfl
      · rename_i n hn
        cases block.getByPosition n with
        | error err => rfl
        | ok col =>
          by_cases hj : j < c.need_collation.length
          · have hj1 : j < (c.withDesc desc1).need_collation.length := hj
            simp only [hj, hj1, if_true]
            exact SortCursorImpl.resetSortColumns_withDesc block ds (j + 1)
              (SortCursorImpl.pushSortColumn c j col.column d.collator) desc1
          · have hj1 : ¬ j < (c.withDesc desc1).need_collation.length := hj
            simp only [hj, hj1, if_false]
            rfl
    | succ i =>
      simp only [negateDirection, SortCursorImpl.resetSortColumns]
      cases SortCursorImpl.resolve block d with
      | error err => rfl
      | ok n =>
        simp only []
        cases block.getByPosition n with
        | error err => rfl
        | ok col =>
          by_cases hj : j < c.need_collation.length
          · have hj1 : j < (c.withDesc desc1).need_collation.length := hj
            simp only [hj, hj1, if_true]
            exact ih i (j + 1) (SortCursorImpl.pushSortColumn c j col.column d.collator)
          · have hj1 : ¬ j < (c.withDesc desc1).need_collation.length := hj
            simp only [hj, hj1, if_false]
            rfl

/-- Constructing a cursor from the description with one direction negated gives the cursor
of the original description, carrying the changed description. -/
theorem SortCursorImpl.create_negateDirection (block : Block) (desc : SortDescription)
    (order i : Nat) :
    SortCursorImpl.create block (negateDirection desc i) order
      = (SortCursorImpl.create block desc order).map
          (fun r => r.withDesc (negateDirection desc i)) := by
  simp only [SortCursorImpl.create, SortCursorImpl.reset, negateDirection_length]
  cases SortCursorImpl.resetAllColumns block 0 block.columns [] with
  | error err => rfl
  | ok all =>
    simp only []
    have h := SortCursorImpl.resetSortColumns_negateDirection block desc i 0
      { all_columns := all, sort_columns := [], desc := desc, sort_columns_size := desc.length,
        pos := 0, rows := 0, order := order,
        need_collation := List.replicate desc.length false, has_collation := false }
      (negateDirection desc i)
    simp only [SortCursorImpl.withDesc] at h
    rw [h]
    cases SortCursorImpl.resetSortColumns block desc 0 _ with
    | error err => rfl
    | ok c1 =>
      simp only [Except.map]
      cases c1.all_columns[0]? <;> rfl

/-- C6: let the description of the left cursor be changed only in the direction of key `i`,
which is negated (a cursor constructed from the changed description is exactly such a
cursor). If the comparison is decided at a key `j < i` the answer is unchanged; if it is
decided at key `i` the answer is negated. This holds for `SortCursor::operator<` and for
`SortCursorWithCollation::operator<`. -/
theorem direction_inversion (cmp : Field → Field → Int) (a b : SortCursorImpl) (i j : Nat)
    (v : Int) (hj : j < a.sort_columns_size) (hv : v ≠ 0) :
    (∀ (block : Block) (desc : SortDescription) (order : Nat),
      SortCursorImpl.create block (negateDirection desc i) order
        = (SortCursorImpl.create block desc order).map
            (fun r => r.withDesc (negateDirection desc i))) ∧
    ((∀ k, k < j → SortCursor.res cmp a b k = .ok 0) → SortCursor.res cmp a b j = .ok v →
      (j < i → SortCursor.lt cmp (a.withDesc (negateDirection a.desc i)) b
          = SortCursor.lt cmp a b) ∧
      (j = i → SortCursor.lt cmp a b = .ok (decide (0 < v)) ∧
        SortCursor.lt cmp (a.withDesc (negateDirection a.desc i)) b
          = .ok (!decide (0 < v)))) ∧
    ((∀ k, k < j → SortCursorWithCollation.res cmp a b k = .ok 0) →
      SortCursorWithCollation.res cmp a b j = .ok v →
      (j < i → SortCursorWithCollation.lt cmp (a.withDesc (negateDirection a.desc i)) b
          = SortCursorWithCollation.lt cmp a b) ∧
      (j = i → SortCursorWithCollation.lt cmp a b = .ok (decide (0 < v)) ∧
        SortCursorWithCollation.lt cmp (a.withDesc (negateDirection a.desc i)) b
          = .ok (!decide (0 < v)))) := by
  have hflip : decide (0 < -v) = !decide (0 < v) := by
    by_cases h : 0 < v
    · have h1 : ¬ 0 < -v := by omega
      simp [h, h1]
    · have h1 : 0 < -v := by omega
      simp [h, h1]
  have hnv : -v ≠ 0 := by omega
  refine ⟨fun block desc order => SortCursorImpl.create_negateDirection block desc order i,
    ?_, ?_⟩
  · intro hzero hres
    have hold : SortCursor.lt cmp a b = .ok (decide (0 < v)) := by
      rw [SortCursor.lt_eq_decideFrom]
      exact decideFrom_first_nonzero _ _ 0 a.sort_columns_size j v hj
        (fun k _ hk => hzero k (by omega)) (by simpa using hres) hv
    constructor
    · intro hji
      rw [hold, SortCursor.lt_eq_decideFrom]
      exact decideFrom_first_nonzero _ _ 0 a.sort_columns_size j v hj
        (fun k _ hk => by
          rw [SortCursor.res_withDesc_ne cmp a b i k (by omega)]
          exact hzero k (by omega))
        (by
          rw [Nat.zero_add, SortCursor.res_withDesc_ne cmp a b i j (by omega)]
          exact hres) hv
    · intro hji
      subst hji
      refine ⟨hold, ?_⟩
      rw [SortCursor.lt_eq_decideFrom, ← hflip]
      exact decideFrom_first_nonzero _ _ 0 a.sort_columns_size j (-v) hj
        (fun k _ hk => by
          rw [SortCursor.res_withDesc_ne cmp a b j k (by omega)]
          exact hzero k (by omega))
        (by
          rw [Nat.zero_add]
          exact SortCursor.res_withDesc_eq cmp a b j v hres) hnv
  · intro hzero hres
    have hold : SortCursorWithCollation.lt cmp a b = .ok (decide (0 < v)) := by
      rw [SortCursorWithCollation.collated_lt_eq_decideFrom]
      exact decideFrom_first_nonzero _ _ 0 a.sort_columns_size j v hj
        (fun k _ hk => hzero k (by omega)) (by simpa using hres) hv
    constructor
    · intro hji
      rw [hold, SortCursorWithCollation.collated_lt_eq_decideFrom]
      exact decideFrom_first_nonzero _ _ 0 a.sort_columns_size j v hj
        (fun k _ hk => by
          rw [SortCursorWithCollation.collated_res_withDesc_ne cmp a b i k (by omega)]
          exact hzero k (by omega))
        (by
          rw [Nat.zero_add, SortCursorWithCollation.collated_res_withDesc_ne cmp a b i j
            (by omega)]
          exact hres) hv
    · intro hji
      subst hji
      refine ⟨hold, ?_⟩
      rw [SortCursorWithCollation.collated_lt_eq_decideFrom, ← hflip]
      exact decideFrom_first_nonzero _ _ 0 a.sort_columns_size j (-v) hj
        (fun k _ hk => by
          rw [SortCursorWithCollation.collated_res_withDesc_ne cmp a b j k (by omega)]
          exact hzero k (by omega))
        (by
          rw [Nat.zero_add]
          exact SortCursorWithCollation.collated_res_withDesc_eq cmp a b j v hres) hnv

/-- Keys `k` then `v`, rows `(1, "x")` and `(2, "z")`: the comparison is decided at key 0 with
the value -1. Negating the direction of key 0 turns the answer from false to true, negating
the direction of key 1 leaves it as it is. -/
theorem direction_inversion_witness :
    (SortCursor.lt nativeCompare (cursorOver (blockKV [(1, "x")]) descKV 0)
        (cursorOver (blockKV [(2, "z")]) descKV 1) = .ok false ∧
      SortCursor.lt nativeCompare
        ((cursorOver (blockKV [(1, "x")]) descKV 0).withDesc
          (negateDirection (cursorOver (blockKV [(1, "x")]) descKV 0).desc 0))
        (cursorOver (blockKV [(2, "z")]) descKV 1) = .ok true) ∧
    SortCursor.lt nativeCompare
        ((cursorOver (blockKV [(1, "x")]) descKV 0).withDesc
          (negateDirection (cursorOver (blockKV [(1, "x")]) descKV 0).desc 1))
        (cursorOver (blockKV [(2, "z")]) descKV 1)
      = SortCursor.lt nativeCompare (cursorOver (blockKV [(1, "x")]) descKV 0)
        (cursorOver (blockKV [(2, "z")]) descKV 1) ∧
    (SortCursorWithCollation.lt nativeCompare (cursorOver (blockKV [(1, "x")]) descKV 0)
        (cursorOver (blockKV [(2, "z")]) descKV 1) = .ok false ∧
      SortCursorWithCollation.lt nativeCompare
        ((cursorOver (blockKV [(1, "x")]) descKV 0).withDesc
          (negateDirection (cursorOver (blockKV [(1, "x")]) descKV 0).desc 0))
        (cursorOver (blockKV [(2, "z")]) descKV 1) = .ok true) :=
  ⟨⟨(((direction_inversion nativeCompare (cursorOver (blockKV [(1, "x")]) descKV 0)
        (cursorOver (blockKV [(2, "z")]) descKV 1) 0 0 (-1) (by decide) (by decide)).2.1
        (by decide) (by decide)).2 rfl).1.trans (by decide),
     (((direction_inversion nativeCompare (cursorOver (blockKV [(1, "x")]) descKV 0)
        (cursorOver (blockKV [(2, "z")]) descKV 1) 0 0 (-1) (by decide) (by decide)).2.1
        (by decide) (by decide)).2 rfl).2.trans (by decide)⟩,
   ((direction_inversion nativeCompare (cursorOver (blockKV [(1, "x")]) descKV 0)
      (cursorOver (blockKV [(2, "z")]) descKV 1) 1 0 (-1) (by decide) (by decide)).2.1
      (by decide) (by decide)).1 (by decide),
   ⟨(((direction_inversion nativeCompare (cursorOver (blockKV [(1, "x")]) descKV 0)
        (cursorOver (blockKV [(2, "z")]) descKV 1) 0 0 (-1) (by decide) (by decide)).2.2
        (by decide) (by decide)).2 rfl).1.trans (by decide),
     (((direction_inversion nativeCompare (cursorOver (blockKV [(1, "x")]) descKV 0)
        (cursorOver (blockKV [(2, "z")]) descKV 1) 0 0 (-1) (by decide) (by decide)).2.2
        (by decide) (by decide)).2 rfl).2.trans (by decide)⟩⟩

/-! ## Construction of a cursor -/

theorem List.take_succ_set_self {α : Type} (l : List α) (j : Nat) (x : α) (h : j < l.length) :
    (l.set j x).take (j + 1) = l.take j ++ [x] := by
  induction l generalizing j with
  | nil => simp at h
  | cons y ys ih =>
    cases j with
    | zero => simp
    | succ j =>
      simp only [List.length_cons] at h
      simp [ih j (by omega)]

theorem List.drop_set_of_index_lt {α : Type} (l : List α) (j k : Nat) (x : α) (h : j < k) :
    (l.set j x).drop k = l.drop k := by
  induction l generalizing j k with
  | nil => simp
  | cons y ys ih =>
    cases k with
    | zero => omega
    | succ k =>
      cases j with
      | zero => simp
      | succ j => simp [ih j k (by omega)]

theorem SortCursorImpl.resetAllColumns_eq (block : Block) (j n : Nat) (acc : List IColumn)
    (h : j + n ≤ block.length) :
    SortCursorImpl.resetAllColumns block j n acc
      = .ok (acc ++ ((block.drop j).take n).map (fun c => c.column)) := by
  induction n generalizing j acc with
  | zero => simp [SortCursorImpl.resetAllColumns]
  | succ n ih =>
    have hj : j < block.length := by omega
    simp only [SortCursorImpl.resetAllColumns, Block.getByPosition,
      List.getElem?_eq_getElem hj]
    rw [ih (j + 1) _ (by omega)]
    have hd : block.drop j = block[j] :: block.drop (j + 1) := List.drop_eq_getElem_cons hj
    rw [hd]
    simp only [List.take_succ_cons, List.map_cons, List.append_assoc, List.singleton_append]

theorem SortCursorImpl.resetAllColumns_block (block : Block) :
    SortCursorImpl.resetAllColumns block 0 block.columns []
      = .ok (block.map (fun c => c.column)) := by
  rw [SortCursorImpl.resetAllColumns_eq block 0 block.columns [] (by simp [Block.columns])]
  simp [Block.columns]

theorem SortCursorImpl.resetSortColumns_eq (block : Block) (ds : List SortColumnDescription)
    (j : Nat) (c : SortCursorImpl) (hlen : j + ds.length ≤ c.need_collation.length) :
    SortCursorImpl.resetSortColumns block ds j c
      = match SortCursorImpl.resolveAll block ds with
        | .error e => .error e
        | .ok cols =>
          .ok { c with
                sort_columns := c.sort_columns ++ cols
                need_collation := c.need_collation.take j ++ List.zipWith needCollation ds cols
                  ++ c.need_collation.drop (j + ds.length)
                has_collation := c.has_collation || (List.zipWith needCollation ds cols).any id }
    := by
  induction ds generalizing j c with
  | nil =>
    simp [SortCursorImpl.resetSortColumns, SortCursorImpl.resolveAll]
  | cons d ds ih =>
    simp only [List.length_cons] at hlen
    have hj : j < c.need_collation.length := by omega
    simp only [SortCursorImpl.resetSortColumns, SortCursorImpl.resolveAll,
      SortCursorImpl.resolveColumn]
    cases SortCursorImpl.resolve block d with
    | error e => rfl
    | ok n =>
      simp only []
      cases block.getByPosition n with
      | error e => rfl
      | ok col =>
        simp only [hj, if_true]
        rw [ih (j + 1) (SortCursorImpl.pushSortColumn c j col.column d.collator)
          (by simp [SortCursorImpl.pushSortColumn]; omega)]
        cases SortCursorImpl.resolveAll block ds with
        | error e => rfl
        | ok cols =>
          simp only [SortCursorImpl.pushSortColumn, List.zipWith_cons_cons, List.length_cons]
          have h1 := List.take_succ_set_self c.need_collation j
            (d.collator.isSome && decide (col.column.name = "ColumnString")) hj
          have h2 := List.drop_set_of_index_lt c.need_collation j (j + 1 + ds.length)
            (d.collator.isSome && decide (col.column.name = "ColumnString")) (by omega)
          have h3 : j + (ds.length + 1) = j + 1 + ds.length := by omega
          rw [h1, h2, h3]
          simp [needCollation, Bool.or_assoc]

/-- Closed form of `reset` on a cursor whose flag vector has room for every key. -/
theorem SortCursorImpl.reset_eq (c : SortCursorImpl) (block : Block)
    (hlen : c.desc.length ≤ c.need_collation.length) :
    SortCursorImpl.reset c block
      = match SortCursorImpl.resolveAll block c.desc with
        | .error e => .error e
        | .ok cols =>
          match block with
          | [] => .error .OutOfRange
          | first :: _ =>
            .ok { c with
                  all_columns := block.map (fun x => x.column)
                  sort_columns := cols
                  need_collation := List.zipWith needCollation c.desc cols
                    ++ c.need_collation.drop c.desc.length
                  has_collation :=
                    c.has_collation || (List.zipWith needCollation c.desc cols).any id
                  pos := 0
                  rows := first.column.size } := by
  simp only [SortCursorImpl.reset, SortCursorImpl.resetAllColumns_block]
  rw [SortCursorImpl.resetSortColumns_eq block c.desc 0 _ (by simpa using hlen)]
  cases SortCursorImpl.resolveAll block c.desc with
  | error e => rfl
  | ok cols =>
    cases block with
    | nil => rfl
    | cons first rest => simp

/-- Closed form of the constructor. -/
theorem SortCursorImpl.create_eq (block : Block) (desc : SortDescription) (order : Nat) :
    SortCursorImpl.create block desc order
      = match SortCursorImpl.resolveAll block desc with
        | .error e => .error e
        | .ok cols =>
          match block with
          | [] => .error .OutOfRange
          | first :: _ =>
            .ok { all_columns := block.map (fun x => x.column)
                  sort_columns := cols
                  desc := desc
                  sort_columns_size := desc.length
                  pos := 0
                  rows := first.column.size
                  order := order
                  need_collation := List.zipWith needCollation desc cols
                  has_collation := (List.zipWith needCollation desc cols).any id } := by
  rw [SortCursorImpl.create, SortCursorImpl.reset_eq _ block (by simp)]
  cases SortCursorImpl.resolveAll block desc with
  | error e => rfl
  | ok cols =>
    cases block with
    | nil => rfl
    | cons first rest => simp

theorem SortCursorImpl.resolveAll_length (block : Block) (ds : List SortColumnDescription)
    (cols : List IColumn) (h : SortCursorImpl.resolveAll block ds = .ok cols) :
    cols.length = ds.length := by
  induction ds generalizing cols with
  | nil =>
    simp only [SortCursorImpl.resolveAll] at h
    injection h with h
    rw [← h]
    rfl
  | cons d ds ih =>
    simp only [SortCursorImpl.resolveAll] at h
    cases hc : SortCursorImpl.resolveColumn block d with
    | error e => simp [hc] at h
    | ok col =>
      cases hr : SortCursorImpl.resolveAll block ds with
      | error e => simp [hc, hr] at h
      | ok rest =>
        simp only [hc, hr] at h
        injection h with h
        rw [← h]
        simp [ih rest hr]

/-- The column bound to key `j` is the one `resolveColumn` finds for that key. -/
theorem SortCursorImpl.resolveAll_getElem? (block : Block) (ds : List SortColumnDescription)
    (cols : List IColumn) (h : SortCursorImpl.resolveAll block ds = .ok cols) (j : Nat)
    (d : SortColumnDescription) (hd : ds[j]? = some d) :
    ∃ col, cols[j]? = some col ∧ SortCursorImpl.resolveColumn block d = .ok col := by
  induction ds generalizing cols j with
  | nil => simp at hd
  | cons e es ih =>
    simp only [SortCursorImpl.resolveAll] at h
    cases hc : SortCursorImpl.resolveColumn block e with
    | error err => simp [hc] at h
    | ok col =>
      cases hr : SortCursorImpl.resolveAll block es with
      | error err => simp [hc, hr] at h
      | ok rest =>
        simp only [hc, hr] at h
        injection h with h
        subst h
        cases j with
        | zero =>
          simp only [List.getElem?_cons_zero, Option.some.injEq] at hd
          subst hd
          exact ⟨col, by simp, hc⟩
        | succ j =>
          simp only [List.getElem?_cons_succ] at hd
          obtain ⟨col1, h1, h2⟩ := ih rest hr j hd
          exact ⟨col1, by simpa using h1, h2⟩

/-- What a successful construction has produced. -/
theorem SortCursorImpl.create_ok (block : Block) (desc : SortDescription) (order : Nat)
    (c : SortCursorImpl) (h : SortCursorImpl.create block desc order = .ok c) :
    ∃ cols first rest, SortCursorImpl.resolveAll block desc = .ok cols ∧ block = first :: rest ∧
      c = { all_columns := block.map (fun x => x.column)
            sort_columns := cols
            desc := desc
            sort_columns_size := desc.length
            pos := 0
            rows := first.column.size
            order := order
            need_collation := List.zipWith needCollation desc cols
            has_collation := (List.zipWith needCollation desc cols).any id } := by
  rw [SortCursorImpl.create_eq] at h
  cases hr : SortCursorImpl.resolveAll block desc with
  | error e => simp [hr] at h
  | ok cols =>
    cases block with
    | nil => simp [hr] at h
    | cons first rest =>
      simp only [hr] at h
      injection h with h
      exact ⟨cols, first, rest, rfl, rfl, h.symm⟩

theorem SortCursorImpl.resolveColumn_ok (block : Block) (d : SortColumnDescription)
    (col : IColumn) (h : SortCursorImpl.resolveColumn block d = .ok col) :
    ∃ n cw, SortCursorImpl.resolve block d = .ok n ∧ block.getByPosition n = .ok cw ∧
      cw.column = col := by
  simp only [SortCursorImpl.resolveColumn] at h
  cases hn : SortCursorImpl.resolve block d with
  | error e => simp [hn] at h
  | ok n =>
    cases hc : block.getByPosition n with
    | error e => simp [hn, hc] at h
    | ok cw =>
      simp only [hn, hc] at h
      injection h with h
      exact ⟨n, cw, rfl, hc, h⟩

/-! ## The collation flags -/

/-- C9: after a successful construction, for every key `j` the flag `need_collation[j]` is
true if and only if key `j` has a collator (non-null) and the column resolved for key `j`,
which is `sort_columns[j]`, is string-typed (its type name is "ColumnString"). -/
theorem need_collation_iff (block : Block) (desc : SortDescription) (order : Nat)
    (c : SortCursorImpl) (h : SortCursorImpl.create block desc order = .ok c) (j : Nat)
    (d : SortColumnDescription) (hd : desc[j]? = some d) :
    ∃ (n : Nat) (cw : ColumnWithNameAndType) (flag : Bool),
      SortCursorImpl.resolve block d = .ok n ∧ block.getByPosition n = .ok cw ∧
      c.sort_columns[j]? = some cw.column ∧ c.need_collation[j]? = some flag ∧
      (flag = true ↔ (d.collator ≠ none ∧ cw.column.name = "ColumnString")) := by
  obtain ⟨cols, first, rest, hcols, _, hc⟩ := SortCursorImpl.create_ok block desc order c h
  obtain ⟨col, hcol, hres⟩ := SortCursorImpl.resolveAll_getElem? block desc cols hcols j d hd
  obtain ⟨n, cw, hn, hcw, hcol2⟩ := SortCursorImpl.resolveColumn_ok block d col hres
  subst hcol2
  refine ⟨n, cw, needCollation d cw.column, hn, hcw, ?_, ?_, ?_⟩
  · rw [hc]; exact hcol
  · rw [hc]
    simp [List.getElem?_zipWith, hd, hcol]
  · simp [needCollation, Option.isSome_iff_ne_none]

/-- The collated description over a string column sets the flag of its only key; over a
column of another type the flag stays clear. -/
theorem need_collation_iff_witness :
    SortCursorImpl.create (blockS "ColumnString" ["a"]) descS 0
        = .ok (cursorOver (blockS "ColumnString" ["a"]) descS 0) ∧
    (cursorOver (blockS "ColumnString" ["a"]) descS 0).need_collation = [true] ∧
    (cursorOver (blockS "ColumnFixedString" ["a"]) descS 0).need_collation = [false] ∧
    ∃ (n : Nat) (cw : ColumnWithNameAndType) (flag : Bool),
      SortCursorImpl.resolve (blockS "ColumnString" ["a"])
        (SortColumnDescription.ofName "s" 1 (some localeL)) = .ok n ∧
      Block.getByPosition (blockS "ColumnString" ["a"]) n = .ok cw ∧
      (cursorOver (blockS "ColumnString" ["a"]) descS 0).sort_columns[0]? = some cw.column ∧
      (cursorOver (blockS "ColumnString" ["a"]) descS 0).need_collation[0]? = some flag ∧
      (flag = true ↔ ((SortColumnDescription.ofName "s" 1 (some localeL)).collator ≠ none ∧
        cw.column.name = "ColumnString")) :=
  ⟨rfl, by decide, by decide,
   need_collation_iff (blockS "ColumnString" ["a"]) descS 0
     (cursorOver (blockS "ColumnString" ["a"]) descS 0) rfl 0
     (SortColumnDescription.ofName "s" 1 (some localeL)) rfl⟩

/-! ## Resolution of the key columns -/

/-- The position found for a name holds a column of that name, and no earlier position does. -/
theorem Block.getPositionByName_ok (block : Block) (name : String) (p : Nat)
    (h : block.getPositionByName name = .ok p) :
    ∃ cw, block[p]? = some cw ∧ cw.name = name ∧
      ∀ q cq, q < p → block[q]? = some cq → cq.name ≠ name := by
  induction block generalizing p with
  | nil => simp [Block.getPositionByName] at h
  | cons c cs ih =>
    simp only [Block.getPositionByName] at h
    by_cases hc : c.name = name
    · simp only [hc, if_true] at h
      injection h with h
      subst h
      exact ⟨c, by simp, hc, fun q cq hq _ => absurd hq (Nat.not_lt_zero q)⟩
    · simp only [hc, if_false] at h
      cases hr : Block.getPositionByName cs name with
      | error e => simp [hr] at h
      | ok p1 =>
        simp only [hr] at h
        injection h with h
        subst h
        obtain ⟨cw, h1, h2, h3⟩ := ih p1 hr
        refine ⟨cw, by simpa using h1, h2, ?_⟩
        intro q cq hq hcq
        cases q with
        | zero =>
          simp only [List.getElem?_cons_zero, Option.some.injEq] at hcq
          subst hcq
          exact hc
        | succ q =>
          simp only [List.getElem?_cons_succ] at hcq
          exact h3 q cq (by omega) hcq

/-- Looking a name up and fetching the column at the position found is a search for the
first column of that name. -/
theorem Block.getPositionByName_getByPosition (block : Block) (name : String) :
    (match block.getPositionByName name with
      | .error e => Except.error e
      | .ok p => block.getByPosition p)
      = match block.find? (fun c => decide (c.name = name)) with
        | some cw => .ok cw
        | none => .error Exception.ColumnNotFound := by
  induction block with
  | nil => rfl
  | cons c cs ih =>
    simp only [Block.getPositionByName, List.find?_cons]
    by_cases hc : c.name = name
    · simp [hc, Block.getByPosition]
    · simp only [hc, if_false, decide_False]
      rw [← ih]
      cases Block.getPositionByName cs name with
      | error e => rfl
      | ok p => simp [Block.getByPosition]

theorem SortCursorImpl.resolveColumn_named (block : Block) (d : SortColumnDescription)
    (hd : d.column_name ≠ "") :
    SortCursorImpl.resolveColumn block d
      = match block.find? (fun c => decide (c.name = d.column_name)) with
        | some cw => .ok cw.column
        | none => .error Exception.ColumnNotFound := by
  have h := Block.getPositionByName_getByPosition block d.column_name
  simp only [SortCursorImpl.resolveColumn, SortCursorImpl.resolve, hd, ne_eq, not_false_eq_true,
    if_true]
  cases hp : Block.getPositionByName block d.column_name with
  | error e =>
    simp only [hp] at h
    cases hf : List.find? (fun c => decide (c.name = d.column_name)) block with
    | none =>
      simp only [hf] at h
      injection h with h
      rw [h]
    | some cw => simp [hf] at h
  | ok p =>
    simp only [hp] at h
    cases hf : List.find? (fun c => decide (c.name = d.column_name)) block with
    | none => simp only [hf] at h; simp only [h]
    | some cw => simp only [hf] at h; simp only [h]

/-- In a block whose column names are pairwise distinct, the search for a name does not
depend on the order of the columns. -/
theorem Block.find?_perm (b1 b2 : Block) (hperm : List.Perm b1 b2)
    (hnodup : (b1.map (fun c => c.name)).Nodup) (name : String) :
    b1.find? (fun c => decide (c.name = name)) = b2.find? (fun c => decide (c.name = name)) := by
  have hinj : ∀ x ∈ b1, ∀ y ∈ b1, x.name = y.name → x = y :=
    fun x hx y hy hxy => List.inj_on_of_nodup_map hnodup hx hy hxy
  cases h1 : b1.find? (fun c => decide (c.name = name)) with
  | none =>
    rw [List.find?_eq_none] at h1
    symm
    rw [List.find?_eq_none]
    intro x hx
    exact h1 x (hperm.mem_iff.mpr hx)
  | some x =>
    have hx1 : x ∈ b1 := List.mem_of_find?_eq_some h1
    have hxn : x.name = name := by simpa using List.find?_some h1
    cases h2 : b2.find? (fun c => decide (c.name = name)) with
    | none =>
      rw [List.find?_eq_none] at h2
      exact absurd (by simpa using hxn) (h2 x (hperm.mem_iff.mp hx1))
    | some y =>
      have hy2 : y ∈ b2 := List.mem_of_find?_eq_some h2
      have hyn : y.name = name := by simpa using List.find?_some h2
      rw [hinj x hx1 y (hperm.mem_iff.mpr hy2) (hxn.trans hyn.symm)]

theorem SortCursorImpl.resolveAll_perm (b1 b2 : Block) (hperm : List.Perm b1 b2)
    (hnodup : (b1.map (fun c => c.name)).Nodup) (ds : List SortColumnDescription)
    (hnamed : ∀ d ∈ ds, d.column_name ≠ "") :
    SortCursorImpl.resolveAll b1 ds = SortCursorImpl.resolveAll b2 ds := by
  induction ds with
  | nil => rfl
  | cons d ds ih =>
    simp only [SortCursorImpl.resolveAll]
    rw [SortCursorImpl.resolveColumn_named b1 d (hnamed d (List.mem_cons_self d ds)),
      SortCursorImpl.resolveColumn_named b2 d (hnamed d (List.mem_cons_self d ds)),
      Block.find?_perm b1 b2 hperm hnodup d.column_name,
      ih (fun e he => hnamed e (List.mem_cons_of_mem d he))]

/-- C10: in a constructed cursor `sort_columns[j]` is the block column named `column_name`
when the name of key `j` is non-empty (the first column of that name; `column_number` plays
no part), and the block column at position `column_number` when the name is empty. Hence,
for a description that names all its keys, a block holding the same columns under pairwise
distinct names in another order yields a cursor with the same sort columns. -/
theorem column_resolution (block : Block) (desc : SortDescription) (order : Nat)
    (c : SortCursorImpl) (h : SortCursorImpl.create block desc order = .ok c) :
    (∀ (j : Nat) (d : SortColumnDescription), desc[j]? = some d → d.column_name ≠ "" →
      ∃ p cw, block.getPositionByName d.column_name = .ok p ∧ block[p]? = some cw ∧
        cw.name = d.column_name ∧ c.sort_columns[j]? = some cw.column) ∧
    (∀ (d : SortColumnDescription) (n : Nat), d.column_name ≠ "" →
      SortCursorImpl.resolve block { d with column_number := n }
        = SortCursorImpl.resolve block d) ∧
    (∀ (j : Nat) (d : SortColumnDescription), desc[j]? = some d → d.column_name = "" →
      ∃ cw, block[d.column_number]? = some cw ∧ c.sort_columns[j]? = some cw.column) ∧
    (∀ (block2 : Block) (order2 : Nat), List.Perm block block2 →
      (block.map (fun x => x.name)).Nodup → (∀ d ∈ desc, d.column_name ≠ "") →
      ∃ c2, SortCursorImpl.create block2 desc order2 = .ok c2 ∧
        c2.sort_columns = c.sort_columns) := by
  obtain ⟨cols, first, rest, hcols, hblock, hc⟩ := SortCursorImpl.create_ok block desc order c h
  have hkey : ∀ (j : Nat) (d : SortColumnDescription), desc[j]? = some d →
      ∃ n cw, SortCursorImpl.resolve block d = .ok n ∧ block.getByPosition n = .ok cw ∧
        c.sort_columns[j]? = some cw.column := by
    intro j d hd
    obtain ⟨col, hcol, hres⟩ := SortCursorImpl.resolveAll_getElem? block desc cols hcols j d hd
    obtain ⟨n, cw, hn, hcw, hcol2⟩ := SortCursorImpl.resolveColumn_ok block d col hres
    subst hcol2
    exact ⟨n, cw, hn, hcw, by rw [hc]; exact hcol⟩
  have hget : ∀ (n : Nat) (cw : ColumnWithNameAndType), block.getByPosition n = .ok cw →
      block[n]? = some cw := by
    intro n cw hcw
    simp only [Block.getByPosition] at hcw
    cases hb : block[n]? with
    | none => simp [hb] at hcw
    | some x =>
      simp only [hb] at hcw
      injection hcw with hcw
      rw [hcw]
  refine ⟨?_, ?_, ?_, ?_⟩
  · intro j d hd hname
    obtain ⟨n, cw, hn, hcw, hs⟩ := hkey j d hd
    simp only [SortCursorImpl.resolve, hname, ne_eq, not_false_eq_true, if_true] at hn
    obtain ⟨cw1, h1, h2, _⟩ := Block.getPositionByName_ok block d.column_name n hn
    have h3 := hget n cw hcw
    rw [h1] at h3
    injection h3 with h3
    subst h3
    exact ⟨n, cw1, hn, h1, h2, hs⟩
  · intro d n hname
    simp [SortCursorImpl.resolve, hname]
  · intro j d hd hname
    obtain ⟨n, cw, hn, hcw, hs⟩ := hkey j d hd
    simp only [SortCursorImpl.resolve, hname, ne_eq, not_true_eq_false, if_false] at hn
    injection hn with hn
    subst hn
    exact ⟨cw, hget _ cw hcw, hs⟩
  · intro block2 order2 hperm hnodup hnamed
    have hall := SortCursorImpl.resolveAll_perm block block2 hperm hnodup desc hnamed
    rw [hcols] at hall
    cases block2 with
    | nil =>
      have := hperm.length_eq
      simp [hblock] at this
    | cons first2 rest2 =>
      rw [SortCursorImpl.create_eq, ← hall]
      exact ⟨_, rfl, by rw [hc]⟩

/-- The key named `k` is found by name in `blockKV` and in `blockVK`, where the columns stand
in the other order; the key without a name is found by its number. -/
theorem column_resolution_witness :
    SortCursorImpl.create (blockKV [(1, "x"), (3, "y")]) descK 0
        = .ok (cursorOver (blockKV [(1, "x"), (3, "y")]) descK 0) ∧
    (cursorOver (blockKV [(1, "x"), (3, "y")]) descK 0).sort_columns
        = [{ name := "ColumnInt64", data := [Field.int 1, Field.int 3] }] ∧
    (cursorOver (blockKV [(1, "x"), (3, "y")]) descSecond 0).sort_columns
        = [{ name := "ColumnString", data := [Field.str "x", Field.str "y"] }] ∧
    ∃ c2, SortCursorImpl.create (blockVK [(1, "x"), (3, "y")]) descK 1 = .ok c2 ∧
      c2.sort_columns = (cursorOver (blockKV [(1, "x"), (3, "y")]) descK 0).sort_columns :=
  ⟨rfl, by decide, by decide,
   (column_resolution (blockKV [(1, "x"), (3, "y")]) descK 0
      (cursorOver (blockKV [(1, "x"), (3, "y")]) descK 0) rfl).2.2.2
      (blockVK [(1, "x"), (3, "y")]) 1 (List.Perm.swap _ _ []) (by decide) (by decide)⟩

/-! ## Collation on keys that do not need it -/

/-- On a key whose flag is clear the two comparators compute the same value. -/
theorem SortCursorWithCollation.res_eq_plain (cmp : Field → Field → Int) (a b : SortCursorImpl)
    (i : Nat) (hf : a.need_collation[i]? = some false) :
    SortCursorWithCollation.res cmp a b i = SortCursor.res cmp a b i := by
  cases hd : a.desc[i]? <;> cases hca : a.sort_columns[i]? <;>
    cases hcb : b.sort_columns[i]? <;>
    try (simp [SortCursorWithCollation.res, SortCursorWithCollation.raw, SortCursor.res,
      SortCursor.compareKey, vectorAt, hf, hd, hca, hcb, bind, Except.bind]; done)
  all_goals
    rename_i ca cb
    cases hx : ca.data[a.pos]? <;> cases hy : cb.data[b.pos]? <;>
      simp [SortCursorWithCollation.res, SortCursorWithCollation.raw, SortCursor.res,
        SortCursor.compareKey, vectorAt, hf, hd, hca, hcb, IColumn.compareAt, IColumn.get, hx,
        hy, bind, Except.bind, pure, Except.pure, Int.mul_comm]

theorem SortCursorImpl.iterate_next (c : SortCursorImpl) (k : Nat) :
    SortCursorImpl.next^[k] c = { c with pos := c.pos + k } := by
  induction k generalizing c with
  | zero => rfl
  | succ k ih =>
    rw [Function.iterate_succ_apply, ih]
    simp [SortCursorImpl.next, Nat.add_assoc, Nat.add_comm 1 k]

/-- C8: the two comparators return the same boolean on every pair whose left cursor has all
its `need_collation` flags clear. In particular they agree when the left cursor was
constructed, with whatever collators in the description, over a block none of whose sort-key
columns is string-typed, and then advanced any number of times. -/
theorem collation_noop (cmp : Field → Field → Int) (b : SortCursorImpl) :
    (∀ a : SortCursorImpl, a.sort_columns_size ≤ a.need_collation.length →
      (∀ f ∈ a.need_collation, f = false) →
      SortCursorWithCollation.lt cmp a b = SortCursor.lt cmp a b) ∧
    (∀ (block : Block) (desc : SortDescription) (order : Nat) (a : SortCursorImpl) (k : Nat),
      SortCursorImpl.create block desc order = .ok a →
      (∀ col ∈ a.sort_columns, col.name ≠ "ColumnString") →
      SortCursorWithCollation.lt cmp (SortCursorImpl.next^[k] a) b
        = SortCursor.lt cmp (SortCursorImpl.next^[k] a) b) := by
  have gen : ∀ a : SortCursorImpl, a.sort_columns_size ≤ a.need_collation.length →
      (∀ f ∈ a.need_collation, f = false) →
      SortCursorWithCollation.lt cmp a b = SortCursor.lt cmp a b := by
    intro a hlen hall
    rw [SortCursorWithCollation.collated_lt_eq_decideFrom, SortCursor.lt_eq_decideFrom]
    apply decideFrom_congr
    intro j _ hj
    have hj1 : j < a.need_collation.length := by omega
    apply SortCursorWithCollation.res_eq_plain
    rw [List.getElem?_eq_getElem hj1]
    exact congrArg some (hall _ (List.getElem_mem _))
  refine ⟨gen, ?_⟩
  intro block desc order a k h hcols
  obtain ⟨cols, first, rest, hres, _, hc⟩ := SortCursorImpl.create_ok block desc order a h
  have hlen := SortCursorImpl.resolveAll_length block desc cols hres
  apply gen
  · rw [SortCursorImpl.iterate_next, hc]
    simp [hlen]
  · rw [SortCursorImpl.iterate_next]
    intro f hf
    simp only [hc] at hf
    obtain ⟨i, hi, rfl⟩ := List.getElem_of_mem hf
    simp only [List.getElem_zipWith, needCollation]
    have hi2 : i < cols.length := by
      simp only [List.length_zipWith] at hi
      omega
    have hmem : cols[i] ∈ a.sort_columns := by
      rw [hc]; exact List.getElem_mem _
    simp [hcols _ hmem]

/-- The collated description over columns of type "ColumnFixedString": the flags are clear,
and the collation-aware comparator answers as the plain one, which here follows the native
order ("a" before "b") and not the order of the collator. -/
theorem collation_noop_witness :
    (cursorOver (blockS "ColumnFixedString" ["a"]) descS 0).need_collation = [false] ∧
    SortCursorWithCollation.lt nativeCompare (cursorOver (blockS "ColumnFixedString" ["a"]) descS 0)
        (cursorOver (blockS "ColumnFixedString" ["b"]) descS 1)
      = SortCursor.lt nativeCompare (cursorOver (blockS "ColumnFixedString" ["a"]) descS 0)
        (cursorOver (blockS "ColumnFixedString" ["b"]) descS 1) ∧
    SortCursorWithCollation.lt nativeCompare
        (SortCursorImpl.next^[1] (cursorOver (blockS "ColumnFixedString" ["c", "a"]) descS 0))
        (cursorOver (blockS "ColumnFixedString" ["b"]) descS 1)
      = SortCursor.lt nativeCompare
        (SortCursorImpl.next^[1] (cursorOver (blockS "ColumnFixedString" ["c", "a"]) descS 0))
        (cursorOver (blockS "ColumnFixedString" ["b"]) descS 1) ∧
    SortCursor.lt nativeCompare (cursorOver (blockS "ColumnFixedString" ["a"]) descS 0)
        (cursorOver (blockS "ColumnFixedString" ["b"]) descS 1) = .ok false :=
  ⟨by decide,
   (collation_noop nativeCompare (cursorOver (blockS "ColumnFixedString" ["b"]) descS 1)).1
     (cursorOver (blockS "ColumnFixedString" ["a"]) descS 0) (by decide) (by decide),
   (collation_noop nativeCompare (cursorOver (blockS "ColumnFixedString" ["b"]) descS 1)).2
     (blockS "ColumnFixedString" ["c", "a"]) descS 0
     (cursorOver (blockS "ColumnFixedString" ["c", "a"]) descS 0) 1 rfl (by decide),
   by decide⟩

/-! ## Failure of the construction -/

theorem Block.getPositionByName_error (block : Block) (name : String) (e : Exception)
    (h : block.getPositionByName name = .error e) : e = Exception.ColumnNotFound := by
  induction block with
  | nil =>
    simp only [Block.getPositionByName] at h
    injection h with h
    exact h.symm
  | cons c cs ih =>
    simp only [Block.getPositionByName] at h
    by_cases hc : c.name = name
    · simp [hc] at h
    · simp only [hc, if_false] at h
      cases hr : Block.getPositionByName cs name with
      | error e1 =>
        simp only [hr] at h
        injection h with h
        subst h
        exact ih hr
      | ok p => simp [hr] at h

theorem Block.getByPosition_error (block : Block) (n : Nat) (e : Exception)
    (h : block.getByPosition n = .error e) : e = Exception.ColumnNotFound := by
  simp only [Block.getByPosition] at h
  cases hb : block[n]? with
  | none =>
    simp only [hb] at h
    injection h with h
    exact h.symm
  | some c => simp [hb] at h

/-- The only failure of the resolution of one key is `ColumnNotFound`. -/
theorem SortCursorImpl.resolveColumn_error (block : Block) (d : SortColumnDescription)
    (e : Exception) (h : SortCursorImpl.resolveColumn block d = .error e) :
    e = Exception.ColumnNotFound := by
  simp only [SortCursorImpl.resolveColumn] at h
  cases hn : SortCursorImpl.resolve block d with
  | error e1 =>
    simp only [hn] at h
    injection h with h
    subst h
    simp only [SortCursorImpl.resolve] at hn
    by_cases hname : d.column_name ≠ ""
    · rw [if_pos hname] at hn
      exact Block.getPositionByName_error block d.column_name e1 hn
    · rw [if_neg hname] at hn
      cases hn
  | ok n =>
    cases hc : block.getByPosition n with
    | error e1 =>
      simp only [hn, hc] at h
      injection h with h
      subst h
      exact Block.getByPosition_error block n e1 hc
    | ok cw => simp [hn, hc] at h

theorem SortCursorImpl.resolveAll_error (block : Block) (ds : List SortColumnDescription)
    (e : Exception) (h : SortCursorImpl.resolveAll block ds = .error e) :
    e = Exception.ColumnNotFound := by
  induction ds with
  | nil => simp [SortCursorImpl.resolveAll] at h
  | cons d ds ih =>
    simp only [SortCursorImpl.resolveAll] at h
    cases hc : SortCursorImpl.resolveColumn block d with
    | error e1 =>
      simp only [hc] at h
      injection h with h
      subst h
      exact SortCursorImpl.resolveColumn_error block d e1 hc
    | ok col =>
      cases hr : SortCursorImpl.resolveAll block ds with
      | error e1 =>
        simp only [hc, hr] at h
        injection h with h
        subst h
        exact ih hr
      | ok cols => simp [hc, hr] at h

/-- A key whose name is absent from the block, or whose number is past the last column,
does not resolve. -/
theorem SortCursorImpl.resolveColumn_fails (block : Block) (d : SortColumnDescription)
    (hbad : (d.column_name ≠ "" ∧ ∀ c ∈ block, c.name ≠ d.column_name) ∨
      (d.column_name = "" ∧ block.columns ≤ d.column_number)) :
    SortCursorImpl.resolveColumn block d = .error Exception.ColumnNotFound := by
  cases hbad with
  | inl h =>
    rw [SortCursorImpl.resolveColumn_named block d h.1]
    have hnone : block.find? (fun c => decide (c.name = d.column_name)) = none := by
      rw [List.find?_eq_none]
      intro x hx
      simpa using h.2 x hx
    rw [hnone]
  | inr h =>
    have hnone : block[d.column_number]? = none := by
      rw [List.getElem?_eq_none_iff]
      exact h.2
    simp [SortCursorImpl.resolveColumn, SortCursorImpl.resolve, h.1, Block.getByPosition, hnone]

/-- C11: when some key of the description has a non-empty name that no column of the block
carries, or has an empty name and a column number that is not less than the number of
columns of the block, the construction fails with `ColumnNotFound` and produces no cursor. -/
theorem construction_fails_column_not_found (block : Block) (desc : SortDescription)
    (order j : Nat) (d : SortColumnDescription) (hd : desc[j]? = some d)
    (hbad : (d.column_name ≠ "" ∧ ∀ c ∈ block, c.name ≠ d.column_name) ∨
      (d.column_name = "" ∧ block.columns ≤ d.column_number)) :
    SortCursorImpl.create block desc order = .error Exception.ColumnNotFound := by
  rw [SortCursorImpl.create_eq]
  cases hr : SortCursorImpl.resolveAll block desc with
  | error e => rw [SortCursorImpl.resolveAll_error block desc e hr]
  | ok cols =>
    obtain ⟨col, _, hcol⟩ := SortCursorImpl.resolveAll_getElem? block desc cols hr j d hd
    rw [SortCursorImpl.resolveColumn_fails block d hbad] at hcol
    cases hcol

/-- The block with the columns `k` and `v` has no column named `s`, and no column
at position 2 and beyond. -/
theorem construction_fails_column_not_found_witness :
    SortCursorImpl.create (blockKV [(1, "x")]) descS 0 = .error Exception.ColumnNotFound ∧
    SortCursorImpl.create (blockKV [(1, "x")])
        [SortColumnDescription.ofName "k" 1 none, SortColumnDescription.ofNumber 2 1 none] 0
      = .error Exception.ColumnNotFound :=
  ⟨construction_fails_column_not_found (blockKV [(1, "x")]) descS 0 0
      (SortColumnDescription.ofName "s" 1 (some localeL)) rfl (Or.inl (by decide)),
   construction_fails_column_not_found (blockKV [(1, "x")])
      [SortColumnDescription.ofName "k" 1 none, SortColumnDescription.ofNumber 2 1 none] 0 1
      (SortColumnDescription.ofNumber 2 1 none) rfl (Or.inr (by decide))⟩

/-! ## Construction: position, row count and columns -/

theorem SortCursorImpl.resolveAll_of_forall (block : Block) (ds : List SortColumnDescription)
    (h : ∀ d ∈ ds, ∃ col, SortCursorImpl.resolveColumn block d = .ok col) :
    ∃ cols, SortCursorImpl.resolveAll block ds = .ok cols := by
  induction ds with
  | nil => exact ⟨[], rfl⟩
  | cons d ds ih =>
    obtain ⟨col, hcol⟩ := h d (List.mem_cons_self d ds)
    obtain ⟨cols, hcols⟩ := ih (fun e he => h e (List.mem_cons_of_mem d he))
    exact ⟨col :: cols, by simp [SortCursorImpl.resolveAll, hcol, hcols]⟩

/-- On a block without columns and an empty description every key resolves (there is none),
yet the construction yields no cursor: it reads `all_columns[0]` of an empty vector. -/
theorem construction_of_empty_block_fails :
    (∀ d ∈ ([] : SortDescription), ∃ col, SortCursorImpl.resolveColumn [] d = .ok col) ∧
    SortCursorImpl.create [] [] 0 = .error Exception.OutOfRange ∧
    ¬ ∃ c, SortCursorImpl.create [] [] 0 = .ok c :=
  ⟨fun d hd => absurd hd (List.not_mem_nil d), rfl, fun h => by
    obtain ⟨c, hc⟩ := h
    cases hc⟩

theorem construction_succeeds_aux (block : Block) (desc : SortDescription) (order : Nat)
    (hne : block ≠ [])
    (hres : ∀ d ∈ desc, ∃ col, SortCursorImpl.resolveColumn block d = .ok col) :
    ∃ c, SortCursorImpl.create block desc order = .ok c ∧ c.pos = 0 ∧ c.rows = block.rows ∧
      c.all_columns = block.map (fun x => x.column) := by
  obtain ⟨cols, hcols⟩ := SortCursorImpl.resolveAll_of_forall block desc hres
  rw [SortCursorImpl.create_eq, hcols]
  cases block with
  | nil => exact absurd rfl hne
  | cons first rest => exact ⟨_, rfl, rfl, rfl, rfl⟩

/-- C14 (amended): for every block with at least one column and every description whose
sort-key columns all resolve (an empty description included), the construction succeeds and
yields `pos = 0`, `rows` equal to the row count of the block, and `all_columns` listing every
column of the block in block order. -/
theorem construction_succeeds (block : Block) (desc : SortDescription) (order : Nat)
    (hne : block ≠ [])
    (hres : ∀ d ∈ desc, ∃ col, SortCursorImpl.resolveColumn block d = .ok col) :
    ∃ c, SortCursorImpl.create block desc order = .ok c ∧ c.pos = 0 ∧ c.rows = block.rows ∧
      c.all_columns = block.map (fun x => x.column) := by
  obtain ⟨cols, hcols⟩ := SortCursorImpl.resolveAll_of_forall block desc hres
  rw [SortCursorImpl.create_eq, hcols]
  cases block with
  | nil => exact absurd rfl hne
  | cons first rest => exact ⟨_, rfl, rfl, rfl, rfl⟩

/-- The block with the columns `k` and `v` and two rows, under the empty description and
under the description by `k`. -/
theorem construction_succeeds_witness :
    (∃ c, SortCursorImpl.create (blockKV [(1, "x"), (3, "y")]) [] 0 = .ok c ∧ c.pos = 0 ∧
      c.rows = Block.rows (blockKV [(1, "x"), (3, "y")]) ∧
      c.all_columns = (blockKV [(1, "x"), (3, "y")]).map (fun x => x.column)) ∧
    (∃ c, SortCursorImpl.create (blockKV [(1, "x"), (3, "y")]) descK 0 = .ok c ∧ c.pos = 0 ∧
      c.rows = Block.rows (blockKV [(1, "x"), (3, "y")]) ∧
      c.all_columns = (blockKV [(1, "x"), (3, "y")]).map (fun x => x.column)) ∧
    Block.rows (blockKV [(1, "x"), (3, "y")]) = 2 :=
  ⟨construction_succeeds (blockKV [(1, "x"), (3, "y")]) [] 0 (by decide) (by simp),
   construction_succeeds (blockKV [(1, "x"), (3, "y")]) descK 0 (by decide)
     (fun d hd => by
       have hd1 : d = SortColumnDescription.ofName "k" 1 none := by simpa [descK] using hd
       subst hd1
       exact ⟨_, rfl⟩),
   by decide⟩

/-! ## The position invariant -/

/-- C16: a cursor constructed over a non-empty block has `pos < rows`; a call of `next()`
made when `isLast()` is false keeps `pos < rows`; `next()` adds exactly one to `pos` and
leaves `rows`, `order`, the column bindings, the description and the collation flags
unchanged. -/
theorem position_invariant :
    (∀ (block : Block) (desc : SortDescription) (order : Nat) (c : SortCursorImpl),
      SortCursorImpl.create block desc order = .ok c → 0 < block.rows → c.pos < c.rows) ∧
    (∀ c : SortCursorImpl, c.pos < c.rows → c.isLast = false → c.next.pos < c.next.rows) ∧
    (∀ c : SortCursorImpl, c.next.pos = c.pos + 1 ∧ c.next.rows = c.rows ∧
      c.next.order = c.order ∧ c.next.all_columns = c.all_columns ∧
      c.next.sort_columns = c.sort_columns ∧ c.next.desc = c.desc ∧
      c.next.sort_columns_size = c.sort_columns_size ∧
      c.next.need_collation = c.need_collation ∧ c.next.has_collation = c.has_collation) := by
  refine ⟨?_, ?_, ?_⟩
  · intro block desc order c h hrows
    obtain ⟨cols, first, rest, _, hblock, hc⟩ := SortCursorImpl.create_ok block desc order c h
    subst hblock
    rw [hc]
    exact hrows
  · intro c _ hlast
    simp only [SortCursorImpl.isLast, ge_iff_le, decide_eq_false_iff_not, not_le] at hlast
    exact hlast
  · intro c
    exact ⟨rfl, rfl, rfl, rfl, rfl, rfl, rfl, rfl, rfl⟩

/-- The cursor over the block with the rows `(1, "x")` and `(3, "y")` is at position 0 of 2
rows and is not at its last row; after `next()` it is at position 1. -/
theorem position_invariant_witness :
    (cursorOver (blockKV [(1, "x"), (3, "y")]) descK 0).pos
        < (cursorOver (blockKV [(1, "x"), (3, "y")]) descK 0).rows ∧
    (cursorOver (blockKV [(1, "x"), (3, "y")]) descK 0).next.pos
        < (cursorOver (blockKV [(1, "x"), (3, "y")]) descK 0).next.rows ∧
    (cursorOver (blockKV [(1, "x"), (3, "y")]) descK 0).next.pos = 1 :=
  ⟨position_invariant.1 (blockKV [(1, "x"), (3, "y")]) descK 0
      (cursorOver (blockKV [(1, "x"), (3, "y")]) descK 0) rfl (by decide),
   position_invariant.2.1 (cursorOver (blockKV [(1, "x"), (3, "y")]) descK 0) (by decide)
      (by decide),
   by decide⟩

/-! ## The arity invariant -/

theorem SortCursorImpl.reset_ok (c : SortCursorImpl) (block : Block) (r : SortCursorImpl)
    (hlen : c.desc.length ≤ c.need_collation.length)
    (h : SortCursorImpl.reset c block = .ok r) :
    ∃ cols first rest, SortCursorImpl.resolveAll block c.desc = .ok cols ∧
      block = first :: rest ∧
      r = { c with
            all_columns := block.map (fun x => x.column)
            sort_columns := cols
            need_collation := List.zipWith needCollation c.desc cols
              ++ c.need_collation.drop c.desc.length
            has_collation := c.has_collation || (List.zipWith needCollation c.desc cols).any id
            pos := 0
            rows := first.column.size } := by
  rw [SortCursorImpl.reset_eq c block hlen] at h
  cases hr : SortCursorImpl.resolveAll block c.desc with
  | error e => simp [hr] at h
  | ok cols =>
    cases block with
    | nil => simp [hr] at h
    | cons first rest =>
      simp only [hr] at h
      injection h with h
      exact ⟨cols, first, rest, rfl, rfl, h.symm⟩

theorem SortCursorImpl.create_arity (block : Block) (desc : SortDescription) (order : Nat)
    (c : SortCursorImpl) (h : SortCursorImpl.create block desc order = .ok c) :
    c.Arity ∧ c.desc = desc := by
  obtain ⟨cols, first, rest, hcols, _, hc⟩ := SortCursorImpl.create_ok block desc order c h
  have hlen := SortCursorImpl.resolveAll_length block desc cols hcols
  subst hc
  exact ⟨⟨hlen, by simp [hlen], rfl⟩, rfl⟩

/-- C17: after a successful construction, after every later successful `reset(block)` and
after every `next()`, `sort_columns.size() = need_collation.size() = sort_columns_size
= desc.size()`, and `sort_columns[j]` is the column resolved for key `j`; hence on a pair of
cursors sharing the description every read made by the loops of the comparators, at an index
`i < sort_columns_size`, is in range. -/
theorem arity_invariant :
    (∀ (block : Block) (desc : SortDescription) (order : Nat) (c : SortCursorImpl),
      SortCursorImpl.create block desc order = .ok c →
      c.Arity ∧ c.desc = desc ∧
      ∀ (j : Nat) (d : SortColumnDescription), desc[j]? = some d →
        ∃ col, c.sort_columns[j]? = some col ∧
          SortCursorImpl.resolveColumn block d = .ok col) ∧
    (∀ (c r : SortCursorImpl) (block : Block), c.Arity →
      SortCursorImpl.reset c block = .ok r →
      r.Arity ∧ r.desc = c.desc ∧
      ∀ (j : Nat) (d : SortColumnDescription), c.desc[j]? = some d →
        ∃ col, r.sort_columns[j]? = some col ∧
          SortCursorImpl.resolveColumn block d = .ok col) ∧
    (∀ c : SortCursorImpl, c.Arity → c.next.Arity) ∧
    (∀ (a b : SortCursorImpl) (i : Nat), a.Arity → b.Arity → a.desc = b.desc →
      i < a.sort_columns_size →
      (∃ d, vectorAt a.desc i = .ok d) ∧ (∃ ca, vectorAt a.sort_columns i = .ok ca) ∧
      (∃ cb, vectorAt b.sort_columns i = .ok cb) ∧
      (∃ f, vectorAt a.need_collation i = .ok f)) := by
  refine ⟨?_, ?_, ?_, ?_⟩
  · intro block desc order c h
    obtain ⟨har, hdesc⟩ := SortCursorImpl.create_arity block desc order c h
    refine ⟨har, hdesc, ?_⟩
    intro j d hd
    obtain ⟨cols, first, rest, hcols, _, hc⟩ := SortCursorImpl.create_ok block desc order c h
    obtain ⟨col, h1, h2⟩ := SortCursorImpl.resolveAll_getElem? block desc cols hcols j d hd
    exact ⟨col, by rw [hc]; exact h1, h2⟩
  · intro c r block har h
    obtain ⟨cols, first, rest, hcols, _, hr⟩ :=
      SortCursorImpl.reset_ok c block r (by rw [har.need_collation_length]) h
    have hlen := SortCursorImpl.resolveAll_length block c.desc cols hcols
    refine ⟨?_, by rw [hr], ?_⟩
    · subst hr
      refine ⟨hlen, ?_, har.size_eq⟩
      simp [hlen, har.need_collation_length]
    · intro j d hd
      obtain ⟨col, h1, h2⟩ := SortCursorImpl.resolveAll_getElem? block c.desc cols hcols j d hd
      exact ⟨col, by rw [hr]; exact h1, h2⟩
  · intro c har
    exact ⟨har.sort_columns_length, har.need_collation_length, har.size_eq⟩
  · intro a b i ha hb hab hi
    have hi1 : i < a.desc.length := by rw [← ha.size_eq]; exact hi
    refine ⟨⟨_, vectorAt_of_lt a.desc i hi1⟩,
      ⟨_, vectorAt_of_lt a.sort_columns i (by rw [ha.sort_columns_length]; exact hi1)⟩,
      ⟨_, vectorAt_of_lt b.sort_columns i
        (by rw [hb.sort_columns_length, ← hab]; exact hi1)⟩,
      ⟨_, vectorAt_of_lt a.need_collation i (by rw [ha.need_collation_length]; exact hi1)⟩⟩

/-- The cursor over `blockKV` by the keys `k` and `v`: constructed, reset to another block,
and compared with a cursor of the same description. -/
theorem arity_invariant_witness :
    (cursorOver (blockKV [(1, "x")]) descKV 0).Arity ∧
    (cursorOver (blockKV [(2, "z")]) descKV 0).Arity ∧
    (cursorOver (blockKV [(1, "x")]) descKV 0).next.Arity ∧
    ((∃ d, vectorAt (cursorOver (blockKV [(1, "x")]) descKV 0).desc 1 = .ok d) ∧
      (∃ ca, vectorAt (cursorOver (blockKV [(1, "x")]) descKV 0).sort_columns 1 = .ok ca) ∧
      (∃ cb, vectorAt (cursorOver (blockKV [(2, "z")]) descKV 1).sort_columns 1 = .ok cb) ∧
      (∃ f, vectorAt (cursorOver (blockKV [(1, "x")]) descKV 0).need_collation 1 = .ok f)) :=
  ⟨(arity_invariant.1 (blockKV [(1, "x")]) descKV 0 (cursorOver (blockKV [(1, "x")]) descKV 0)
      rfl).1,
   (arity_invariant.2.1 (cursorOver (blockKV [(1, "x")]) descKV 0)
      (cursorOver (blockKV [(2, "z")]) descKV 0) (blockKV [(2, "z")])
      ⟨by decide, by decide, by decide⟩ rfl).1,
   arity_invariant.2.2.1 (cursorOver (blockKV [(1, "x")]) descKV 0)
      ⟨by decide, by decide, by decide⟩,
   arity_invariant.2.2.2 (cursorOver (blockKV [(1, "x")]) descKV 0)
      (cursorOver (blockKV [(2, "z")]) descKV 1) 1 ⟨by decide, by decide, by decide⟩
      ⟨by decide, by decide, by decide⟩ rfl (by decide)⟩

/-! ## The flag `has_collation` -/

/-- After a construction `has_collation` is the disjunction of the flags of the keys. -/
theorem SortCursorImpl.create_has_collation (block : Block) (desc : SortDescription)
    (order : Nat) (c : SortCursorImpl) (h : SortCursorImpl.create block desc order = .ok c) :
    c.has_collation = true ↔ ∃ j : Nat, c.need_collation[j]? = some true := by
  obtain ⟨cols, first, rest, _, _, hc⟩ := SortCursorImpl.create_ok block desc order c h
  subst hc
  simp only [List.any_eq_true, id_eq]
  constructor
  · intro ⟨f, hf, hft⟩
    obtain ⟨j, hj, hjf⟩ := List.getElem_of_mem hf
    exact ⟨j, by rw [List.getElem?_eq_getElem hj, hjf, hft]⟩
  · intro ⟨j, hj⟩
    exact ⟨true, List.getElem?_mem hj, rfl⟩

/-- C18 (evaluation at the failing input): a cursor constructed with a collated key over a
string column and then reset to a block whose column of that name is not string-typed keeps
`has_collation = true` although no flag `need_collation[j]` of the bound block is set, whereas
a cursor constructed over that second block has `has_collation = false`. -/
theorem has_collation_stale_after_reset :
    (∃ r, SortCursorImpl.reset (cursorOver (blockS "ColumnString" ["a"]) descS 0)
        (blockS "ColumnFixedString" ["b"]) = .ok r ∧
      r.has_collation = true ∧ r.need_collation = [false] ∧
      ¬ ∃ j : Nat, r.need_collation[j]? = some true) ∧
    (cursorOver (blockS "ColumnFixedString" ["b"]) descS 0).has_collation = false :=
  ⟨⟨{ cursorOver (blockS "ColumnFixedString" ["b"]) descS 0 with has_collation := true },
    rfl, rfl, rfl, fun h => by
      obtain ⟨j, hj⟩ := h
      cases j with
      | zero => cases hj
      | succ j => cases hj⟩,
   rfl⟩

/-! ## The walk over one block -/

/-- A cursor with `m + 1` rows left is walked to its end in `m` calls of `next()`, emitting
the positions from `pos` on in increasing order, whatever budget beyond `m + 1` is given. -/
theorem SortCursorImpl.walk_eq (m : Nat) (c : SortCursorImpl) (k : Nat)
    (h : c.pos + (m + 1) = c.rows) :
    SortCursorImpl.walk (m + 1 + k) c = some (List.range' c.pos (m + 1), m) := by
  induction m generalizing c with
  | zero =>
    have hlast : c.isLast = true := by
      simp only [SortCursorImpl.isLast, ge_iff_le, decide_eq_true_eq]
      omega
    have hfuel : 0 + 1 + k = k + 1 := by omega
    rw [hfuel]
    simp [SortCursorImpl.walk, hlast]
  | succ m ih =>
    have hlast : c.isLast = false := by
      simp only [SortCursorImpl.isLast, ge_iff_le, decide_eq_false_iff_not, not_le]
      omega
    have hfuel : m + 1 + 1 + k = (m + 1 + k) + 1 := by omega
    rw [hfuel]
    simp only [SortCursorImpl.walk, hlast, Bool.false_eq_true, if_false]
    have hnext : c.next.pos + (m + 1) = c.next.rows := by
      simp only [SortCursorImpl.next]
      omega
    rw [ih c.next hnext]
    simp [SortCursorImpl.next, List.range']

/-! ## The identifier of the merge stage -/

/-- For a key with a name the code writes the name and the column number; the entry worded
by the specification has the name only. Likewise a key without a name is written with an
empty name in front of its number. -/
theorem getID_differs_from_spec_entry :
    (SortColumnDescription.ofName "k" 1 none).getID = "k, 0, 1" ∧
    specKeyEntry (SortColumnDescription.ofName "k" 1 none) = "k, 1" ∧
    (SortColumnDescription.ofNumber 2 (-1) none).getID = ", 2, -1" ∧
    specKeyEntry (SortColumnDescription.ofNumber 2 (-1) none) = "2, -1" ∧
    MergeSortingBlockInputStream.getID "Upstream" descK = "MergeSorting(Upstream, k, 0, 1)" ∧
    MergeSortingBlockInputStream.getID "Upstream" descK
      ≠ "MergeSorting(" ++ "Upstream" ++ ", " ++ specKeyEntry (SortColumnDescription.ofName "k" 1 none)
          ++ ")" := by
  refine ⟨by decide, by decide, by decide, by decide, by decide, by decide⟩

theorem String.foldl_append_eq (l : List String) (acc : String) :
    l.foldl (fun r s => r ++ s) acc = acc ++ l.foldl (fun r s => r ++ s) "" := by
  induction l generalizing acc with
  | nil => simp
  | cons x xs ih =>
    simp only [List.foldl_cons]
    rw [ih (acc ++ x), ih ("" ++ x)]
    simp [String.append_assoc]

theorem String.join_cons_eq (x : String) (xs : List String) :
    String.join (x :: xs) = x ++ String.join xs := by
  simp only [String.join, List.foldl_cons]
  rw [String.foldl_append_eq]
  simp

theorem SortColumnDescription.getID_eq_keyEntry (d : SortColumnDescription) :
    d.getID = keyEntry d := by
  simp only [SortColumnDescription.getID, keyEntry]
  cases d.collator with
  | none => simp
  | some c => simp [String.append_assoc]

theorem MergeSortingBlockInputStream.foldl_getID (ds : List SortColumnDescription)
    (acc : String) :
    ds.foldl (fun res d => res ++ ", " ++ d.getID) acc
      = acc ++ String.join (ds.map (fun d => ", " ++ keyEntry d)) := by
  induction ds generalizing acc with
  | nil => simp [String.join]
  | cons d ds ih =>
    simp only [List.foldl_cons, List.map_cons]
    rw [ih, String.join_cons_eq, SortColumnDescription.getID_eq_keyEntry]
    simp [String.append_assoc]

/-- C12 (amended): `MergeSortingBlockInputStream::getID` returns "MergeSorting(" + upstream
id + (for each key in order: ", " + key entry) + ")", where the key entry produced by
`SortColumnDescription::getID` is "<column-name>, <column-number>, <direction>" (both the
name, possibly empty, and the number are written), followed by
", collation locale: <locale>" exactly when the key has a collator. -/
theorem getID_format (upstream : String) (description : SortDescription) :
    MergeSortingBlockInputStream.getID upstream description
      = "MergeSorting(" ++ upstream
          ++ String.join (description.map (fun d => ", " ++ d.getID)) ++ ")" ∧
    ∀ d : SortColumnDescription,
      (d.collator = none →
        d.getID = d.column_name ++ ", " ++ showSize d.column_number ++ ", "
          ++ showInt d.direction) ∧
      (∀ collator, d.collator = some collator →
        d.getID = d.column_name ++ ", " ++ showSize d.column_number ++ ", "
          ++ showInt d.direction ++ ", collation locale: " ++ collator.locale) := by
  constructor
  · simp only [MergeSortingBlockInputStream.getID]
    rw [MergeSortingBlockInputStream.foldl_getID]
    have h : (fun d : SortColumnDescription => ", " ++ d.getID)
        = (fun d => ", " ++ keyEntry d) := by
      funext d
      rw [SortColumnDescription.getID_eq_keyEntry]
    rw [h]
  · intro d
    constructor
    · intro h
      simp [SortColumnDescription.getID, h]
    · intro collator h
      simp [SortColumnDescription.getID, h]

/-- The identifier of the collated description over the upstream "Upstream". -/
theorem getID_format_witness :
    MergeSortingBlockInputStream.getID "Upstream" descS
      = "MergeSorting(Upstream, s, 0, 1, collation locale: locale-L)" ∧
    (SortColumnDescription.ofName "k" 1 none).getID = "k, 0, 1" ∧
    (SortColumnDescription.ofName "s" 1 (some localeL)).getID
      = "s, 0, 1, collation locale: locale-L" :=
  ⟨(getID_format "Upstream" descS).1.trans (by decide),
   (((getID_format "Upstream" descS).2 (SortColumnDescription.ofName "k" 1 none)).1
      rfl).trans (by decide),
   (((getID_format "Upstream" descS).2 (SortColumnDescription.ofName "s" 1 (some localeL))).2
      localeL rfl).trans (by decide)⟩

/-! ## Injectivity of the identifier -/

theorem digitVal_digitChar (n : Nat) (h : n < 10) : digitVal (digitChar n) = n := by
  interval_cases n <;> decide

theorem isDigit_digitChar (n : Nat) : IsDigit (digitChar n) := by
  unfold IsDigit digitChar
  split_ifs <;> simp

theorem parseDigits_append (cs : List Char) (c : Char) :
    parseDigits (cs ++ [c]) = parseDigits cs * 10 + digitVal c := by
  simp [parseDigits, List.foldl_append]

theorem parseDigits_decimalDigits (fuel n : Nat) (h : n < fuel) :
    parseDigits (decimalDigits fuel n) = n := by
  induction fuel generalizing n with
  | zero => omega
  | succ fuel ih =>
    simp only [decimalDigits]
    by_cases hn : n < 10
    · simp only [hn, if_true]
      simp [parseDigits, digitVal_digitChar n hn]
    · simp only [hn, if_false]
      rw [parseDigits_append, ih (n / 10) (by omega),
        digitVal_digitChar (n % 10) (Nat.mod_lt n (by omega))]
      omega

theorem decimalDigits_isDigit (fuel n : Nat) : ∀ c ∈ decimalDigits fuel n, IsDigit c := by
  induction fuel generalizing n with
  | zero => simp [decimalDigits]
  | succ fuel ih =>
    simp only [decimalDigits]
    by_cases hn : n < 10
    · simp only [hn, if_true, List.mem_singleton]
      intro c hc
      rw [hc]
      exact isDigit_digitChar n
    · simp only [hn, if_false, List.mem_append, List.mem_singleton]
      intro c hc
      cases hc with
      | inl h => exact ih (n / 10) c h
      | inr h => rw [h]; exact isDigit_digitChar _

theorem decimalDigits_ne_nil (fuel n : Nat) : decimalDigits (fuel + 1) n ≠ [] := by
  simp only [decimalDigits]
  by_cases hn : n < 10 <;> simp [hn]

theorem showSize_injective (n m : Nat) (h : showSize n = showSize m) : n = m := by
  have h1 : decimalDigits (n + 1) n = decimalDigits (m + 1) m := by
    simpa [showSize] using congrArg String.data h
  have h2 := congrArg parseDigits h1
  rwa [parseDigits_decimalDigits _ _ (Nat.lt_succ_self n),
    parseDigits_decimalDigits _ _ (Nat.lt_succ_self m)] at h2

theorem showSize_data (n : Nat) :
    (showSize n).data ≠ [] ∧ ∀ c ∈ (showSize n).data, IsDigit c :=
  ⟨decimalDigits_ne_nil n n, decimalDigits_isDigit (n + 1) n⟩

theorem showInt_data (i : Int) :
    (i < 0 → (showInt i).data = '-' :: (showSize i.natAbs).data) ∧
    (¬ i < 0 → (showInt i).data = (showSize i.natAbs).data) := by
  constructor
  · intro h
    simp [showInt, h]
  · intro h
    simp [showInt, h]

theorem isDigit_ne_minus (c : Char) (h : IsDigit c) : c ≠ '-' := by
  unfold IsDigit at h
  rcases h with h | h | h | h | h | h | h | h | h | h <;> rw [h] <;> decide

theorem isDigit_ne_comma (c : Char) (h : IsDigit c) : c ≠ ',' := by
  unfold IsDigit at h
  rcases h with h | h | h | h | h | h | h | h | h | h <;> rw [h] <;> decide

theorem isDigit_ne_c (c : Char) (h : IsDigit c) : c ≠ 'c' := by
  unfold IsDigit at h
  rcases h with h | h | h | h | h | h | h | h | h | h <;> rw [h] <;> decide

theorem showInt_injective (i j : Int) (h : showInt i = showInt j) : i = j := by
  have hd := congrArg String.data h
  have hi0 := (showSize_data i.natAbs).1
  have hj0 := (showSize_data j.natAbs).1
  by_cases hi : i < 0 <;> by_cases hj : j < 0
  · rw [(showInt_data i).1 hi, (showInt_data j).1 hj] at hd
    have h1 : showSize i.natAbs = showSize j.natAbs := String.ext (List.cons.inj hd).2
    have := showSize_injective _ _ h1
    omega
  · rw [(showInt_data i).1 hi, (showInt_data j).2 hj] at hd
    cases hs : (showSize j.natAbs).data with
    | nil => exact absurd hs hj0
    | cons c cs =>
      rw [hs] at hd
      have hc : IsDigit c := (showSize_data j.natAbs).2 c (by rw [hs]; exact List.mem_cons_self c cs)
      exact absurd (List.cons.inj hd).1.symm (isDigit_ne_minus c hc)
  · rw [(showInt_data i).2 hi, (showInt_data j).1 hj] at hd
    cases hs : (showSize i.natAbs).data with
    | nil => exact absurd hs hi0
    | cons c cs =>
      rw [hs] at hd
      have hc : IsDigit c := (showSize_data i.natAbs).2 c (by rw [hs]; exact List.mem_cons_self c cs)
      exact absurd (List.cons.inj hd).1 (isDigit_ne_minus c hc)
  · rw [(showInt_data i).2 hi, (showInt_data j).2 hj] at hd
    have h1 : showSize i.natAbs = showSize j.natAbs := String.ext hd
    have := showSize_injective _ _ h1
    omega

theorem collationToken_ne_showSize (l : List Char) (n : Nat) :
    "collation locale: ".data ++ l ≠ (showSize n).data := by
  intro h
  cases hs : (showSize n).data with
  | nil => exact (showSize_data n).1 hs
  | cons c cs =>
    have hc : IsDigit c := (showSize_data n).2 c (by rw [hs]; exact List.mem_cons_self c cs)
    rw [hs] at h
    have h1 : 'c' = c := by
      have := List.cons.inj (show 'c' :: ("ollation locale: ".data ++ l) = c :: cs from h)
      exact this.1
    exact isDigit_ne_c c hc h1.symm

theorem collationToken_ne_showInt (l : List Char) (i : Int) :
    "collation locale: ".data ++ l ≠ (showInt i).data := by
  intro h
  by_cases hi : i < 0
  · rw [(showInt_data i).1 hi] at h
    have := List.cons.inj (show 'c' :: ("ollation locale: ".data ++ l) = _ from h)
    exact absurd this.1 (by decide)
  · rw [(showInt_data i).2 hi] at h
    exact collationToken_ne_showSize l _ h

/-- No description has the pieces of another one preceded by two more pieces and
followed, or not, by a collation text. -/
theorem idTokens_ne_shifted_collation (ds1 ds2 : SortDescription) (x y l : List Char) :
    idTokens ds1 ≠ x :: y :: ("collation locale: ".data ++ l) :: idTokens ds2 := by
  intro h
  cases ds1 with
  | nil => simp [idTokens] at h
  | cons k ks =>
    simp only [idTokens] at h
    cases hk : k.collator with
    | none =>
      simp only [hk, List.cons.injEq] at h
      exact collationToken_ne_showInt l _ h.2.2.1.symm
    | some c =>
      simp only [hk, List.cons.injEq] at h
      exact collationToken_ne_showInt l _ h.2.2.1.symm

theorem idTokens_ne_shifted (ds1 ds2 : SortDescription) (x y : List Char) :
    idTokens ds1 ≠ x :: y :: idTokens ds2 := by
  induction ds1 generalizing ds2 x y with
  | nil => simp [idTokens]
  | cons k ks ih =>
    intro h
    simp only [idTokens] at h
    cases ds2 with
    | nil =>
      cases hk : k.collator <;> simp [hk, idTokens] at h
    | cons k2 ks2 =>
      simp only [idTokens] at h
      cases hk : k.collator with
      | none =>
        cases hk2 : k2.collator with
        | none =>
          simp only [hk, hk2, List.cons.injEq] at h
          exact ih ks2 _ _ h.2.2.2
        | some c2 =>
          simp only [hk, hk2, List.cons.injEq] at h
          exact idTokens_ne_shifted_collation ks ks2 _ _ _ h.2.2.2
      | some c =>
        cases hk2 : k2.collator with
        | none =>
          simp only [hk, hk2, List.cons.injEq] at h
          exact collationToken_ne_showSize _ _ h.2.2.2.1
        | some c2 =>
          simp only [hk, hk2, List.cons.injEq] at h
          exact collationToken_ne_showSize _ _ h.2.2.2.1

theorem idTokens_ne_cons (ks ks2 : SortDescription) (t : List Char) :
    t :: idTokens ks ≠ idTokens ks2 := by
  intro h
  cases ks2 with
  | nil => simp [idTokens] at h
  | cons k2 ks3 =>
    simp only [idTokens] at h
    cases hk2 : k2.collator with
    | none =>
      simp only [hk2, List.cons.injEq] at h
      exact idTokens_ne_shifted ks ks3 _ _ h.2
    | some c2 =>
      simp only [hk2, List.cons.injEq] at h
      exact idTokens_ne_shifted_collation ks ks3 _ _ _ h.2

/-- Descriptions with the same pieces of text have, key by key, the same column name,
column number, direction and collation locale. -/
theorem idTokens_injective (d1 d2 : SortDescription) (h : idTokens d1 = idTokens d2) :
    List.Forall₂ SameKey d1 d2 := by
  induction d1 generalizing d2 with
  | nil =>
    cases d2 with
    | nil => exact List.Forall₂.nil
    | cons k2 ks2 =>
      simp only [idTokens] at h
      cases hk2 : k2.collator <;> simp [hk2] at h
  | cons k ks ih =>
    cases d2 with
    | nil =>
      simp only [idTokens] at h
      cases hk : k.collator <;> simp [hk] at h
    | cons k2 ks2 =>
      simp only [idTokens] at h
      cases hk : k.collator with
      | none =>
        cases hk2 : k2.collator with
        | none =>
          simp only [hk, hk2, List.cons.injEq] at h
          exact List.Forall₂.cons
            ⟨String.ext h.1, showSize_injective _ _ (String.ext h.2.1),
              showInt_injective _ _ (String.ext h.2.2.1), by rw [hk, hk2]⟩
            (ih ks2 h.2.2.2)
        | some c2 =>
          simp only [hk, hk2, List.cons.injEq] at h
          exact absurd h.2.2.2.symm (idTokens_ne_cons ks2 ks _)
      | some c =>
        cases hk2 : k2.collator with
        | none =>
          simp only [hk, hk2, List.cons.injEq] at h
          exact absurd h.2.2.2 (idTokens_ne_cons ks ks2 _)
        | some c2 =>
          simp only [hk, hk2, List.cons.injEq] at h
          have hl : c.locale = c2.locale :=
            String.ext (List.append_cancel_left h.2.2.2.1)
          exact List.Forall₂.cons
            ⟨String.ext h.1, showSize_injective _ _ (String.ext h.2.1),
              showInt_injective _ _ (String.ext h.2.2.1), by simp [hk, hk2, hl]⟩
            (ih ks2 h.2.2.2.2)

/-- Two texts without a comma, each followed by nothing or by a comma, are equal as soon as
the two wholes are. -/
theorem commaFree_segment_eq (s t r r1 : List Char) (hs : ',' ∉ s) (ht : ',' ∉ t)
    (hr : r = [] ∨ ∃ tl, r = ',' :: tl) (hr1 : r1 = [] ∨ ∃ tl, r1 = ',' :: tl)
    (h : s ++ r = t ++ r1) : s = t ∧ r = r1 := by
  induction s generalizing t with
  | nil =>
    cases t with
    | nil => exact ⟨rfl, by simpa using h⟩
    | cons c cs =>
      simp only [List.nil_append, List.cons_append] at h
      rcases hr with hr | ⟨tl, hr⟩
      · rw [hr] at h; cases h
      · rw [hr] at h
        have hc := (List.cons.inj h).1
        exact absurd (by rw [← hc]; exact List.mem_cons_self _ _) ht
  | cons a as ih =>
    cases t with
    | nil =>
      simp only [List.nil_append, List.cons_append] at h
      rcases hr1 with hr1 | ⟨tl, hr1⟩
      · rw [hr1] at h; cases h
      · rw [hr1] at h
        have hc := (List.cons.inj h).1
        exact absurd (by rw [hc]; exact List.mem_cons_self _ _) hs
    | cons c cs =>
      simp only [List.cons_append] at h
      obtain ⟨hac, hrest⟩ := List.cons.inj h
      obtain ⟨h1, h2⟩ := ih cs (fun hm => hs (List.mem_cons_of_mem _ hm))
        (fun hm => ht (List.mem_cons_of_mem _ hm)) hrest
      exact ⟨by rw [hac, h1], h2⟩

theorem renderTokens_start (ts : List (List Char)) :
    renderTokens ts = [] ∨ ∃ tl, renderTokens ts = ',' :: tl := by
  cases ts with
  | nil => exact Or.inl rfl
  | cons t ts => exact Or.inr ⟨_, rfl⟩

theorem renderTokens_injective (ts us : List (List Char)) (hts : ∀ t ∈ ts, ',' ∉ t)
    (hus : ∀ u ∈ us, ',' ∉ u) (h : renderTokens ts = renderTokens us) : ts = us := by
  induction ts generalizing us with
  | nil =>
    cases us with
    | nil => rfl
    | cons u us => simp [renderTokens] at h
  | cons t ts ih =>
    cases us with
    | nil => simp [renderTokens] at h
    | cons u us =>
      simp only [renderTokens, List.cons.injEq, true_and] at h
      obtain ⟨h1, h2⟩ := commaFree_segment_eq t u _ _ (hts t (List.mem_cons_self t ts))
        (hus u (List.mem_cons_self u us)) (renderTokens_start ts) (renderTokens_start us) h
      rw [h1, ih us (fun x hx => hts x (List.mem_cons_of_mem t hx))
        (fun x hx => hus x (List.mem_cons_of_mem u hx)) h2]

theorem showSize_commaFree (n : Nat) : ',' ∉ (showSize n).data :=
  fun h => isDigit_ne_comma _ ((showSize_data n).2 _ h) rfl

theorem showInt_commaFree (i : Int) : ',' ∉ (showInt i).data := by
  by_cases hi : i < 0
  · rw [(showInt_data i).1 hi]
    intro h
    cases h with
    | tail _ h => exact showSize_commaFree _ h
  · rw [(showInt_data i).2 hi]
    exact showSize_commaFree _

theorem idTokens_commaFree (desc : SortDescription) (h : CommaFree desc) :
    ∀ t ∈ idTokens desc, ',' ∉ t := by
  induction desc with
  | nil => simp [idTokens]
  | cons d ds ih =>
    have hd := h d (List.mem_cons_self d ds)
    have hds := ih (fun e he => h e (List.mem_cons_of_mem d he))
    intro t ht
    simp only [idTokens] at ht
    cases hc : d.collator with
    | none =>
      simp only [hc, List.mem_cons] at ht
      rcases ht with ht | ht | ht | ht
      · rw [ht]; exact hd.1
      · rw [ht]; exact showSize_commaFree _
      · rw [ht]; exact showInt_commaFree _
      · exact hds t ht
    | some c =>
      simp only [hc, List.mem_cons] at ht
      rcases ht with ht | ht | ht | ht | ht
      · rw [ht]; exact hd.1
      · rw [ht]; exact showSize_commaFree _
      · rw [ht]; exact showInt_commaFree _
      · rw [ht]
        intro hm
        rcases List.mem_append.mp hm with hm | hm
        · exact absurd hm (by decide)
        · exact hd.2 c hc hm
      · exact hds t ht

theorem MergeSortingBlockInputStream.foldl_getID_data (ds : List SortColumnDescription)
    (acc : String) :
    (ds.foldl (fun res d => res ++ ", " ++ d.getID) acc).data
      = acc.data ++ renderTokens (idTokens ds) := by
  induction ds generalizing acc with
  | nil => simp [idTokens, renderTokens]
  | cons d ds ih =>
    simp only [List.foldl_cons]
    rw [ih]
    simp only [idTokens, SortColumnDescription.getID]
    cases d.collator with
    | none => simp [renderTokens, String.data_append]
    | some c => simp [renderTokens, String.data_append]

theorem MergeSortingBlockInputStream.getID_data (upstream : String)
    (description : SortDescription) :
    (MergeSortingBlockInputStream.getID upstream description).data
      = "MergeSorting(".data ++ upstream.data ++ renderTokens (idTokens description) ++ [')'] := by
  simp only [MergeSortingBlockInputStream.getID, String.data_append,
    MergeSortingBlockInputStream.foldl_getID_data]

/-- Two descriptions of different lengths, one of them with a column name that contains
", ", have the same identifier. -/
theorem getID_collision :
    [SortColumnDescription.ofName "a" 1 none, SortColumnDescription.ofName "b" 1 none].length
      ≠ [SortColumnDescription.ofName "a, 0, 1, b" 1 none].length ∧
    MergeSortingBlockInputStream.getID "Upstream"
        [SortColumnDescription.ofName "a" 1 none, SortColumnDescription.ofName "b" 1 none]
      = MergeSortingBlockInputStream.getID "Upstream"
        [SortColumnDescription.ofName "a, 0, 1, b" 1 none] := by
  exact ⟨by decide, by decide⟩

/-- C19 (amended): for every fixed upstream id, two sort descriptions none of whose column
names and collation locales contains a comma, and that differ in length or in the column
name, column number, direction or collation locale of some key, have different
`MergeSortingBlockInputStream::getID` strings: equal strings force equal lengths and
key-wise equal column names, column numbers, directions and collation locales. -/
theorem getID_injective (upstream : String) (d1 d2 : SortDescription) (h1 : CommaFree d1)
    (h2 : CommaFree d2)
    (h : MergeSortingBlockInputStream.getID upstream d1
      = MergeSortingBlockInputStream.getID upstream d2) :
    d1.length = d2.length ∧ List.Forall₂ SameKey d1 d2 := by
  have hd := congrArg String.data h
  rw [MergeSortingBlockInputStream.getID_data, MergeSortingBlockInputStream.getID_data] at hd
  have hbody : renderTokens (idTokens d1) = renderTokens (idTokens d2) :=
    List.append_cancel_left (List.append_cancel_right hd)
  have htok := renderTokens_injective _ _ (idTokens_commaFree d1 h1) (idTokens_commaFree d2 h2)
    hbody
  have hall := idTokens_injective d1 d2 htok
  exact ⟨hall.length_eq, hall⟩

/-- The descriptions by `k` and by `k` then `v` have no comma in their names, and their
identifiers differ. -/
theorem getID_injective_witness :
    CommaFree descK ∧ CommaFree descKV ∧
    MergeSortingBlockInputStream.getID "Upstream" descK
      ≠ MergeSortingBlockInputStream.getID "Upstream" descKV :=
  ⟨by
    intro d hd
    have hd1 : d = SortColumnDescription.ofName "k" 1 none := by simpa [descK] using hd
    subst hd1
    exact ⟨by decide, fun c hc => by cases hc⟩,
   by
    intro d hd
    have hd1 : d = SortColumnDescription.ofName "k" 1 none ∨
        d = SortColumnDescription.ofName "v" 1 none := by simpa [descKV] using hd
    rcases hd1 with hd1 | hd1 <;> subst hd1 <;>
      exact ⟨by decide, fun c hc => by cases hc⟩,
   fun h => absurd (getID_injective "Upstream" descK descKV
      (by
        intro d hd
        have hd1 : d = SortColumnDescription.ofName "k" 1 none := by simpa [descK] using hd
        subst hd1
        exact ⟨by decide, fun c hc => by cases hc⟩)
      (by
        intro d hd
        have hd1 : d = SortColumnDescription.ofName "k" 1 none ∨
            d = SortColumnDescription.ofName "v" 1 none := by simpa [descKV] using hd
        rcases hd1 with hd1 | hd1 <;> subst hd1 <;>
          exact ⟨by decide, fun c hc => by cases hc⟩)
      h).1 (by decide)⟩

/-! ## Three-way comparisons -/

theorem IsThreeWay.zero_symm {α : Type} {f : α → α → Int} (h : IsThreeWay f) (x y : α)
    (hxy : f x y = 0) : f y x = 0 := by
  have h1 := h.antisymm x y
  have h2 := h.antisymm y x
  omega

theorem IsThreeWay.neg_of_pos {α : Type} {f : α → α → Int} (h : IsThreeWay f) (x y : α)
    (hxy : 0 < f x y) : f y x < 0 := (h.antisymm x y).mp hxy

theorem IsThreeWay.pos_of_neg {α : Type} {f : α → α → Int} (h : IsThreeWay f) (x y : α)
    (hxy : f x y < 0) : 0 < f y x := (h.antisymm y x).mpr hxy

theorem IsThreeWay.nonneg_symm {α : Type} {f : α → α → Int} (h : IsThreeWay f) (x y : α)
    (hxy : f x y ≤ 0) : 0 ≤ f y x := by
  have h1 := h.antisymm x y
  omega

theorem IsThreeWay.nonpos_symm {α : Type} {f : α → α → Int} (h : IsThreeWay f) (x y : α)
    (hxy : 0 ≤ f x y) : f y x ≤ 0 := by
  have h1 := h.antisymm x y
  have h2 := h.antisymm y x
  omega

theorem IsThreeWay.lt_of_lt_of_le {α : Type} {f : α → α → Int} (h : IsThreeWay f) (x y z : α)
    (hxy : f x y < 0) (hyz : f y z ≤ 0) : f x z < 0 := by
  have h1 := h.trans x y z (by omega) hyz
  by_contra hne
  have h0 : f x z = 0 := by omega
  have h2 := h.zero_symm x z h0
  have h3 := h.trans y z x hyz (by omega)
  have h4 := h.nonneg_symm y x h3
  omega

theorem IsThreeWay.lt_of_le_of_lt {α : Type} {f : α → α → Int} (h : IsThreeWay f) (x y z : α)
    (hxy : f x y ≤ 0) (hyz : f y z < 0) : f x z < 0 := by
  have h1 := h.trans x y z hxy (by omega)
  by_contra hne
  have h0 : f x z = 0 := by omega
  have h2 := h.zero_symm x z h0
  have h3 := h.trans z x y (by omega) hxy
  have h4 := h.nonneg_symm z y h3
  omega

/-- Multiplying a three-way comparison by a direction gives a three-way comparison. -/
theorem IsThreeWay.mul_left {α : Type} {f : α → α → Int} (h : IsThreeWay f) (d : Int) :
    IsThreeWay (fun x y => d * f x y) := by
  rcases Int.lt_trichotomy d 0 with hd | hd | hd
  · refine ⟨fun x => by simp [h.refl x], fun x y => ?_, fun x y z hxy hyz => ?_⟩
    · have h1 := h.antisymm x y
      have h2 := h.antisymm y x
      constructor
      · intro hp
        have : f x y < 0 := by
          by_contra hc
          have : 0 ≤ f x y := by omega
          have := Int.mul_nonpos_of_nonpos_of_nonneg (Int.le_of_lt hd) this
          omega
        exact Int.mul_neg_of_neg_of_pos hd (h2.mpr this)
      · intro hn
        have : 0 < f y x := by
          by_contra hc
          have : f y x ≤ 0 := by omega
          have := Int.mul_nonneg_of_nonpos_of_nonpos (Int.le_of_lt hd) this
          omega
        exact Int.mul_pos_of_neg_of_neg hd (h2.mp this)
    · have hxy1 : 0 ≤ f x y := by
        by_contra hc
        have : f x y < 0 := by omega
        have := Int.mul_pos_of_neg_of_neg hd this
        omega
      have hyz1 : 0 ≤ f y z := by
        by_contra hc
        have : f y z < 0 := by omega
        have := Int.mul_pos_of_neg_of_neg hd this
        omega
      have h3 := h.trans z y x (h.nonpos_symm y z hyz1) (h.nonpos_symm x y hxy1)
      have h4 := h.nonneg_symm z x h3
      exact Int.mul_nonpos_of_nonpos_of_nonneg (Int.le_of_lt hd) h4
  · subst hd
    exact ⟨fun x => by simp, fun x y => by simp, fun x y z _ _ => by simp⟩
  · refine ⟨fun x => by simp [h.refl x], fun x y => ?_, fun x y z hxy hyz => ?_⟩
    · have h1 := h.antisymm x y
      constructor
      · intro hp
        have : 0 < f x y := by
          by_contra hc
          have : f x y ≤ 0 := by omega
          have := Int.mul_nonpos_of_nonneg_of_nonpos (Int.le_of_lt hd) this
          omega
        exact Int.mul_neg_of_pos_of_neg hd (h1.mp this)
      · intro hn
        have : f y x < 0 := by
          by_contra hc
          have : 0 ≤ f y x := by omega
          have := Int.mul_nonneg (Int.le_of_lt hd) this
          omega
        exact Int.mul_pos hd (h1.mpr this)
    · have hxy1 : f x y ≤ 0 := by
        by_contra hc
        have : 0 < f x y := by omega
        have := Int.mul_pos hd this
        omega
      have hyz1 : f y z ≤ 0 := by
        by_contra hc
        have : 0 < f y z := by omega
        have := Int.mul_pos hd this
        omega
      exact Int.mul_nonpos_of_nonneg_of_nonpos (Int.le_of_lt hd) (h.trans x y z hxy1 hyz1)

theorem IsThreeWay.mul_right {α : Type} {f : α → α → Int} (h : IsThreeWay f) (d : Int) :
    IsThreeWay (fun x y => f x y * d) := by
  have h1 := h.mul_left d
  have h2 : (fun x y => f x y * d) = (fun x y => d * f x y) := by
    funext x y
    exact Int.mul_comm _ _
  rw [h2]
  exact h1

theorem IsThreeWay.zero_trans {α : Type} {f : α → α → Int} (h : IsThreeWay f) (x y z : α)
    (hxy : f x y = 0) (hyz : f y z = 0) : f x z = 0 := by
  have h1 := h.trans x y z (by omega) (by omega)
  have h2 := h.trans z y x (by rw [h.zero_symm y z hyz]) (by rw [h.zero_symm x y hxy])
  have h3 := h.nonneg_symm z x h2
  omega

/-! ## The lexicographic comparison of two rows -/

theorem lexFrom_self (g : Nat → Field → Field → Int) (hg : ∀ i, IsThreeWay (g i))
    (x : Nat → Field) (i n : Nat) : lexFrom g x x i n = 0 := by
  induction n generalizing i with
  | zero => rfl
  | succ n ih => simp [lexFrom, (hg i).refl, ih]

theorem lexFrom_antisymm (g : Nat → Field → Field → Int) (hg : ∀ i, IsThreeWay (g i))
    (x y : Nat → Field) (i n : Nat) : 0 < lexFrom g x y i n ↔ lexFrom g y x i n < 0 := by
  induction n generalizing i with
  | zero => simp [lexFrom]
  | succ n ih =>
    simp only [lexFrom]
    have h1 := (hg i).antisymm (x i) (y i)
    have h2 := (hg i).antisymm (y i) (x i)
    by_cases hz : g i (x i) (y i) = 0
    · have hz1 := (hg i).zero_symm _ _ hz
      simp only [hz, hz1, ne_eq, not_true_eq_false, if_false]
      exact ih (i + 1)
    · have hz1 : g i (y i) (x i) ≠ 0 := fun hc => hz ((hg i).zero_symm _ _ hc)
      simp only [hz, hz1, ne_eq, not_false_eq_true, if_true]
      exact h1

theorem lexFrom_trans (g : Nat → Field → Field → Int) (hg : ∀ i, IsThreeWay (g i))
    (x y z : Nat → Field) (i n : Nat) (hxy : lexFrom g x y i n ≤ 0)
    (hyz : lexFrom g y z i n ≤ 0) : lexFrom g x z i n ≤ 0 := by
  induction n generalizing i with
  | zero => simp [lexFrom]
  | succ n ih =>
    simp only [lexFrom] at hxy hyz ⊢
    by_cases hp : g i (x i) (y i) = 0
    · simp only [hp, ne_eq, not_true_eq_false, if_false] at hxy
      by_cases hq : g i (y i) (z i) = 0
      · simp only [hq, ne_eq, not_true_eq_false, if_false] at hyz
        have hs := (hg i).zero_trans _ _ _ hp hq
        simp only [hs, ne_eq, not_true_eq_false, if_false]
        exact ih (i + 1) hxy hyz
      · simp only [hq, ne_eq, not_false_eq_true, if_true] at hyz
        have hs := (hg i).lt_of_le_of_lt (x i) (y i) (z i) (by omega) (by omega)
        have hs1 : g i (x i) (z i) ≠ 0 := by omega
        simp only [hs1, ne_eq, not_false_eq_true, if_true]
        omega
    · simp only [hp, ne_eq, not_false_eq_true, if_true] at hxy
      have hq1 : g i (y i) (z i) ≤ 0 := by
        by_cases hq : g i (y i) (z i) = 0
        · omega
        · simp only [hq, ne_eq, not_false_eq_true, if_true] at hyz
          exact hyz
      have hs := (hg i).lt_of_lt_of_le (x i) (y i) (z i) (by omega) hq1
      have hs1 : g i (x i) (z i) ≠ 0 := by omega
      simp only [hs1, ne_eq, not_false_eq_true, if_true]
      omega

/-- The lexicographic comparison of rows by three-way comparisons of the keys is a
three-way comparison of the rows. -/
theorem lexFrom_isThreeWay (g : Nat → Field → Field → Int) (hg : ∀ i, IsThreeWay (g i))
    (i n : Nat) : IsThreeWay (fun x y : Nat → Field => lexFrom g x y i n) :=
  ⟨fun x => lexFrom_self g hg x i n, fun x y => lexFrom_antisymm g hg x y i n,
    fun x y z => lexFrom_trans g hg x y z i n⟩

/-- The loop of the comparators on values that are all defined: it answers true when the
lexicographic comparison is positive, false when it is negative, and `tie` when it is
zero. -/
theorem decideFrom_eq_lexFrom (r : Nat → Except Exception Int)
    (g : Nat → Field → Field → Int) (x y : Nat → Field) (tie : Bool) (i n : Nat)
    (h : ∀ j, i ≤ j → j < i + n → r j = .ok (g j (x j) (y j))) :
    decideFrom r tie i n
      = .ok (decide (0 < lexFrom g x y i n) || (decide (lexFrom g x y i n = 0) && tie)) := by
  induction n generalizing i with
  | zero => simp [decideFrom, lexFrom]
  | succ n ih =>
    simp only [decideFrom, lexFrom, h i (Nat.le_refl i) (by omega)]
    by_cases hpos : 0 < g i (x i) (y i)
    · have hne : g i (x i) (y i) ≠ 0 := by omega
      simp [hpos, hne]
    · by_cases hneg : g i (x i) (y i) < 0
      · have hne : g i (x i) (y i) ≠ 0 := by omega
        simp [hpos, hneg, hne]
      · have hz : g i (x i) (y i) = 0 := by omega
        simp only [hz, gt_iff_lt, lt_self_iff_false, if_false, ne_eq, not_true_eq_false]
        exact ih (i + 1) (fun j h1 h2 => h j (by omega) (by omega))

/-! ## The comparators on cursors that are ready -/

theorem SortCursorImpl.Ready.cell (c : SortCursorImpl) (hc : c.Ready) (i : Nat)
    (hi : i < c.desc.length) :
    ∃ col, c.sort_columns[i]? = some col ∧ col.data[c.pos]? = some (c.keyCell i) := by
  have hlen : i < c.sort_columns.length := by rw [hc.arity.sort_columns_length]; exact hi
  refine ⟨c.sort_columns[i], List.getElem?_eq_getElem hlen, ?_⟩
  have hpos := hc.in_range _ (List.getElem_mem hlen)
  simp [SortCursorImpl.keyCell, List.getElem?_eq_getElem hlen, List.getElem?_eq_getElem hpos,
    List.getD_eq_getElem?_getD]

theorem SortCursor.res_of_ready (cmp : Field → Field → Int) (a b : SortCursorImpl)
    (ha : a.Ready) (hb : b.Ready) (hab : a.desc = b.desc) (i : Nat)
    (hi : i < a.sort_columns_size) :
    SortCursor.res cmp a b i = .ok (plainKey cmp a.desc i (a.keyCell i) (b.keyCell i)) := by
  have hi1 : i < a.desc.length := by rw [← ha.arity.size_eq]; exact hi
  obtain ⟨ca, hca, hx⟩ := ha.cell a i hi1
  obtain ⟨cb, hcb, hy⟩ := hb.cell b i (by rw [← hab]; exact hi1)
  rw [SortCursor.res_eq cmp a b i a.desc[i] ca cb _ _ (List.getElem?_eq_getElem hi1) hca hcb
    hx hy]
  simp [plainKey, keyDirection, List.getElem?_eq_getElem hi1]

theorem SortCursorWithCollation.collated_res_of_ready (cmp : Field → Field → Int) (a b : SortCursorImpl)
    (ha : a.Ready) (hb : b.Ready) (hab : a.desc = b.desc) (i : Nat)
    (hi : i < a.sort_columns_size) :
    SortCursorWithCollation.res cmp a b i
      = .ok (collatedKey cmp a.desc a.need_collation i (a.keyCell i) (b.keyCell i)) := by
  have hi1 : i < a.desc.length := by rw [← ha.arity.size_eq]; exact hi
  have hi2 : i < a.need_collation.length := by rw [ha.arity.need_collation_length]; exact hi1
  obtain ⟨ca, hca, hx⟩ := ha.cell a i hi1
  obtain ⟨cb, hcb, hy⟩ := hb.cell b i (by rw [← hab]; exact hi1)
  have hd : a.desc[i]? = some a.desc[i] := List.getElem?_eq_getElem hi1
  cases hf : a.need_collation[i] with
  | false =>
    have hf1 : a.need_collation[i]? = some false := by rw [List.getElem?_eq_getElem hi2, hf]
    rw [SortCursorWithCollation.res_eq_native cmp a b i a.desc[i] ca cb _ _ hf1 hd hca hcb hx hy]
    simp [collatedKey, keyCompare, keyDirection, hf1, hd]
  | true =>
    have hf1 : a.need_collation[i]? = some true := by rw [List.getElem?_eq_getElem hi2, hf]
    obtain ⟨d, col, collator, hd1, hcoll, hcol, hname⟩ := ha.flag_sound i hf1
    rw [hd] at hd1
    injection hd1 with hd1
    rw [hca] at hcol
    injection hcol with hcol
    subst hcol
    rw [SortCursorWithCollation.res_eq_collated cmp a b i a.desc[i] collator ca cb _ _ hf1 hd
      (by rw [hd1]; exact hcoll) hca hname hcb hx hy]
    simp [collatedKey, keyCompare, keyDirection, hf1, hd, hd1, hcoll]

/-- On ready cursors of one description the plain comparator returns a value: true when the
rows compare positive, or compare zero with `a.order > b.order`. -/
theorem SortCursor.lt_of_ready (cmp : Field → Field → Int) (a b : SortCursorImpl)
    (ha : a.Ready) (hb : b.Ready) (hab : a.desc = b.desc) :
    SortCursor.lt cmp a b
      = .ok (belowBy (fun x y => lexFrom (plainKey cmp a.desc) x y 0 a.sort_columns_size)
          a.keyCell a.order b.keyCell b.order) := by
  rw [SortCursor.lt_eq_decideFrom]
  exact decideFrom_eq_lexFrom _ (plainKey cmp a.desc) a.keyCell b.keyCell _ 0 _
    (fun j _ hj => SortCursor.res_of_ready cmp a b ha hb hab j (by omega))

theorem SortCursorWithCollation.collated_lt_of_ready (cmp : Field → Field → Int)
    (a b : SortCursorImpl) (ha : a.Ready) (hb : b.Ready) (hab : a.desc = b.desc) :
    SortCursorWithCollation.lt cmp a b
      = .ok (belowBy
          (fun x y => lexFrom (collatedKey cmp a.desc a.need_collation) x y 0
            a.sort_columns_size)
          a.keyCell a.order b.keyCell b.order) := by
  rw [SortCursorWithCollation.collated_lt_eq_decideFrom]
  exact decideFrom_eq_lexFrom _ (collatedKey cmp a.desc a.need_collation) a.keyCell b.keyCell _
    0 _ (fun j _ hj => SortCursorWithCollation.collated_res_of_ready cmp a b ha hb hab j (by omega))

theorem plainKey_isThreeWay (cmp : Field → Field → Int) (hcmp : IsThreeWay cmp)
    (desc : SortDescription) (i : Nat) : IsThreeWay (plainKey cmp desc i) :=
  hcmp.mul_left (keyDirection desc i)

theorem keyCompare_isThreeWay (cmp : Field → Field → Int) (hcmp : IsThreeWay cmp)
    (desc : SortDescription) (hdesc : CollatorsThreeWay desc) (flags : List Bool) (i : Nat) :
    IsThreeWay (keyCompare cmp desc flags i) := by
  unfold keyCompare
  cases hf : flags[i]? with
  | none => exact hcmp
  | some f =>
    cases f with
    | false => exact hcmp
    | true =>
      cases hd : desc[i]? with
      | none => exact hcmp
      | some d =>
        cases hc : d.collator with
        | none => simpa [hc] using hcmp
        | some collator =>
          simpa [hc] using hdesc d (List.getElem?_mem hd) collator hc

theorem collatedKey_isThreeWay (cmp : Field → Field → Int) (hcmp : IsThreeWay cmp)
    (desc : SortDescription) (hdesc : CollatorsThreeWay desc) (flags : List Bool) (i : Nat) :
    IsThreeWay (collatedKey cmp desc flags i) :=
  (keyCompare_isThreeWay cmp hcmp desc hdesc flags i).mul_right (keyDirection desc i)

/-! ## The order induced by three-way keys and stability tags -/

theorem belowBy_eq_true {α : Type} (t : α → α → Int) (x y : α) (oa ob : Nat) :
    belowBy t x oa y ob = true ↔ 0 < t x y ∨ (t x y = 0 ∧ ob < oa) := by
  simp [belowBy]

theorem belowBy_eq_false {α : Type} (t : α → α → Int) (x y : α) (oa ob : Nat) :
    belowBy t x oa y ob = false ↔ t x y ≤ 0 ∧ (t x y = 0 → oa ≤ ob) := by
  rw [← Bool.not_eq_true, belowBy_eq_true]
  constructor
  · intro h
    refine ⟨by omega, fun h0 => ?_⟩
    by_contra hc
    exact h (Or.inr ⟨h0, by omega⟩)
  · intro h hc
    rcases hc with hc | hc
    · omega
    · have := h.2 hc.1
      omega

theorem belowBy_irrefl {α : Type} (t : α → α → Int) (ht : IsThreeWay t) (x : α) (o : Nat) :
    belowBy t x o x o = false := by
  rw [belowBy_eq_false]
  exact ⟨by rw [ht.refl x], fun _ => Nat.le_refl o⟩

theorem belowBy_asymm {α : Type} (t : α → α → Int) (ht : IsThreeWay t) (x y : α)
    (oa ob : Nat) (h : belowBy t x oa y ob = true) : belowBy t y ob x oa = false := by
  rw [belowBy_eq_true] at h
  rw [belowBy_eq_false]
  rcases h with h | h
  · have := ht.neg_of_pos x y h
    exact ⟨by omega, fun h0 => by omega⟩
  · have := ht.zero_symm x y h.1
    exact ⟨by omega, fun _ => by omega⟩

theorem belowBy_trans {α : Type} (t : α → α → Int) (ht : IsThreeWay t) (x y z : α)
    (oa ob oc : Nat) (hxy : belowBy t x oa y ob = true) (hyz : belowBy t y ob z oc = true) :
    belowBy t x oa z oc = true := by
  rw [belowBy_eq_true] at hxy hyz ⊢
  have hyx : t y x ≤ 0 := ht.nonpos_symm x y (by omega)
  have hzy : t z y ≤ 0 := ht.nonpos_symm y z (by omega)
  rcases hxy with hxy | hxy
  · left
    have h1 := ht.lt_of_le_of_lt z y x hzy (ht.neg_of_pos x y hxy)
    exact ht.pos_of_neg z x h1
  · rcases hyz with hyz | hyz
    · left
      have h1 := ht.lt_of_lt_of_le z y x (ht.neg_of_pos y z hyz) hyx
      exact ht.pos_of_neg z x h1
    · right
      exact ⟨ht.zero_trans x y z hxy.1 hyz.1, by omega⟩

/-- Two rows are incomparable exactly when their keys compare zero and their tags are
equal. -/
theorem belowBy_incomparable {α : Type} (t : α → α → Int) (ht : IsThreeWay t) (x y : α)
    (oa ob : Nat) :
    (belowBy t x oa y ob = false ∧ belowBy t y ob x oa = false) ↔ (t x y = 0 ∧ oa = ob) := by
  rw [belowBy_eq_false, belowBy_eq_false]
  constructor
  · intro ⟨⟨h1, h2⟩, ⟨h3, h4⟩⟩
    have h5 := ht.nonneg_symm y x h3
    have h0 : t x y = 0 := by omega
    have h6 := ht.zero_symm x y h0
    exact ⟨h0, by have := h2 h0; have := h4 h6; omega⟩
  · intro ⟨h0, ho⟩
    have h6 := ht.zero_symm x y h0
    exact ⟨⟨by omega, fun _ => by omega⟩, ⟨by omega, fun _ => by omega⟩⟩

theorem belowBy_incomparable_trans {α : Type} (t : α → α → Int) (ht : IsThreeWay t)
    (x y z : α) (oa ob oc : Nat)
    (hxy : belowBy t x oa y ob = false ∧ belowBy t y ob x oa = false)
    (hyz : belowBy t y ob z oc = false ∧ belowBy t z oc y ob = false) :
    belowBy t x oa z oc = false ∧ belowBy t z oc x oa = false := by
  rw [belowBy_incomparable t ht] at hxy hyz ⊢
  exact ⟨ht.zero_trans x y z hxy.1 hyz.1, by omega⟩

/-- With different tags exactly one of the two rows is below the other. -/
theorem belowBy_total {α : Type} (t : α → α → Int) (ht : IsThreeWay t) (x y : α)
    (oa ob : Nat) (ho : oa ≠ ob) :
    (belowBy t x oa y ob = true ∧ belowBy t y ob x oa = false) ∨
    (belowBy t x oa y ob = false ∧ belowBy t y ob x oa = true) := by
  cases h1 : belowBy t x oa y ob with
  | true => exact Or.inl ⟨rfl, belowBy_asymm t ht x y oa ob h1⟩
  | false =>
    right
    refine ⟨rfl, ?_⟩
    cases h2 : belowBy t y ob x oa with
    | true => rfl
    | false =>
      have := (belowBy_incomparable t ht x y oa ob).mp ⟨h1, h2⟩
      exact absurd this.2 ho

/-! ## The native ordering used in the examples -/

theorem compareChars_self (xs : List Char) : compareChars xs xs = 0 := by
  induction xs with
  | nil => rfl
  | cons x xs ih => simp [compareChars, ih]

theorem compareChars_antisymm (xs ys : List Char) :
    0 < compareChars xs ys ↔ compareChars ys xs < 0 := by
  induction xs generalizing ys with
  | nil => cases ys <;> simp [compareChars]
  | cons x xs ih =>
    cases ys with
    | nil => simp [compareChars]
    | cons y ys =>
      simp only [compareChars]
      by_cases h1 : x.toNat < y.toNat
      · have h2 : ¬ y.toNat < x.toNat := by omega
        simp [h1, h2]
      · by_cases h2 : y.toNat < x.toNat
        · simp [h1, h2]
        · simp only [h1, h2, if_false]
          exact ih ys

theorem compareChars_trans (xs ys zs : List Char) (hxy : compareChars xs ys ≤ 0)
    (hyz : compareChars ys zs ≤ 0) : compareChars xs zs ≤ 0 := by
  induction xs generalizing ys zs with
  | nil => cases zs <;> simp [compareChars]
  | cons x xs ih =>
    cases ys with
    | nil => simp [compareChars] at hxy
    | cons y ys =>
      cases zs with
      | nil => simp [compareChars] at hyz
      | cons z zs =>
        simp only [compareChars] at hxy hyz ⊢
        by_cases h1 : x.toNat < y.toNat
        · by_cases h2 : y.toNat < z.toNat
          · have h3 : x.toNat < z.toNat := by omega
            simp [h3]
          · by_cases h2b : z.toNat < y.toNat
            · simp [h2, h2b] at hyz
            · have h3 : x.toNat < z.toNat := by omega
              simp [h3]
        · by_cases h1b : y.toNat < x.toNat
          · simp [h1, h1b] at hxy
          · simp only [h1, h1b, if_false] at hxy
            by_cases h2 : y.toNat < z.toNat
            · have h3 : x.toNat < z.toNat := by omega
              simp [h3]
            · by_cases h2b : z.toNat < y.toNat
              · simp [h2, h2b] at hyz
              · simp only [h2, h2b, if_false] at hyz
                have h3 : ¬ x.toNat < z.toNat := by omega
                have h4 : ¬ z.toNat < x.toNat := by omega
                simp only [h3, h4, if_false]
                exact ih ys zs hxy hyz

/-- The native ordering of the examples is a three-way comparison. -/
theorem nativeCompare_isThreeWay : IsThreeWay nativeCompare := by
  refine ⟨fun x => ?_, fun x y => ?_, fun x y z hxy hyz => ?_⟩
  · cases x with
    | int v => simp [nativeCompare]
    | str s => simp [nativeCompare, compareChars_self]
  · cases x with
    | int v =>
      cases y with
      | int w =>
        simp only [nativeCompare]
        by_cases h1 : v < w
        · have h2 : ¬ w < v := by omega
          simp [h1, h2]
        · by_cases h2 : w < v <;> simp [h1, h2]
      | str t => simp [nativeCompare]
    | str s =>
      cases y with
      | int w => simp [nativeCompare]
      | str t => exact compareChars_antisymm s.data t.data
  · cases x with
    | int v =>
      cases y with
      | int w =>
        cases z with
        | int u =>
          simp only [nativeCompare] at hxy hyz ⊢
          by_cases h1 : v < w
          · by_cases h2 : w < u
            · have h3 : v < u := by omega
              simp [h3]
            · by_cases h2b : u < w
              · simp [h2, h2b] at hyz
              · have h3 : v < u := by omega
                simp [h3]
          · by_cases h1b : w < v
            · simp [h1, h1b] at hxy
            · by_cases h2 : w < u
              · have h3 : v < u := by omega
                simp [h3]
              · by_cases h2b : u < w
                · simp [h2, h2b] at hyz
                · have h3 : ¬ v < u := by omega
                  have h4 : ¬ u < v := by omega
                  simp [h3, h4]
        | str r => simp [nativeCompare]
      | str t =>
        cases z with
        | int u => simp [nativeCompare] at hyz
        | str r => simp [nativeCompare]
    | str s =>
      cases y with
      | int w => simp [nativeCompare] at hxy
      | str t =>
        cases z with
        | int u => simp [nativeCompare] at hyz
        | str r => exact compareChars_trans s.data t.data r.data hxy hyz

/-- The collator of the examples is a three-way comparison. -/
theorem localeL_isThreeWay : IsThreeWay localeL.compare := by
  have h := nativeCompare_isThreeWay
  refine ⟨fun x => h.refl x, fun x y => ?_, fun x y z hxy hyz => ?_⟩
  · show 0 < nativeCompare y x ↔ nativeCompare x y < 0
    exact h.antisymm y x
  · show nativeCompare z x ≤ 0
    exact h.trans z y x hyz hxy

/-! ## Constructed cursors are ready -/

theorem SortCursorImpl.resolveColumn_mem (block : Block) (d : SortColumnDescription)
    (col : IColumn) (h : SortCursorImpl.resolveColumn block d = .ok col) :
    ∃ cw ∈ block, cw.column = col := by
  obtain ⟨n, cw, _, hcw, hcol⟩ := SortCursorImpl.resolveColumn_ok block d col h
  simp only [Block.getByPosition] at hcw
  cases hb : block[n]? with
  | none => simp [hb] at hcw
  | some x =>
    simp only [hb] at hcw
    injection hcw with hcw
    subst hcw
    exact ⟨x, List.getElem?_mem hb, hcol⟩

theorem SortCursorImpl.resolveAll_mem (block : Block) (ds : List SortColumnDescription)
    (cols : List IColumn) (h : SortCursorImpl.resolveAll block ds = .ok cols) :
    ∀ col ∈ cols, ∃ cw ∈ block, cw.column = col := by
  induction ds generalizing cols with
  | nil =>
    simp only [SortCursorImpl.resolveAll] at h
    injection h with h
    subst h
    simp
  | cons d ds ih =>
    simp only [SortCursorImpl.resolveAll] at h
    cases hc : SortCursorImpl.resolveColumn block d with
    | error e => simp [hc] at h
    | ok col1 =>
      cases hr : SortCursorImpl.resolveAll block ds with
      | error e => simp [hc, hr] at h
      | ok rest =>
        simp only [hc, hr] at h
        injection h with h
        subst h
        intro col hcol
        rcases List.mem_cons.mp hcol with hcol | hcol
        · rw [hcol]
          exact SortCursorImpl.resolveColumn_mem block d col1 hc
        · exact ih rest hr col hcol

theorem zipWith_needCollation_true (desc : SortDescription) (cols : List IColumn) (i : Nat)
    (h : (List.zipWith needCollation desc cols)[i]? = some true) :
    ∃ d col collator, desc[i]? = some d ∧ d.collator = some collator ∧ cols[i]? = some col ∧
      col.name = "ColumnString" := by
  rw [List.getElem?_zipWith] at h
  cases hd : desc[i]? with
  | none => simp [hd] at h
  | some d =>
    cases hc : cols[i]? with
    | none => simp [hd, hc] at h
    | some col =>
      simp only [hd, hc, Option.some.injEq, needCollation, Bool.and_eq_true,
        decide_eq_true_eq] at h
      obtain ⟨collator, hcoll⟩ := Option.isSome_iff_exists.mp h.1
      exact ⟨d, col, collator, rfl, hcoll, rfl, h.2⟩

/-- A cursor constructed over a block with rows, the columns of which have equal lengths,
is ready for the comparators. -/
theorem SortCursorImpl.create_ready (block : Block) (desc : SortDescription) (order : Nat)
    (c : SortCursorImpl) (h : SortCursorImpl.create block desc order = .ok c)
    (hrect : block.Rectangular) (hrows : 0 < block.rows) : c.Ready := by
  obtain ⟨har, _⟩ := SortCursorImpl.create_arity block desc order c h
  obtain ⟨cols, first, rest, hcols, hblock, hc⟩ := SortCursorImpl.create_ok block desc order c h
  refine ⟨har, ?_, ?_⟩
  · intro col hcol
    rw [hc] at hcol
    obtain ⟨cw, hcw, hcwcol⟩ := SortCursorImpl.resolveAll_mem block desc cols hcols col hcol
    have hsize := hrect cw hcw
    rw [hcwcol, IColumn.size] at hsize
    rw [hc, hsize]
    exact hrows
  · intro i hi
    rw [hc] at hi
    obtain ⟨d, col, collator, h1, h2, h3, h4⟩ := zipWith_needCollation_true desc cols i hi
    exact ⟨d, col, collator, by rw [hc]; exact h1, h2, by rw [hc]; exact h3, h4⟩

/-! ## Strict weak ordering -/

/-- Two cursors of one description, the first over a column of type "ColumnString" and the
second over a column of another type: the first compares by the collator, the second by the
native ordering, and each is below the other under `SortCursorWithCollation::operator<`
although the native ordering and the collator are three-way comparisons. -/
theorem collation_comparator_not_asymmetric :
    IsThreeWay nativeCompare ∧ CollatorsThreeWay descS ∧
    (cursorOver (blockS "ColumnString" ["a"]) descS 0).desc
      = (cursorOver (blockS "ColumnFixedString" ["b"]) descS 1).desc ∧
    SortCursorImpl.create (blockS "ColumnString" ["a"]) descS 0
      = .ok (cursorOver (blockS "ColumnString" ["a"]) descS 0) ∧
    SortCursorImpl.create (blockS "ColumnFixedString" ["b"]) descS 1
      = .ok (cursorOver (blockS "ColumnFixedString" ["b"]) descS 1) ∧
    SortCursorWithCollation.lt nativeCompare (cursorOver (blockS "ColumnString" ["a"]) descS 0)
      (cursorOver (blockS "ColumnFixedString" ["b"]) descS 1) = .ok true ∧
    SortCursorWithCollation.lt nativeCompare
      (cursorOver (blockS "ColumnFixedString" ["b"]) descS 1)
      (cursorOver (blockS "ColumnString" ["a"]) descS 0) = .ok true := by
  refine ⟨nativeCompare_isThreeWay, ?_, rfl, rfl, rfl, by decide, by decide⟩
  intro d hd collator hc
  have hd1 : d = SortColumnDescription.ofName "s" 1 (some localeL) := by
    simpa [descS] using hd
  subst hd1
  injection hc with hc
  subst hc
  exact localeL_isThreeWay

/-- C5 (amended): when the native comparison is reflexive-zero, antisymmetric in sign and
transitive, on cursors that share one description and are at rows of their columns,
`SortCursor::operator<` always returns a value and is irreflexive, asymmetric, transitive
and has transitive incomparability. The same holds for `SortCursorWithCollation::operator<`
when moreover every collator is such a comparison and the cursors carry the same
`need_collation` flags. -/
theorem strict_weak_ordering (cmp : Field → Field → Int) (a b c : SortCursorImpl)
    (hcmp : IsThreeWay cmp) (ha : a.Ready) (hb : b.Ready) (hc : c.Ready)
    (hab : a.desc = b.desc) (hbc : b.desc = c.desc) :
    (SortCursor.lt cmp a a = .ok false ∧
      (SortCursor.lt cmp a b = .ok true → SortCursor.lt cmp b a = .ok false) ∧
      (SortCursor.lt cmp a b = .ok true → SortCursor.lt cmp b c = .ok true →
        SortCursor.lt cmp a c = .ok true) ∧
      (SortCursor.lt cmp a b = .ok false → SortCursor.lt cmp b a = .ok false →
        SortCursor.lt cmp b c = .ok false → SortCursor.lt cmp c b = .ok false →
        SortCursor.lt cmp a c = .ok false ∧ SortCursor.lt cmp c a = .ok false)) ∧
    (CollatorsThreeWay a.desc → a.need_collation = b.need_collation →
      b.need_collation = c.need_collation →
      SortCursorWithCollation.lt cmp a a = .ok false ∧
      (SortCursorWithCollation.lt cmp a b = .ok true →
        SortCursorWithCollation.lt cmp b a = .ok false) ∧
      (SortCursorWithCollation.lt cmp a b = .ok true →
        SortCursorWithCollation.lt cmp b c = .ok true →
        SortCursorWithCollation.lt cmp a c = .ok true) ∧
      (SortCursorWithCollation.lt cmp a b = .ok false →
        SortCursorWithCollation.lt cmp b a = .ok false →
        SortCursorWithCollation.lt cmp b c = .ok false →
        SortCursorWithCollation.lt cmp c b = .ok false →
        SortCursorWithCollation.lt cmp a c = .ok false ∧
        SortCursorWithCollation.lt cmp c a = .ok false)) := by
  have hac : a.desc = c.desc := hab.trans hbc
  have hsb : b.sort_columns_size = a.sort_columns_size := by
    rw [ha.arity.size_eq, hb.arity.size_eq, hab]
  have hsc : c.sort_columns_size = a.sort_columns_size := by
    rw [ha.arity.size_eq, hc.arity.size_eq, hac]
  constructor
  · have ht : IsThreeWay (fun x y : Nat → Field =>
        lexFrom (plainKey cmp a.desc) x y 0 a.sort_columns_size) :=
      lexFrom_isThreeWay _ (plainKey_isThreeWay cmp hcmp a.desc) 0 _
    have e_aa := SortCursor.lt_of_ready cmp a a ha ha rfl
    have e_ab := SortCursor.lt_of_ready cmp a b ha hb hab
    have e_ba := SortCursor.lt_of_ready cmp b a hb ha hab.symm
    have e_bc := SortCursor.lt_of_ready cmp b c hb hc hbc
    have e_cb := SortCursor.lt_of_ready cmp c b hc hb hbc.symm
    have e_ac := SortCursor.lt_of_ready cmp a c ha hc hac
    have e_ca := SortCursor.lt_of_ready cmp c a hc ha hac.symm
    rw [← hab, hsb] at e_ba e_bc
    rw [← hac, hsc] at e_cb e_ca
    rw [e_aa, e_ab, e_ba, e_bc, e_cb, e_ac, e_ca]
    simp only [Except.ok.injEq]
    exact ⟨belowBy_irrefl _ ht _ _, belowBy_asymm _ ht _ _ _ _,
      belowBy_trans _ ht _ _ _ _ _ _,
      fun h1 h2 h3 h4 => belowBy_incomparable_trans _ ht _ _ _ _ _ _ ⟨h1, h2⟩ ⟨h3, h4⟩⟩
  · intro hcoll hfab hfbc
    have ht : IsThreeWay (fun x y : Nat → Field =>
        lexFrom (collatedKey cmp a.desc a.need_collation) x y 0 a.sort_columns_size) :=
      lexFrom_isThreeWay _ (collatedKey_isThreeWay cmp hcmp a.desc hcoll _) 0 _
    have e_aa := SortCursorWithCollation.collated_lt_of_ready cmp a a ha ha rfl
    have e_ab := SortCursorWithCollation.collated_lt_of_ready cmp a b ha hb hab
    have e_ba := SortCursorWithCollation.collated_lt_of_ready cmp b a hb ha hab.symm
    have e_bc := SortCursorWithCollation.collated_lt_of_ready cmp b c hb hc hbc
    have e_cb := SortCursorWithCollation.collated_lt_of_ready cmp c b hc hb hbc.symm
    have e_ac := SortCursorWithCollation.collated_lt_of_ready cmp a c ha hc hac
    have e_ca := SortCursorWithCollation.collated_lt_of_ready cmp c a hc ha hac.symm
    rw [← hab, hsb, ← hfab] at e_ba e_bc
    rw [← hac, hsc, ← hfbc, ← hfab] at e_cb e_ca
    rw [e_aa, e_ab, e_ba, e_bc, e_cb, e_ac, e_ca]
    simp only [Except.ok.injEq]
    exact ⟨belowBy_irrefl _ ht _ _, belowBy_asymm _ ht _ _ _ _,
      belowBy_trans _ ht _ _ _ _ _ _,
      fun h1 h2 h3 h4 => belowBy_incomparable_trans _ ht _ _ _ _ _ _ ⟨h1, h2⟩ ⟨h3, h4⟩⟩

theorem cursorS_ready (s : String) (order : Nat) : (cursorS s order).Ready :=
  SortCursorImpl.create_ready (blockS "ColumnString" [s]) descS order (cursorS s order) rfl
    (by simp [Block.Rectangular, blockS, Block.rows]) (by simp [blockS, Block.rows, IColumn.size])

theorem descS_collatorsThreeWay : CollatorsThreeWay descS := by
  intro d hd collator hc
  have hd1 : d = SortColumnDescription.ofName "s" 1 (some localeL) := by
    simpa [descS] using hd
  subst hd1
  injection hc with hc
  subst hc
  exact localeL_isThreeWay

/-- The cursors on "a", "b" and "c" under the collated description: in the collation-aware
order "a" is below "b" and "b" below "c", hence "a" below "c"; in the plain order it is the
other way round. -/
theorem strict_weak_ordering_witness :
    SortCursorWithCollation.lt nativeCompare (cursorS "a" 0) (cursorS "a" 0) = .ok false ∧
    SortCursorWithCollation.lt nativeCompare (cursorS "b" 1) (cursorS "a" 0) = .ok false ∧
    SortCursorWithCollation.lt nativeCompare (cursorS "a" 0) (cursorS "c" 2) = .ok true ∧
    SortCursor.lt nativeCompare (cursorS "c" 2) (cursorS "a" 0) = .ok true ∧
    SortCursor.lt nativeCompare (cursorS "a" 0) (cursorS "b" 1) = .ok false :=
  ⟨((strict_weak_ordering nativeCompare (cursorS "a" 0) (cursorS "b" 1) (cursorS "c" 2)
      nativeCompare_isThreeWay (cursorS_ready "a" 0) (cursorS_ready "b" 1)
      (cursorS_ready "c" 2) rfl rfl).2 descS_collatorsThreeWay rfl rfl).1,
   ((strict_weak_ordering nativeCompare (cursorS "a" 0) (cursorS "b" 1) (cursorS "c" 2)
      nativeCompare_isThreeWay (cursorS_ready "a" 0) (cursorS_ready "b" 1)
      (cursorS_ready "c" 2) rfl rfl).2 descS_collatorsThreeWay rfl rfl).2.1 (by decide),
   ((strict_weak_ordering nativeCompare (cursorS "a" 0) (cursorS "b" 1) (cursorS "c" 2)
      nativeCompare_isThreeWay (cursorS_ready "a" 0) (cursorS_ready "b" 1)
      (cursorS_ready "c" 2) rfl rfl).2 descS_collatorsThreeWay rfl rfl).2.2.1 (by decide)
      (by decide),
   (strict_weak_ordering nativeCompare (cursorS "c" 2) (cursorS "b" 1) (cursorS "a" 0)
      nativeCompare_isThreeWay (cursorS_ready "c" 2) (cursorS_ready "b" 1)
      (cursorS_ready "a" 0) rfl rfl).1.2.2.1 (by decide) (by decide),
   (strict_weak_ordering nativeCompare (cursorS "b" 1) (cursorS "a" 0) (cursorS "c" 2)
      nativeCompare_isThreeWay (cursorS_ready "b" 1) (cursorS_ready "a" 0)
      (cursorS_ready "c" 2) rfl rfl).1.2.1 (by decide)⟩

/-! ## Totality of the order on cursors with different tags -/

theorem AntisymmSign.antisymm_zero_symm {α : Type} {f : α → α → Int} (h : AntisymmSign f) (x y : α)
    (hxy : f x y = 0) : f y x = 0 := by
  have h1 := h x y
  have h2 := h y x
  omega

theorem AntisymmSign.antisymm_mul_left {α : Type} {f : α → α → Int} (h : AntisymmSign f) (d : Int) :
    AntisymmSign (fun x y => d * f x y) := by
  intro x y
  show 0 < d * f x y ↔ d * f y x < 0
  have h1 := h x y
  have h2 := h y x
  rcases Int.lt_trichotomy d 0 with hd | hd | hd
  · constructor
    · intro hp
      have : f x y < 0 := by
        by_contra hc
        have : 0 ≤ f x y := by omega
        have := Int.mul_nonpos_of_nonpos_of_nonneg (Int.le_of_lt hd) this
        omega
      exact Int.mul_neg_of_neg_of_pos hd (h2.mpr this)
    · intro hn
      have : 0 < f y x := by
        by_contra hc
        have : f y x ≤ 0 := by omega
        have := Int.mul_nonneg_of_nonpos_of_nonpos (Int.le_of_lt hd) this
        omega
      exact Int.mul_pos_of_neg_of_neg hd (h2.mp this)
  · subst hd
    simp
  · constructor
    · intro hp
      have : 0 < f x y := by
        by_contra hc
        have : f x y ≤ 0 := by omega
        have := Int.mul_nonpos_of_nonneg_of_nonpos (Int.le_of_lt hd) this
        omega
      exact Int.mul_neg_of_pos_of_neg hd (h1.mp this)
    · intro hn
      have : f y x < 0 := by
        by_contra hc
        have : 0 ≤ f y x := by omega
        have := Int.mul_nonneg (Int.le_of_lt hd) this
        omega
      exact Int.mul_pos hd (h1.mpr this)

theorem AntisymmSign.antisymm_mul_right {α : Type} {f : α → α → Int} (h : AntisymmSign f) (d : Int) :
    AntisymmSign (fun x y => f x y * d) := by
  have h1 := h.antisymm_mul_left d
  have h2 : (fun x y => f x y * d) = (fun x y => d * f x y) := by
    funext x y
    exact Int.mul_comm _ _
  rw [h2]
  exact h1

theorem lexFrom_antisymmSign (g : Nat → Field → Field → Int) (hg : ∀ i, AntisymmSign (g i))
    (i n : Nat) : AntisymmSign (fun x y : Nat → Field => lexFrom g x y i n) := by
  intro x y
  induction n generalizing i with
  | zero => simp [lexFrom]
  | succ n ih =>
    simp only [lexFrom]
    by_cases hz : g i (x i) (y i) = 0
    · have hz1 := (hg i).antisymm_zero_symm _ _ hz
      simp only [hz, hz1, ne_eq, not_true_eq_false, if_false]
      exact ih (i + 1)
    · have hz1 : g i (y i) (x i) ≠ 0 := fun hc => hz ((hg i).antisymm_zero_symm _ _ hc)
      simp only [hz, hz1, ne_eq, not_false_eq_true, if_true]
      exact hg i (x i) (y i)

theorem lexFrom_eq_zero (g : Nat → Field → Field → Int) (x y : Nat → Field) (i n : Nat)
    (h : lexFrom g x y i n = 0) : ∀ j, i ≤ j → j < i + n → g j (x j) (y j) = 0 := by
  induction n generalizing i with
  | zero => intro j h1 h2; omega
  | succ n ih =>
    simp only [lexFrom] at h
    by_cases hz : g i (x i) (y i) = 0
    · simp only [hz, ne_eq, not_true_eq_false, if_false] at h
      intro j h1 h2
      by_cases hj : j = i
      · rw [hj]; exact hz
      · exact ih (i + 1) h j (by omega) (by omega)
    · simp only [hz, ne_eq, not_false_eq_true, if_true] at h

/-- With keys that compare antisymmetrically and different tags, exactly one of two rows is
below the other; with any tags, two rows are incomparable only when the keys compare zero
and the tags are equal. -/
theorem belowBy_total_of_antisymm {α : Type} (t : α → α → Int) (ht : AntisymmSign t)
    (x y : α) (oa ob : Nat) :
    (oa ≠ ob → (belowBy t x oa y ob = true ∧ belowBy t y ob x oa = false) ∨
      (belowBy t x oa y ob = false ∧ belowBy t y ob x oa = true)) ∧
    (belowBy t x oa y ob = false → belowBy t y ob x oa = false → t x y = 0 ∧ oa = ob) := by
  have h1 := ht x y
  have h2 := ht y x
  constructor
  · intro ho
    rcases Int.lt_trichotomy (t x y) 0 with hs | hs | hs
    · right
      rw [belowBy_eq_false, belowBy_eq_true]
      exact ⟨⟨by omega, fun h => by omega⟩, Or.inl (h2.mpr hs)⟩
    · have hs1 := ht.antisymm_zero_symm x y hs
      rcases Nat.lt_or_gt_of_ne ho with hlt | hgt
      · right
        rw [belowBy_eq_false, belowBy_eq_true]
        exact ⟨⟨by omega, fun _ => by omega⟩, Or.inr ⟨hs1, hlt⟩⟩
      · left
        rw [belowBy_eq_false, belowBy_eq_true]
        exact ⟨Or.inr ⟨hs, hgt⟩, ⟨by omega, fun _ => by omega⟩⟩
    · left
      rw [belowBy_eq_false, belowBy_eq_true]
      exact ⟨Or.inl hs, ⟨by omega, fun h => by omega⟩⟩
  · intro hxy hyx
    rw [belowBy_eq_false] at hxy hyx
    have h0 : t x y = 0 := by omega
    have h0s := ht.antisymm_zero_symm x y h0
    exact ⟨h0, by have := hxy.2 h0; have := hyx.2 h0s; omega⟩

theorem keyCompare_antisymmSign (cmp : Field → Field → Int) (hcmp : AntisymmSign cmp)
    (desc : SortDescription) (hdesc : CollatorsAntisymm desc) (flags : List Bool) (i : Nat) :
    AntisymmSign (keyCompare cmp desc flags i) := by
  unfold keyCompare
  cases hf : flags[i]? with
  | none => exact hcmp
  | some f =>
    cases f with
    | false => exact hcmp
    | true =>
      cases hd : desc[i]? with
      | none => exact hcmp
      | some d =>
        cases hc : d.collator with
        | none => simpa [hc] using hcmp
        | some collator =>
          simpa [hc] using hdesc d (List.getElem?_mem hd) collator hc

/-- Two cursors of one description with different tags, the first over a column of type
"ColumnString" and the second over a column of another type: neither is below the other
under `SortCursorWithCollation::operator<`, although the keys do not tie. -/
theorem collation_comparator_not_total :
    AntisymmSign nativeCompare ∧ CollatorsAntisymm descS ∧
    (cursorOver (blockS "ColumnString" ["b"]) descS 0).desc
      = (cursorOver (blockS "ColumnFixedString" ["a"]) descS 1).desc ∧
    (cursorOver (blockS "ColumnString" ["b"]) descS 0).order
      ≠ (cursorOver (blockS "ColumnFixedString" ["a"]) descS 1).order ∧
    SortCursorWithCollation.lt nativeCompare (cursorOver (blockS "ColumnString" ["b"]) descS 0)
      (cursorOver (blockS "ColumnFixedString" ["a"]) descS 1) = .ok false ∧
    SortCursorWithCollation.lt nativeCompare
      (cursorOver (blockS "ColumnFixedString" ["a"]) descS 1)
      (cursorOver (blockS "ColumnString" ["b"]) descS 0) = .ok false ∧
    SortCursorWithCollation.res nativeCompare (cursorOver (blockS "ColumnString" ["b"]) descS 0)
      (cursorOver (blockS "ColumnFixedString" ["a"]) descS 1) 0 = .ok (-1) := by
  refine ⟨nativeCompare_isThreeWay.antisymm, ?_, rfl, by decide, by decide, by decide,
    by decide⟩
  intro d hd collator hc
  exact (descS_collatorsThreeWay d hd collator hc).antisymm

/-- C15 (amended): when the native comparison is antisymmetric in sign, for two cursors that
share one description, are at rows of their columns and have different stability tags,
exactly one of `a < b` and `b < a` holds under `SortCursor::operator<`, and two cursors are
incomparable only when all keys tie and their tags are equal. The same holds for
`SortCursorWithCollation::operator<` when moreover every collator is antisymmetric in sign
and the two cursors carry the same `need_collation` flags. -/
theorem deterministic_total_order (cmp : Field → Field → Int) (a b : SortCursorImpl)
    (hcmp : AntisymmSign cmp) (ha : a.Ready) (hb : b.Ready) (hab : a.desc = b.desc) :
    ((a.order ≠ b.order →
        (SortCursor.lt cmp a b = .ok true ∧ SortCursor.lt cmp b a = .ok false) ∨
        (SortCursor.lt cmp a b = .ok false ∧ SortCursor.lt cmp b a = .ok true)) ∧
      (SortCursor.lt cmp a b = .ok false → SortCursor.lt cmp b a = .ok false →
        (∀ i, i < a.sort_columns_size → SortCursor.res cmp a b i = .ok 0) ∧
          a.order = b.order)) ∧
    (CollatorsAntisymm a.desc → a.need_collation = b.need_collation →
      (a.order ≠ b.order →
        (SortCursorWithCollation.lt cmp a b = .ok true ∧
          SortCursorWithCollation.lt cmp b a = .ok false) ∨
        (SortCursorWithCollation.lt cmp a b = .ok false ∧
          SortCursorWithCollation.lt cmp b a = .ok true)) ∧
      (SortCursorWithCollation.lt cmp a b = .ok false →
        SortCursorWithCollation.lt cmp b a = .ok false →
        (∀ i, i < a.sort_columns_size → SortCursorWithCollation.res cmp a b i = .ok 0) ∧
          a.order = b.order)) := by
  have hsb : b.sort_columns_size = a.sort_columns_size := by
    rw [ha.arity.size_eq, hb.arity.size_eq, hab]
  constructor
  · have ht : AntisymmSign (fun x y : Nat → Field =>
        lexFrom (plainKey cmp a.desc) x y 0 a.sort_columns_size) :=
      lexFrom_antisymmSign _ (fun i => hcmp.antisymm_mul_left (keyDirection a.desc i)) 0 _
    have e_ab := SortCursor.lt_of_ready cmp a b ha hb hab
    have e_ba := SortCursor.lt_of_ready cmp b a hb ha hab.symm
    rw [← hab, hsb] at e_ba
    have key := belowBy_total_of_antisymm _ ht a.keyCell b.keyCell a.order b.order
    rw [e_ab, e_ba]
    simp only [Except.ok.injEq]
    refine ⟨key.1, fun h1 h2 => ?_⟩
    obtain ⟨h0, ho⟩ := key.2 h1 h2
    refine ⟨fun i hi => ?_, ho⟩
    rw [SortCursor.res_of_ready cmp a b ha hb hab i hi]
    exact congrArg Except.ok (lexFrom_eq_zero _ _ _ 0 _ h0 i (Nat.zero_le i) (by omega))
  · intro hcoll hf
    have ht : AntisymmSign (fun x y : Nat → Field =>
        lexFrom (collatedKey cmp a.desc a.need_collation) x y 0 a.sort_columns_size) :=
      lexFrom_antisymmSign _
        (fun i => (keyCompare_antisymmSign cmp hcmp a.desc hcoll a.need_collation i).antisymm_mul_right
          (keyDirection a.desc i)) 0 _
    have e_ab := SortCursorWithCollation.collated_lt_of_ready cmp a b ha hb hab
    have e_ba := SortCursorWithCollation.collated_lt_of_ready cmp b a hb ha hab.symm
    rw [← hab, hsb, ← hf] at e_ba
    have key := belowBy_total_of_antisymm _ ht a.keyCell b.keyCell a.order b.order
    rw [e_ab, e_ba]
    simp only [Except.ok.injEq]
    refine ⟨key.1, fun h1 h2 => ?_⟩
    obtain ⟨h0, ho⟩ := key.2 h1 h2
    refine ⟨fun i hi => ?_, ho⟩
    rw [SortCursorWithCollation.collated_res_of_ready cmp a b ha hb hab i hi]
    exact congrArg Except.ok (lexFrom_eq_zero _ _ _ 0 _ h0 i (Nat.zero_le i) (by omega))

/-- The cursors on "a" (tag 0) and on "b" (tag 1) under the collated description, and two
cursors on "a" with the tags 0 and 1. -/
theorem deterministic_total_order_witness :
    ((SortCursor.lt nativeCompare (cursorS "a" 0) (cursorS "b" 1) = .ok true ∧
        SortCursor.lt nativeCompare (cursorS "b" 1) (cursorS "a" 0) = .ok false) ∨
      (SortCursor.lt nativeCompare (cursorS "a" 0) (cursorS "b" 1) = .ok false ∧
        SortCursor.lt nativeCompare (cursorS "b" 1) (cursorS "a" 0) = .ok true)) ∧
    ((SortCursorWithCollation.lt nativeCompare (cursorS "a" 0) (cursorS "a" 1) = .ok true ∧
        SortCursorWithCollation.lt nativeCompare (cursorS "a" 1) (cursorS "a" 0) = .ok false) ∨
      (SortCursorWithCollation.lt nativeCompare (cursorS "a" 0) (cursorS "a" 1) = .ok false ∧
        SortCursorWithCollation.lt nativeCompare (cursorS "a" 1) (cursorS "a" 0) = .ok true)) ∧
    ((∀ i, i < (cursorS "a" 0).sort_columns_size →
        SortCursor.res nativeCompare (cursorS "a" 0) (cursorS "a" 0) i = .ok 0) ∧
      (cursorS "a" 0).order = (cursorS "a" 0).order) :=
  ⟨(deterministic_total_order nativeCompare (cursorS "a" 0) (cursorS "b" 1)
      nativeCompare_isThreeWay.antisymm (cursorS_ready "a" 0) (cursorS_ready "b" 1) rfl).1.1
      (by decide),
   ((deterministic_total_order nativeCompare (cursorS "a" 0) (cursorS "a" 1)
      nativeCompare_isThreeWay.antisymm (cursorS_ready "a" 0) (cursorS_ready "a" 1) rfl).2
      (fun d hd collator hc => (descS_collatorsThreeWay d hd collator hc).antisymm) rfl).1
      (by decide),
   (deterministic_total_order nativeCompare (cursorS "a" 0) (cursorS "a" 0)
      nativeCompare_isThreeWay.antisymm (cursorS_ready "a" 0) (cursorS_ready "a" 0) rfl).1.2
      (by decide) (by decide)⟩

/-! ## Cursors in the priority structure -/

theorem SortCursorImpl.Active.ready (c : SortCursorImpl) (h : c.Active) : c.Ready :=
  ⟨h.arity, fun col hcol => by rw [h.sort_size col hcol]; exact h.pos_lt, h.flag_sound⟩

theorem SortCursorImpl.Active.after_next (c : SortCursorImpl) (h : c.Active)
    (hlast : c.isLast = false) : c.next.Active := by
  have hpos : c.pos + 1 < c.rows := by
    simpa [SortCursorImpl.isLast] using hlast
  exact ⟨⟨h.arity.sort_columns_length, h.arity.need_collation_length, h.arity.size_eq⟩, hpos,
    h.sort_size, h.all_size, h.flag_sound⟩

theorem columnsAt_eq (cols : List IColumn) (p : Nat) (h : ∀ col ∈ cols, p < col.data.length) :
    columnsAt cols p = .ok (cols.map (fun col => col.data.getD p default)) := by
  induction cols with
  | nil => rfl
  | cons col cols ih =>
    have hp := h col (List.mem_cons_self col cols)
    simp only [columnsAt, IColumn.get, List.getElem?_eq_getElem hp,
      ih (fun x hx => h x (List.mem_cons_of_mem col hx)), List.map_cons]
    simp [List.getD_eq_getElem?_getD, List.getElem?_eq_getElem hp]

theorem SortCursorImpl.Active.currentRow_eq (c : SortCursorImpl) (h : c.Active) :
    c.currentRow = .ok (c.rowAt c.pos) :=
  columnsAt_eq c.all_columns c.pos (fun col hcol => by rw [h.all_size col hcol]; exact h.pos_lt)

theorem SortCursorImpl.rowsLeft_of_last (c : SortCursorImpl) (hpos : c.pos < c.rows)
    (hlast : c.isLast = true) : c.rowsLeft = [c.rowAt c.pos] := by
  have h1 : c.rows - c.pos = 1 := by
    simp only [SortCursorImpl.isLast, ge_iff_le, decide_eq_true_eq] at hlast
    omega
  simp [SortCursorImpl.rowsLeft, h1, List.range']

theorem SortCursorImpl.rowsLeft_of_not_last (c : SortCursorImpl)
    (hlast : c.isLast = false) : c.rowsLeft = c.rowAt c.pos :: c.next.rowsLeft := by
  have hpos : c.pos + 1 < c.rows := by
    simpa [SortCursorImpl.isLast] using hlast
  have h1 : c.rows - c.pos = (c.rows - (c.pos + 1)) + 1 := by omega
  simp only [SortCursorImpl.rowsLeft, SortCursorImpl.next]
  rw [h1, List.range'_succ]
  rfl

/-- A cursor constructed over a block with rows, the columns of which have equal lengths,
is active, and the rows it has to give are the rows of the block. -/
theorem SortCursorImpl.create_active (block : Block) (desc : SortDescription) (order : Nat)
    (c : SortCursorImpl) (h : SortCursorImpl.create block desc order = .ok c)
    (hrect : block.Rectangular) (hrows : 0 < block.rows) :
    c.Active ∧ c.rowsLeft = block.rowList ∧ c.rows = block.rows ∧ c.pos = 0 ∧
      c.order = order ∧ c.desc = desc := by
  have hready := SortCursorImpl.create_ready block desc order c h hrect hrows
  obtain ⟨cols, first, rest, hcols, hblock, hc⟩ := SortCursorImpl.create_ok block desc order c h
  have hrows_eq : c.rows = block.rows := by rw [hc, hblock]; rfl
  have hpos_eq : c.pos = 0 := by rw [hc]
  have hall : c.all_columns = block.map (fun x => x.column) := by rw [hc]
  refine ⟨⟨hready.arity, by rw [hpos_eq, hrows_eq]; exact hrows, ?_, ?_, hready.flag_sound⟩,
    ?_, hrows_eq, hpos_eq, by rw [hc], by rw [hc]⟩
  · intro col hcol
    rw [hc] at hcol
    obtain ⟨cw, hcw, hcwcol⟩ := SortCursorImpl.resolveAll_mem block desc cols hcols col hcol
    have hsize := hrect cw hcw
    rw [hcwcol, IColumn.size] at hsize
    rw [hsize, hrows_eq]
  · intro col hcol
    rw [hall] at hcol
    obtain ⟨cw, hcw, hcwcol⟩ := List.mem_map.mp hcol
    have hsize := hrect cw hcw
    rw [hcwcol, IColumn.size] at hsize
    rw [hsize, hrows_eq]
  · simp only [SortCursorImpl.rowsLeft, Block.rowList, hpos_eq, hrows_eq, Nat.sub_zero]
    congr 1
    funext p
    simp [SortCursorImpl.rowAt, Block.rowAt, hall, List.map_map]

/-! ## Extraction from the priority structure -/

/-- On cursors for which the comparator returns a value, the extraction from a non-empty
structure returns one of its cursors together with the others. -/
theorem popTop_ok (lt : SortCursorImpl → SortCursorImpl → Except Exception Bool)
    (below : SortCursorImpl → SortCursorImpl → Bool) (P : SortCursorImpl → Prop)
    (hlt : ∀ a b, P a → P b → lt a b = .ok (below a b))
    (q : List SortCursorImpl) (hq : ∀ c ∈ q, P c) :
    (q = [] ∧ popTop lt q = .ok none) ∨
      ∃ t rest, popTop lt q = .ok (some (t, rest)) ∧ List.Perm (t :: rest) q := by
  induction q with
  | nil => exact Or.inl ⟨rfl, rfl⟩
  | cons x xs ih =>
    right
    have hxs : ∀ c ∈ xs, P c := fun c hc => hq c (List.mem_cons_of_mem x hc)
    have hx : P x := hq x (List.mem_cons_self x xs)
    rcases ih hxs with ⟨hnil, hpop⟩ | ⟨y, ys, hpop, hperm⟩
    · subst hnil
      exact ⟨x, [], by simp [popTop], List.Perm.refl _⟩
    · have hy : P y := hxs y (hperm.subset (List.mem_cons_self y ys))
      simp only [popTop, hpop, hlt x y hx hy]
      cases below x y with
      | true =>
        exact ⟨y, x :: ys, rfl, (List.Perm.swap x y ys).trans (hperm.cons x)⟩
      | false =>
        exact ⟨x, y :: ys, rfl, hperm.cons x⟩

/-- When the comparator is asymmetric and incomparability under it is transitive, the
cursor extracted is below none of the cursors that remain. -/
theorem popTop_max (lt : SortCursorImpl → SortCursorImpl → Except Exception Bool)
    (below : SortCursorImpl → SortCursorImpl → Bool) (P : SortCursorImpl → Prop)
    (hlt : ∀ a b, P a → P b → lt a b = .ok (below a b))
    (hasymm : ∀ a b, P a → P b → below a b = true → below b a = false)
    (hnt : ∀ a b c, P a → P b → P c → below a b = false → below b c = false →
      below a c = false)
    (q : List SortCursorImpl) (hq : ∀ c ∈ q, P c) (t : SortCursorImpl)
    (rest : List SortCursorImpl) (h : popTop lt q = .ok (some (t, rest))) :
    ∀ z ∈ rest, below t z = false := by
  induction q generalizing t rest with
  | nil => simp [popTop] at h
  | cons x xs ih =>
    have hxs : ∀ c ∈ xs, P c := fun c hc => hq c (List.mem_cons_of_mem x hc)
    have hx : P x := hq x (List.mem_cons_self x xs)
    rcases popTop_ok lt below P hlt xs hxs with ⟨hnil, hpop⟩ | ⟨y, ys, hpop, hperm⟩
    · subst hnil
      simp only [popTop, Except.ok.injEq, Option.some.injEq, Prod.mk.injEq] at h
      intro z hz
      rw [← h.2] at hz
      cases hz
    · have hy : P y := hxs y (hperm.subset (List.mem_cons_self y ys))
      have hys : ∀ c ∈ ys, P c :=
        fun c hc => hxs c (hperm.subset (List.mem_cons_of_mem y hc))
      have hmax := ih hxs y ys hpop
      simp only [popTop, hpop, hlt x y hx hy] at h
      cases hb : below x y with
      | true =>
        simp only [hb, Except.ok.injEq, Option.some.injEq, Prod.mk.injEq] at h
        obtain ⟨h1, h2⟩ := h
        subst h1
        subst h2
        intro z hz
        rcases List.mem_cons.mp hz with hz | hz
        · rw [hz]
          exact hasymm x y hx hy hb
        · exact hmax z hz
      | false =>
        simp only [hb, Except.ok.injEq, Option.some.injEq, Prod.mk.injEq] at h
        obtain ⟨h1, h2⟩ := h
        subst h1
        subst h2
        intro z hz
        rcases List.mem_cons.mp hz with hz | hz
        · rw [hz]
          exact hb
        · exact hnt x y z hx hy (hys z hz) hb (hmax z hz)

/-! ## The merge loop -/

theorem remaining_perm (q1 q2 : List SortCursorImpl) (h : List.Perm q1 q2) :
    remaining q1 = remaining q2 := by
  unfold remaining
  exact (h.map (fun c : SortCursorImpl => c.rows - c.pos)).sum_eq

theorem remaining_cons (c : SortCursorImpl) (q : List SortCursorImpl) :
    remaining (c :: q) = (c.rows - c.pos) + remaining q := by
  simp [remaining]

/-- The merge loop, on cursors for which the comparator returns a value and with a budget of
one round per row left, returns an output; its rows are, up to their order, the rows the
cursors had left, each copied from an active cursor at its position. -/
theorem mergeLoop_rows (lt : SortCursorImpl → SortCursorImpl → Except Exception Bool)
    (below : SortCursorImpl → SortCursorImpl → Bool) (P : SortCursorImpl → Prop)
    (hlt : ∀ a b, P a → P b → lt a b = .ok (below a b))
    (hactive : ∀ c, P c → c.Active)
    (hnext : ∀ c, P c → c.isLast = false → P c.next)
    (fuel : Nat) (q : List SortCursorImpl) (hq : ∀ c ∈ q, P c) (hfuel : remaining q ≤ fuel) :
    ∃ out, mergeLoop lt fuel q = .ok out ∧
      List.Perm (out.map (fun p => p.2)) (q.flatMap (fun c => c.rowsLeft)) ∧
      ∀ p ∈ out, P p.1 ∧ p.2 = p.1.rowAt p.1.pos := by
  induction fuel generalizing q with
  | zero =>
    cases q with
    | nil => exact ⟨[], rfl, by simp, by simp⟩
    | cons c cs =>
      have hc := (hactive c (hq c (List.mem_cons_self c cs))).pos_lt
      rw [remaining_cons] at hfuel
      omega
  | succ fuel ih =>
    rcases popTop_ok lt below P hlt q hq with ⟨hnil, hpop⟩ | ⟨t, rest, hpop, hperm⟩
    · subst hnil
      exact ⟨[], by simp [mergeLoop, hpop], by simp, by simp⟩
    · have ht : P t := hq t (hperm.subset (List.mem_cons_self t rest))
      have hrest : ∀ c ∈ rest, P c :=
        fun c hc => hq c (hperm.subset (List.mem_cons_of_mem t hc))
      have hta := hactive t ht
      have hrem : remaining q = (t.rows - t.pos) + remaining rest := by
        rw [← remaining_perm _ _ hperm, remaining_cons]
      have hrowsq : List.Perm (t.rowsLeft ++ rest.flatMap (fun c => c.rowsLeft))
          (q.flatMap (fun c => c.rowsLeft)) := by
        have := List.Perm.flatMap_right (fun c : SortCursorImpl => c.rowsLeft) hperm
        simpa using this
      simp only [mergeLoop, hpop, hta.currentRow_eq]
      cases hlast : t.isLast with
      | true =>
        have hfuel1 : remaining rest ≤ fuel := by
          have := hta.pos_lt
          omega
        obtain ⟨out, hout, hpermout, hall⟩ := ih rest hrest hfuel1
        simp only [if_true, hout]
        refine ⟨(t, t.rowAt t.pos) :: out, rfl, ?_, ?_⟩
        · rw [SortCursorImpl.rowsLeft_of_last t hta.pos_lt hlast] at hrowsq
          exact (List.Perm.cons _ hpermout).trans hrowsq
        · intro p hp
          rcases List.mem_cons.mp hp with hp | hp
          · rw [hp]
            exact ⟨ht, rfl⟩
          · exact hall p hp
      | false =>
        have hpos : t.pos + 1 < t.rows := by
          simpa [SortCursorImpl.isLast] using hlast
        have hq1 : ∀ c ∈ t.next :: rest, P c := by
          intro c hc
          rcases List.mem_cons.mp hc with hc | hc
          · rw [hc]
            exact hnext t ht hlast
          · exact hrest c hc
        have hfuel1 : remaining (t.next :: rest) ≤ fuel := by
          rw [remaining_cons]
          simp only [SortCursorImpl.next]
          omega
        obtain ⟨out, hout, hpermout, hall⟩ := ih (t.next :: rest) hq1 hfuel1
        simp only [Bool.false_eq_true, if_false, hout]
        refine ⟨(t, t.rowAt t.pos) :: out, rfl, ?_, ?_⟩
        · rw [SortCursorImpl.rowsLeft_of_not_last t hlast] at hrowsq
          have h1 : List.Perm (out.map (fun p => p.2))
              (t.next.rowsLeft ++ rest.flatMap (fun c => c.rowsLeft)) := by
            simpa using hpermout
          exact (List.Perm.cons _ h1).trans hrowsq
        · intro p hp
          rcases List.mem_cons.mp hp with hp | hp
          · rw [hp]
            exact ⟨ht, rfl⟩
          · exact hall p hp

/-! ## The cursors of the merge -/

theorem buildCursors_ok (description : SortDescription) (blocks : List Block) (index : Nat)
    (h : Mergeable description blocks) :
    ∃ cursors, buildCursors description blocks index = .ok cursors ∧
      (∀ c ∈ cursors, ∃ block ∈ blocks, ∃ i, 0 < block.rows ∧
        SortCursorImpl.create block description i = .ok c) ∧
      cursors.flatMap (fun c => c.rowsLeft) = blocks.flatMap (fun b => b.rowList) ∧
      remaining cursors = (blocks.map (fun b => b.rows)).sum := by
  induction blocks generalizing index with
  | nil => exact ⟨[], rfl, by simp, rfl, rfl⟩
  | cons block blocks ih =>
    obtain ⟨cs, hcs, hmem, hrows, hrem⟩ :=
      ih (index + 1) (fun b hb => h b (List.mem_cons_of_mem block hb))
    obtain ⟨hrect, hres⟩ := h block (List.mem_cons_self block blocks)
    by_cases h0 : block.rows = 0
    · refine ⟨cs, by simp [buildCursors, h0, hcs], ?_, ?_, ?_⟩
      · intro c hc
        obtain ⟨b, hb, i, hi⟩ := hmem c hc
        exact ⟨b, List.mem_cons_of_mem block hb, i, hi⟩
      · simp [hrows, Block.rowList, h0]
      · simp [hrem, h0]
    · have hpos : 0 < block.rows := Nat.pos_of_ne_zero h0
      have hne : block ≠ [] := by
        intro hnil
        rw [hnil] at h0
        exact h0 rfl
      obtain ⟨c, hc, _, _, _⟩ := construction_succeeds_aux block description index hne
        (hres hpos)
      obtain ⟨hact, hleft, hrows_eq, hpos_eq, _, _⟩ :=
        SortCursorImpl.create_active block description index c hc hrect hpos
      refine ⟨c :: cs, by simp [buildCursors, h0, hc, hcs], ?_, ?_, ?_⟩
      · intro x hx
        rcases List.mem_cons.mp hx with hx | hx
        · rw [hx]
          exact ⟨block, List.mem_cons_self block blocks, index, hpos, hc⟩
        · obtain ⟨b, hb, i, hi⟩ := hmem x hx
          exact ⟨b, List.mem_cons_of_mem block hb, i, hi⟩
      · simp [hrows, hleft]
      · rw [remaining_cons, hrem, hrows_eq, hpos_eq]
        simp

theorem SortCursor.lt_eq_below (cmp : Field → Field → Int) (a b : SortCursorImpl)
    (ha : a.Ready) (hb : b.Ready) (hab : a.desc = b.desc) :
    SortCursor.lt cmp a b = .ok (SortCursor.below cmp a b) :=
  SortCursor.lt_of_ready cmp a b ha hb hab

theorem SortCursorWithCollation.collated_lt_eq_below (cmp : Field → Field → Int)
    (a b : SortCursorImpl) (ha : a.Ready) (hb : b.Ready) (hab : a.desc = b.desc) :
    SortCursorWithCollation.lt cmp a b = .ok (SortCursorWithCollation.below cmp a b) :=
  SortCursorWithCollation.collated_lt_of_ready cmp a b ha hb hab

/-! ## Row conservation -/

theorem cursors_active (description : SortDescription) (blocks : List Block)
    (h : Mergeable description blocks) (cursors : List SortCursorImpl)
    (hmem : ∀ c ∈ cursors, ∃ block ∈ blocks, ∃ i, 0 < block.rows ∧
      SortCursorImpl.create block description i = .ok c) :
    ∀ c ∈ cursors, c.Active ∧ c.desc = description := by
  intro c hc
  obtain ⟨block, hb, i, hrows, hcreate⟩ := hmem c hc
  obtain ⟨hact, _, _, _, _, hdesc⟩ :=
    SortCursorImpl.create_active block description i c hcreate (h block hb).1 hrows
  exact ⟨hact, hdesc⟩

theorem mergeTrace_rows (cmp : Field → Field → Int) (description : SortDescription)
    (blocks : List Block) (h : Mergeable description blocks) :
    ∃ tr, mergeTrace cmp description blocks = .ok tr ∧
      List.Perm (tr.map (fun p => p.2)) (blocks.flatMap (fun b => b.rowList)) ∧
      ∀ p ∈ tr, (p.1.Active ∧ p.1.desc = description) ∧ p.2 = p.1.rowAt p.1.pos := by
  obtain ⟨cursors, hbuild, hmem, hrows, _⟩ := buildCursors_ok description blocks 0 h
  have hP := cursors_active description blocks h cursors hmem
  have hnext : ∀ c : SortCursorImpl, (c.Active ∧ c.desc = description) → c.isLast = false →
      (c.next.Active ∧ c.next.desc = description) :=
    fun c hc hlast => ⟨hc.1.after_next c hlast, hc.2⟩
  simp only [mergeTrace, hbuild]
  rw [← hrows]
  split
  · exact mergeLoop_rows (SortCursorWithCollation.lt cmp) (SortCursorWithCollation.below cmp)
      (fun c => c.Active ∧ c.desc = description)
      (fun a b ha hb => SortCursorWithCollation.collated_lt_eq_below cmp a b (ha.1.ready a)
        (hb.1.ready b) (ha.2.trans hb.2.symm))
      (fun c hc => hc.1) hnext (remaining cursors) cursors hP (Nat.le_refl _)
  · exact mergeLoop_rows (SortCursor.lt cmp) (SortCursor.below cmp)
      (fun c => c.Active ∧ c.desc = description)
      (fun a b ha hb => SortCursor.lt_eq_below cmp a b (ha.1.ready a) (hb.1.ready b)
        (ha.2.trans hb.2.symm))
      (fun c hc => hc.1) hnext (remaining cursors) cursors hP (Nat.le_refl _)

theorem Block.rowList_length (block : Block) : block.rowList.length = block.rows := by
  simp [Block.rowList]

theorem rowList_flatMap_length (blocks : List Block) :
    (blocks.flatMap (fun b => b.rowList)).length = (blocks.map (fun b => b.rows)).sum := by
  induction blocks with
  | nil => rfl
  | cons b bs ih => simp [List.flatMap_cons, ih, Block.rowList_length]

theorem rows_sum_filter (blocks : List Block) :
    ((blocks.filter (fun b => decide (b.rows ≠ 0))).map (fun b => b.rows)).sum
      = (blocks.map (fun b => b.rows)).sum := by
  induction blocks with
  | nil => rfl
  | cons b bs ih =>
    by_cases h0 : b.rows = 0
    · have hd : decide (b.rows ≠ 0) = false := by simp [h0]
      rw [List.filter_cons, hd]
      simp only [Bool.false_eq_true, if_false, List.map_cons, List.sum_cons, h0, Nat.zero_add]
      exact ih
    · have hd : decide (b.rows ≠ 0) = true := by simp [h0]
      rw [List.filter_cons, hd]
      simp only [if_true, List.map_cons, List.sum_cons]
      rw [ih]

/-- C3: for every list of input blocks that the merge can take (equal-length columns, keys
that resolve in the blocks with rows), the merge returns an output that has exactly as many
rows as the non-empty input blocks have in total, and that is a permutation of the input rows,
every row with the values of all its columns; each cursor is walked by `emit the row at pos;
if isLast() discard the cursor, else next()`. -/
theorem row_conservation (cmp : Field → Field → Int) (description : SortDescription)
    (blocks : List Block) (h : Mergeable description blocks) :
    ∃ out, merge cmp description blocks = .ok out ∧
      out.length = ((blocks.filter (fun b => decide (b.rows ≠ 0))).map (fun b => b.rows)).sum ∧
      List.Perm out (blocks.flatMap (fun b => b.rowList)) := by
  obtain ⟨tr, htr, hperm, _⟩ := mergeTrace_rows cmp description blocks h
  refine ⟨tr.map (fun p => p.2), by simp [merge, htr], ?_, hperm⟩
  rw [hperm.length_eq, rowList_flatMap_length, rows_sum_filter]

theorem blockKV_mergeable (rows : List (Int × String)) :
    (blockKV rows).Rectangular ∧
      ∀ d ∈ descK, ∃ col, SortCursorImpl.resolveColumn (blockKV rows) d = .ok col := by
  constructor
  · intro c hc
    simp only [blockKV, List.mem_cons, List.mem_singleton, List.not_mem_nil, or_false] at hc
    rcases hc with hc | hc <;> subst hc <;> simp [IColumn.size, Block.rows, blockKV]
  · intro d hd
    have hd1 : d = SortColumnDescription.ofName "k" 1 none := by simpa [descK] using hd
    subst hd1
    exact ⟨_, rfl⟩

/-- The example of the specification: the blocks `[(1, "x"), (3, "y")]` and `[(2, "z")]`
merged by `k` ascending. -/
theorem row_conservation_witness :
    merge nativeCompare descK [blockKV [(1, "x"), (3, "y")], blockKV [(2, "z")]]
      = .ok [[Field.int 1, Field.str "x"], [Field.int 2, Field.str "z"],
          [Field.int 3, Field.str "y"]] ∧
    ∃ out, merge nativeCompare descK [blockKV [(1, "x"), (3, "y")], blockKV [(2, "z")]]
        = .ok out ∧
      out.length = (([blockKV [(1, "x"), (3, "y")], blockKV [(2, "z")]].filter
        (fun b => decide (b.rows ≠ 0))).map (fun b => b.rows)).sum ∧
      List.Perm out
        ([blockKV [(1, "x"), (3, "y")], blockKV [(2, "z")]].flatMap (fun b => b.rowList)) :=
  ⟨by decide,
   row_conservation nativeCompare descK [blockKV [(1, "x"), (3, "y")], blockKV [(2, "z")]]
     (fun block hb => by
       simp only [List.mem_cons, List.mem_singleton, List.not_mem_nil, or_false] at hb
       rcases hb with hb | hb <;> subst hb <;>
         exact ⟨(blockKV_mergeable _).1, fun _ => (blockKV_mergeable _).2⟩)⟩

/-! ## A single input block -/

theorem mergeLoop_single (lt : SortCursorImpl → SortCursorImpl → Except Exception Bool)
    (fuel : Nat) (c : SortCursorImpl) (hc : c.Active) (hfuel : c.rows - c.pos ≤ fuel) :
    ∃ out, mergeLoop lt fuel [c] = .ok out ∧ out.map (fun p => p.2) = c.rowsLeft := by
  induction fuel generalizing c with
  | zero =>
    have := hc.pos_lt
    omega
  | succ fuel ih =>
    simp only [mergeLoop, popTop, hc.currentRow_eq]
    cases hlast : c.isLast with
    | true =>
      cases fuel with
      | zero =>
        exact ⟨[(c, c.rowAt c.pos)], by simp [mergeLoop],
          by simp [SortCursorImpl.rowsLeft_of_last c hc.pos_lt hlast]⟩
      | succ fuel =>
        exact ⟨[(c, c.rowAt c.pos)], by simp [mergeLoop, popTop],
          by simp [SortCursorImpl.rowsLeft_of_last c hc.pos_lt hlast]⟩
    | false =>
      have hpos : c.pos + 1 < c.rows := by
        simpa [SortCursorImpl.isLast] using hlast
      obtain ⟨out, hout, hrows⟩ := ih c.next (hc.after_next c hlast)
        (by simp only [SortCursorImpl.next]; omega)
      simp only [Bool.false_eq_true, if_false, hout]
      exact ⟨(c, c.rowAt c.pos) :: out, rfl,
        by simp [hrows, SortCursorImpl.rowsLeft_of_not_last c hlast]⟩

/-- C13: merging exactly one non-empty block returns its rows in their original order.
Concretely, from a freshly constructed cursor over a block with `n > 0` rows, repeating `emit
row pos; stop if isLast(), else next()` emits exactly the positions `0, 1, ..., n - 1` in
that order and calls `next()` exactly `n - 1` times. -/
theorem single_input_identity (cmp : Field → Field → Int) (description : SortDescription)
    (block : Block) (order : Nat) (c : SortCursorImpl) (hrows : 0 < block.rows)
    (hc : SortCursorImpl.create block description order = .ok c) :
    (∀ k, SortCursorImpl.walk (block.rows + k) c = some (List.range block.rows, block.rows - 1)) ∧
    (block.Rectangular → merge cmp description [block] = .ok block.rowList) := by
  obtain ⟨cols, first, rest, hcols, hblock, hceq⟩ :=
    SortCursorImpl.create_ok block description order c hc
  have hrows_eq : c.rows = block.rows := by rw [hceq, hblock]; rfl
  have hpos_eq : c.pos = 0 := by rw [hceq]
  constructor
  · intro k
    obtain ⟨m, hm⟩ : ∃ m, block.rows = m + 1 := ⟨block.rows - 1, by omega⟩
    have h1 := SortCursorImpl.walk_eq m c k (by rw [hpos_eq, hrows_eq, hm]; omega)
    rw [hm, h1, hpos_eq, List.range_eq_range']
    simp
  · intro hrect
    have hcreate0 : ∃ c0, SortCursorImpl.create block description 0 = .ok c0 := by
      rw [SortCursorImpl.create_eq, hcols, hblock]
      exact ⟨_, rfl⟩
    obtain ⟨c0, hc0⟩ := hcreate0
    obtain ⟨hact, hleft, hr0, hp0, _, _⟩ :=
      SortCursorImpl.create_active block description 0 c0 hc0 hrect hrows
    have h0 : block.rows ≠ 0 := by omega
    have hbuild : buildCursors description [block] 0 = .ok [c0] := by
      simp [buildCursors, h0, hc0]
    have hrem : remaining [c0] = c0.rows - c0.pos := by simp [remaining]
    obtain ⟨out1, hout1, hrows1⟩ :=
      mergeLoop_single (SortCursorWithCollation.lt cmp) (c0.rows - c0.pos) c0 hact
        (Nat.le_refl _)
    obtain ⟨out2, hout2, hrows2⟩ :=
      mergeLoop_single (SortCursor.lt cmp) (c0.rows - c0.pos) c0 hact (Nat.le_refl _)
    simp only [merge, mergeTrace, hbuild, hrem, hout1, hout2]
    by_cases hany : ([c0].any fun c => c.has_collation) = true
    · simp [hany, hrows1, hleft]
    · simp [hany, hrows2, hleft]

/-- The block with the rows `(1, "x")` and `(3, "y")`: the walk emits the positions 0 and 1
with one call of `next()`, and the merge of that block alone returns its two rows. -/
theorem single_input_identity_witness :
    SortCursorImpl.walk 2 (cursorOver (blockKV [(1, "x"), (3, "y")]) descK 0)
      = some ([0, 1], 1) ∧
    merge nativeCompare descK [blockKV [(1, "x"), (3, "y")]]
      = .ok [[Field.int 1, Field.str "x"], [Field.int 3, Field.str "y"]] :=
  ⟨(single_input_identity nativeCompare descK (blockKV [(1, "x"), (3, "y")]) 0
      (cursorOver (blockKV [(1, "x"), (3, "y")]) descK 0) (by decide) rfl).1 0,
   (single_input_identity nativeCompare descK (blockKV [(1, "x"), (3, "y")]) 0
      (cursorOver (blockKV [(1, "x"), (3, "y")]) descK 0) (by decide) rfl).2
      (blockKV_mergeable _).1⟩

/-! ## Sortedness of the merge loop -/

theorem adjacentSorted_cons {α : Type} (r : α → α → Prop) (x : α) (l : List α) :
    AdjacentSorted r (x :: l) ↔ (∀ y, l.head? = some y → r x y) ∧ AdjacentSorted r l := by
  cases l with
  | nil => simp [AdjacentSorted]
  | cons y l => simp [AdjacentSorted]

theorem belowBy_neg_trans {α : Type} (t : α → α → Int) (ht : IsThreeWay t) (x y z : α)
    (oa ob oc : Nat) (hxy : belowBy t x oa y ob = false) (hyz : belowBy t y ob z oc = false) :
    belowBy t x oa z oc = false := by
  rw [belowBy_eq_false] at hxy hyz ⊢
  refine ⟨ht.trans x y z hxy.1 hyz.1, fun h0 => ?_⟩
  have hzx := ht.zero_symm x z h0
  have h1 := ht.trans y z x hyz.1 (by omega)
  have h2 := ht.nonneg_symm y x h1
  have h3 := ht.trans z x y (by omega) hxy.1
  have h4 := ht.nonneg_symm z y h3
  have h5 := hxy.2 (by omega)
  have h6 := hyz.2 (by omega)
  omega

/-- The merge loop hands out the cursors in an order in which each stands in the relation
`r` to the next one, as soon as a cursor below no cursor of the structure stands in `r` to
all of them, and every cursor stands in `r` to the cursor it becomes by `next()`. -/
theorem mergeLoop_sorted (lt : SortCursorImpl → SortCursorImpl → Except Exception Bool)
    (below : SortCursorImpl → SortCursorImpl → Bool) (P : SortCursorImpl → Prop)
    (r : SortCursorImpl → SortCursorImpl → Prop)
    (hlt : ∀ a b, P a → P b → lt a b = .ok (below a b))
    (hnext : ∀ c, P c → c.isLast = false → P c.next)
    (hasymm : ∀ a b, P a → P b → below a b = true → below b a = false)
    (hnt : ∀ a b c, P a → P b → P c → below a b = false → below b c = false →
      below a c = false)
    (hmax : ∀ a b, P a → P b → below a b = false → r a b)
    (hstep : ∀ c, P c → c.isLast = false → r c c.next)
    (fuel : Nat) (q : List SortCursorImpl) (hq : ∀ c ∈ q, P c)
    (out : List (SortCursorImpl × Row)) (h : mergeLoop lt fuel q = .ok out) :
    AdjacentSorted r (out.map (fun p => p.1)) ∧
      ∀ s, (out.map (fun p => p.1)).head? = some s → s ∈ q := by
  induction fuel generalizing q out with
  | zero =>
    simp only [mergeLoop] at h
    cases q with
    | nil =>
      simp only [List.isEmpty_nil, if_true, Except.ok.injEq] at h
      subst h
      simp [AdjacentSorted]
    | cons c cs => simp at h
  | succ fuel ih =>
    rcases popTop_ok lt below P hlt q hq with ⟨hnil, hpop⟩ | ⟨t, rest, hpop, hperm⟩
    · subst hnil
      simp only [mergeLoop, hpop, Except.ok.injEq] at h
      subst h
      simp [AdjacentSorted]
    · have ht : P t := hq t (hperm.subset (List.mem_cons_self t rest))
      have hrest : ∀ c ∈ rest, P c :=
        fun c hc => hq c (hperm.subset (List.mem_cons_of_mem t hc))
      have htop := popTop_max lt below P hlt hasymm hnt q hq t rest hpop
      simp only [mergeLoop, hpop] at h
      cases hrow : t.currentRow with
      | error e => simp [hrow] at h
      | ok row =>
        simp only [hrow] at h
        have hq1 : ∀ c ∈ (if t.isLast then rest else t.next :: rest), P c := by
          intro c hc
          cases hlast : t.isLast with
          | true =>
            simp only [hlast, if_true] at hc
            exact hrest c hc
          | false =>
            simp only [hlast, Bool.false_eq_true, if_false] at hc
            rcases List.mem_cons.mp hc with hc | hc
            · rw [hc]
              exact hnext t ht hlast
            · exact hrest c hc
        cases hloop : mergeLoop lt fuel (if t.isLast then rest else t.next :: rest) with
        | error e => simp [hloop] at h
        | ok out1 =>
          simp only [hloop, Except.ok.injEq] at h
          subst h
          obtain ⟨hsorted, hhead⟩ := ih _ hq1 out1 hloop
          constructor
          · simp only [List.map_cons]
            rw [adjacentSorted_cons]
            refine ⟨fun y hy => ?_, hsorted⟩
            have hmem := hhead y hy
            cases hlast : t.isLast with
            | true =>
              simp only [hlast, if_true] at hmem
              exact hmax t y ht (hrest y hmem) (htop y hmem)
            | false =>
              simp only [hlast, Bool.false_eq_true, if_false] at hmem
              rcases List.mem_cons.mp hmem with hmem | hmem
              · rw [hmem]
                exact hstep t ht hlast
              · exact hmax t y ht (hrest y hmem) (htop y hmem)
          · intro s hs
            simp only [List.map_cons, List.head?_cons, Option.some.injEq] at hs
            rw [← hs]
            exact hperm.subset (List.mem_cons_self t rest)

/-! ## The cursors of the merge are kept in order -/

theorem InMerge.after_next_inMerge (cmp : Field → Field → Int) (description : SortDescription)
    (flags : List Bool) (c : SortCursorImpl) (h : InMerge cmp description flags c)
    (hlast : c.isLast = false) : InMerge cmp description flags c.next := by
  refine ⟨h.active.after_next c hlast, h.desc_eq, h.flags_eq, ?_⟩
  intro j hj
  have h1 := h.sorted (j + 1) (by simp only [SortCursorImpl.next] at hj; omega)
  rw [Function.iterate_succ_apply, Function.iterate_succ_apply] at h1
  rw [Function.iterate_succ_apply]
  exact h1

theorem InMerge.below_eq (cmp : Field → Field → Int) (description : SortDescription)
    (flags : List Bool) (a b : SortCursorImpl) (ha : InMerge cmp description flags a) :
    SortCursorWithCollation.below cmp a b
      = belowBy (fun x y => lexFrom (collatedKey cmp description flags) x y 0 description.length)
          a.keyCell a.order b.keyCell b.order := by
  simp only [SortCursorWithCollation.below, ha.desc_eq, ha.flags_eq, ha.active.arity.size_eq]

theorem InMerge.lt_eq (cmp : Field → Field → Int) (description : SortDescription)
    (flags : List Bool) (a b : SortCursorImpl) (ha : InMerge cmp description flags a)
    (hb : InMerge cmp description flags b) :
    SortCursorWithCollation.lt cmp a b = .ok (SortCursorWithCollation.below cmp a b) :=
  SortCursorWithCollation.collated_lt_eq_below cmp a b (ha.active.ready a) (hb.active.ready b)
    (ha.desc_eq.trans hb.desc_eq.symm)

/-- With all flags clear the plain comparator answers as the collation-aware one. -/
theorem SortCursor.lt_eq_collated (cmp : Field → Field → Int) (a b : SortCursorImpl)
    (hlen : a.sort_columns_size ≤ a.need_collation.length)
    (hall : ∀ f ∈ a.need_collation, f = false) :
    SortCursor.lt cmp a b = SortCursorWithCollation.lt cmp a b := by
  rw [SortCursorWithCollation.collated_lt_eq_decideFrom, SortCursor.lt_eq_decideFrom]
  apply decideFrom_congr
  intro j _ hj
  have hj1 : j < a.need_collation.length := by omega
  symm
  apply SortCursorWithCollation.res_eq_plain
  rw [List.getElem?_eq_getElem hj1]
  exact congrArg some (hall _ (List.getElem_mem _))

theorem InMerge.asymm (cmp : Field → Field → Int) (hcmp : IsThreeWay cmp)
    (description : SortDescription) (hcoll : CollatorsThreeWay description)
    (flags : List Bool) (a b : SortCursorImpl) (ha : InMerge cmp description flags a)
    (hb : InMerge cmp description flags b)
    (h : SortCursorWithCollation.below cmp a b = true) :
    SortCursorWithCollation.below cmp b a = false := by
  rw [InMerge.below_eq cmp description flags a b ha] at h
  rw [InMerge.below_eq cmp description flags b a hb]
  exact belowBy_asymm _
    (lexFrom_isThreeWay _ (collatedKey_isThreeWay cmp hcmp description hcoll flags) 0 _)
    _ _ _ _ h

theorem InMerge.neg_trans (cmp : Field → Field → Int) (hcmp : IsThreeWay cmp)
    (description : SortDescription) (hcoll : CollatorsThreeWay description)
    (flags : List Bool) (a b c : SortCursorImpl) (ha : InMerge cmp description flags a)
    (hb : InMerge cmp description flags b)
    (hab : SortCursorWithCollation.below cmp a b = false)
    (hbc : SortCursorWithCollation.below cmp b c = false) :
    SortCursorWithCollation.below cmp a c = false := by
  rw [InMerge.below_eq cmp description flags a b ha] at hab
  rw [InMerge.below_eq cmp description flags b c hb] at hbc
  rw [InMerge.below_eq cmp description flags a c ha]
  exact belowBy_neg_trans _
    (lexFrom_isThreeWay _ (collatedKey_isThreeWay cmp hcmp description hcoll flags) 0 _)
    _ _ _ _ _ _ hab hbc

theorem SortCursorWithCollation.compare3_of_not_below (cmp : Field → Field → Int)
    (a b : SortCursorImpl) (h : SortCursorWithCollation.below cmp a b = false) :
    SortCursorWithCollation.compare3 cmp a b ≤ 0 :=
  ((belowBy_eq_false _ _ _ _ _).mp h).1

theorem InMerge.step (cmp : Field → Field → Int) (description : SortDescription)
    (flags : List Bool) (c : SortCursorImpl) (h : InMerge cmp description flags c)
    (hlast : c.isLast = false) : SortCursorWithCollation.compare3 cmp c c.next ≤ 0 := by
  have hpos : c.pos + 1 < c.rows := by
    simpa [SortCursorImpl.isLast] using hlast
  exact h.sorted 0 (by omega)

theorem SortCursorImpl.create_cursorOver (block : Block) (desc : SortDescription) (order : Nat)
    (c : SortCursorImpl) (h : SortCursorImpl.create block desc order = .ok c) :
    cursorOver block desc 0 = { c with order := 0 } := by
  obtain ⟨cols, first, rest, hcols, hblock, hc⟩ := SortCursorImpl.create_ok block desc order c h
  have h0 : SortCursorImpl.create block desc 0 = .ok { c with order := 0 } := by
    rw [SortCursorImpl.create_eq, hcols, hc]
    subst hblock
    rfl
  simp only [cursorOver, h0]

theorem SortCursorWithCollation.compare3_order (cmp : Field → Field → Int)
    (a b : SortCursorImpl) (j k : Nat) :
    SortCursorWithCollation.compare3 cmp (SortCursorImpl.next^[j] { a with order := 0 })
        (SortCursorImpl.next^[k] { b with order := 0 })
      = SortCursorWithCollation.compare3 cmp (SortCursorImpl.next^[j] a)
        (SortCursorImpl.next^[k] b) := by
  simp only [SortCursorImpl.iterate_next]
  rfl

/-- A cursor constructed by the merge over a sorted block satisfies what the merge keeps
true of its cursors. -/
theorem SortCursorImpl.create_inMerge (cmp : Field → Field → Int) (block : Block)
    (desc : SortDescription) (order : Nat) (c : SortCursorImpl)
    (h : SortCursorImpl.create block desc order = .ok c) (hrect : block.Rectangular)
    (hrows : 0 < block.rows) (hsorted : block.SortedBy cmp desc) :
    InMerge cmp desc (cursorOver block desc 0).need_collation c := by
  obtain ⟨hact, _, hrows_eq, hpos_eq, _, hdesc⟩ :=
    SortCursorImpl.create_active block desc order c h hrect hrows
  have hover := SortCursorImpl.create_cursorOver block desc order c h
  refine ⟨hact, hdesc, by rw [hover], ?_⟩
  intro j hj
  have h1 := hsorted j (by rw [← hrows_eq]; omega)
  rw [hover, SortCursorWithCollation.compare3_order] at h1
  exact h1

/-! ## Sortedness of the merge -/

theorem flags_all_false_of_not_has_collation (block : Block) (desc : SortDescription)
    (order : Nat) (c : SortCursorImpl) (h : SortCursorImpl.create block desc order = .ok c)
    (hc : c.has_collation = false) : ∀ f ∈ c.need_collation, f = false := by
  intro f hf
  cases f with
  | false => rfl
  | true =>
    obtain ⟨j, hj, hjf⟩ := List.getElem_of_mem hf
    have := (SortCursorImpl.create_has_collation block desc order c h).mpr
      ⟨j, by rw [List.getElem?_eq_getElem hj, hjf]⟩
    rw [hc] at this
    cases this

theorem mergeTrace_sorted (cmp : Field → Field → Int) (description : SortDescription)
    (blocks : List Block) (hcmp : IsThreeWay cmp) (hcoll : CollatorsThreeWay description)
    (h : Mergeable description blocks) (hflags : SameFlags description blocks)
    (hsorted : ∀ b ∈ blocks, b.SortedBy cmp description) :
    ∃ tr, mergeTrace cmp description blocks = .ok tr ∧
      (∀ p ∈ tr, p.2 = p.1.rowAt p.1.pos) ∧
      AdjacentSorted (fun s t => SortCursorWithCollation.compare3 cmp s t ≤ 0)
        (tr.map (fun p => p.1)) := by
  obtain ⟨cursors, hbuild, hmem, _, _⟩ := buildCursors_ok description blocks 0 h
  cases cursors with
  | nil =>
    refine ⟨[], ?_, by simp, by simp [AdjacentSorted]⟩
    simp [mergeTrace, hbuild, remaining, mergeLoop]
  | cons c0 cs =>
    obtain ⟨b0, hb0, i0, hrows0, hcreate0⟩ := hmem c0 (List.mem_cons_self c0 cs)
    have hover0 := SortCursorImpl.create_cursorOver b0 description i0 c0 hcreate0
    have hP : ∀ c ∈ c0 :: cs, InMerge cmp description c0.need_collation c := by
      intro c hc
      obtain ⟨b, hb, i, hrows, hcreate⟩ := hmem c hc
      have h1 := SortCursorImpl.create_inMerge cmp b description i c hcreate (h b hb).1 hrows
        (hsorted b hb)
      have h2 : (cursorOver b description 0).need_collation = c0.need_collation := by
        rw [hflags b hb b0 hb0 hrows hrows0, hover0]
      rw [h2] at h1
      exact h1
    have hnext : ∀ c, InMerge cmp description c0.need_collation c → c.isLast = false →
        InMerge cmp description c0.need_collation c.next :=
      fun c hc hlast => hc.after_next_inMerge cmp description _ c hlast
    have hasymm : ∀ a b, InMerge cmp description c0.need_collation a →
        InMerge cmp description c0.need_collation b →
        SortCursorWithCollation.below cmp a b = true →
        SortCursorWithCollation.below cmp b a = false :=
      fun a b ha hb hab => InMerge.asymm cmp hcmp description hcoll _ a b ha hb hab
    have hnt : ∀ a b c, InMerge cmp description c0.need_collation a →
        InMerge cmp description c0.need_collation b →
        InMerge cmp description c0.need_collation c →
        SortCursorWithCollation.below cmp a b = false →
        SortCursorWithCollation.below cmp b c = false →
        SortCursorWithCollation.below cmp a c = false :=
      fun a b c ha hb _ hab hbc =>
        InMerge.neg_trans cmp hcmp description hcoll _ a b c ha hb hab hbc
    have hmax : ∀ a b, InMerge cmp description c0.need_collation a →
        InMerge cmp description c0.need_collation b →
        SortCursorWithCollation.below cmp a b = false →
        SortCursorWithCollation.compare3 cmp a b ≤ 0 :=
      fun a b _ _ hab => SortCursorWithCollation.compare3_of_not_below cmp a b hab
    have hstep : ∀ c, InMerge cmp description c0.need_collation c → c.isLast = false →
        SortCursorWithCollation.compare3 cmp c c.next ≤ 0 :=
      fun c hc hlast => hc.step cmp description _ c hlast
    simp only [mergeTrace, hbuild]
    by_cases hany : ((c0 :: cs).any fun c => c.has_collation) = true
    · simp only [hany, if_true]
      have hlt : ∀ a b, InMerge cmp description c0.need_collation a →
          InMerge cmp description c0.need_collation b →
          SortCursorWithCollation.lt cmp a b = .ok (SortCursorWithCollation.below cmp a b) :=
        fun a b ha hb => InMerge.lt_eq cmp description _ a b ha hb
      obtain ⟨out, hout, _, hall⟩ := mergeLoop_rows (SortCursorWithCollation.lt cmp)
        (SortCursorWithCollation.below cmp) (InMerge cmp description c0.need_collation) hlt
        (fun c hc => hc.active) hnext (remaining (c0 :: cs)) (c0 :: cs) hP (Nat.le_refl _)
      exact ⟨out, hout, fun p hp => (hall p hp).2,
        (mergeLoop_sorted (SortCursorWithCollation.lt cmp) (SortCursorWithCollation.below cmp)
          (InMerge cmp description c0.need_collation) _ hlt hnext hasymm hnt hmax hstep
          (remaining (c0 :: cs)) (c0 :: cs) hP out hout).1⟩
    · simp only [hany, if_false]
      have hc0 : c0.has_collation = false := by
        simp only [List.any_cons, Bool.or_eq_true, not_or, Bool.not_eq_true] at hany
        exact hany.1
      have hF := flags_all_false_of_not_has_collation b0 description i0 c0 hcreate0 hc0
      have hlt : ∀ a b, InMerge cmp description c0.need_collation a →
          InMerge cmp description c0.need_collation b →
          SortCursor.lt cmp a b = .ok (SortCursorWithCollation.below cmp a b) := by
        intro a b ha hb
        rw [SortCursor.lt_eq_collated cmp a b
          (by rw [ha.active.arity.size_eq, ha.active.arity.need_collation_length])
          (by rw [ha.flags_eq]; exact hF)]
        exact InMerge.lt_eq cmp description _ a b ha hb
      obtain ⟨out, hout, _, hall⟩ := mergeLoop_rows (SortCursor.lt cmp)
        (SortCursorWithCollation.below cmp) (InMerge cmp description c0.need_collation) hlt
        (fun c hc => hc.active) hnext (remaining (c0 :: cs)) (c0 :: cs) hP (Nat.le_refl _)
      exact ⟨out, hout, fun p hp => (hall p hp).2,
        (mergeLoop_sorted (SortCursor.lt cmp) (SortCursorWithCollation.below cmp)
          (InMerge cmp description c0.need_collation) _ hlt hnext hasymm hnt hmax hstep
          (remaining (c0 :: cs)) (c0 :: cs) hP out hout).1⟩

theorem blockS_mergeable (type : String) (rows : List String) :
    (blockS type rows).Rectangular ∧
      ∀ d ∈ descS, ∃ col, SortCursorImpl.resolveColumn (blockS type rows) d = .ok col := by
  constructor
  · intro c hc
    simp only [blockS, List.mem_singleton] at hc
    subst hc
    simp [IColumn.size, Block.rows, blockS]
  · intro d hd
    have hd1 : d = SortColumnDescription.ofName "s" 1 (some localeL) := by
      simpa [descS] using hd
    subst hd1
    exact ⟨_, rfl⟩

/-- The merge of a block whose column is of type "ColumnFixedString" with a block whose column
is of type "ColumnString", under a collated description: every block is sorted (it has one
row), the comparisons are three-way comparisons, and the merge puts the row "a" before the
row "b" although "a" compares greater than "b" (the collator puts "b" first), and although
the cursor on "a" is below the cursor on "b" under the comparator the merge has used. -/
theorem merge_of_mixed_columns_not_sorted :
    IsThreeWay nativeCompare ∧ CollatorsThreeWay descS ∧ Mergeable descS blocksMixed ∧
    (∀ b ∈ blocksMixed, b.SortedBy nativeCompare descS) ∧
    merge nativeCompare descS blocksMixed = .ok [[Field.str "a"], [Field.str "b"]] ∧
    mergeTrace nativeCompare descS blocksMixed
      = .ok [(cursorOver (blockS "ColumnString" ["a"]) descS 1, [Field.str "a"]),
          (cursorOver (blockS "ColumnFixedString" ["b"]) descS 0, [Field.str "b"])] ∧
    0 < SortCursorWithCollation.compare3 nativeCompare
      (cursorOver (blockS "ColumnString" ["a"]) descS 1)
      (cursorOver (blockS "ColumnFixedString" ["b"]) descS 0) ∧
    SortCursorWithCollation.lt nativeCompare (cursorOver (blockS "ColumnString" ["a"]) descS 1)
      (cursorOver (blockS "ColumnFixedString" ["b"]) descS 0) = .ok true ∧
    ¬ AdjacentSorted (fun s t => SortCursorWithCollation.compare3 nativeCompare s t ≤ 0)
      [cursorOver (blockS "ColumnString" ["a"]) descS 1,
        cursorOver (blockS "ColumnFixedString" ["b"]) descS 0] := by
  refine ⟨nativeCompare_isThreeWay, descS_collatorsThreeWay, ?_, ?_, by decide, rfl, by decide,
    by decide, ?_⟩
  · intro block hb
    simp only [blocksMixed, List.mem_cons, List.mem_singleton, List.not_mem_nil, or_false] at hb
    rcases hb with hb | hb <;> subst hb <;>
      exact ⟨(blockS_mergeable _ _).1, fun _ => (blockS_mergeable _ _).2⟩
  · intro block hb j hj
    simp only [blocksMixed, List.mem_cons, List.mem_singleton, List.not_mem_nil, or_false] at hb
    rcases hb with hb | hb <;> subst hb <;> simp [Block.rows, blockS, IColumn.size] at hj
  · simp only [AdjacentSorted, and_true, not_le]
    decide

/-- C1 (amended): for every sort description and every list of input blocks that the merge
can take, that are each internally sorted by the description and whose cursors carry the same
`need_collation` flags (every key column is string-typed in all blocks or in none), the
three-way comparisons of the column values and of the collators being reflexive-zero,
antisymmetric in sign and transitive: the merge returns a block, and no row of it compares
greater than the row after it under the key sequence and the directions. -/
theorem merge_sorted (cmp : Field → Field → Int) (description : SortDescription)
    (blocks : List Block) (hcmp : IsThreeWay cmp) (hcoll : CollatorsThreeWay description)
    (h : Mergeable description blocks) (hflags : SameFlags description blocks)
    (hsorted : ∀ b ∈ blocks, b.SortedBy cmp description) :
    ∃ tr, mergeTrace cmp description blocks = .ok tr ∧
      merge cmp description blocks = .ok (tr.map (fun p => p.2)) ∧
      (∀ p ∈ tr, p.2 = p.1.rowAt p.1.pos) ∧
      AdjacentSorted (fun s t => ¬ 0 < SortCursorWithCollation.compare3 cmp s t)
        (tr.map (fun p => p.1)) := by
  obtain ⟨tr, htr, hrows, hs⟩ :=
    mergeTrace_sorted cmp description blocks hcmp hcoll h hflags hsorted
  refine ⟨tr, htr, by simp [merge, htr], hrows, ?_⟩
  have himp : ∀ l : List SortCursorImpl,
      AdjacentSorted (fun s t => SortCursorWithCollation.compare3 cmp s t ≤ 0) l →
      AdjacentSorted (fun s t => ¬ 0 < SortCursorWithCollation.compare3 cmp s t) l := by
    intro l
    induction l with
    | nil => intro _; trivial
    | cons x l ih =>
      cases l with
      | nil => intro _; trivial
      | cons y l =>
        intro hl
        exact ⟨by have := hl.1; omega, ih hl.2⟩
  exact himp _ hs

/-- The example of the specification: the blocks `[(1, "x"), (3, "y")]` and `[(2, "z")]`
merged by `k` ascending give `[(1, "x"), (2, "z"), (3, "y")]`. -/
theorem merge_sorted_witness :
    merge nativeCompare descK blocksExample
      = .ok [[Field.int 1, Field.str "x"], [Field.int 2, Field.str "z"],
          [Field.int 3, Field.str "y"]] ∧
    ∃ tr, mergeTrace nativeCompare descK blocksExample = .ok tr ∧
      merge nativeCompare descK blocksExample = .ok (tr.map (fun p => p.2)) ∧
      (∀ p ∈ tr, p.2 = p.1.rowAt p.1.pos) ∧
      AdjacentSorted (fun s t => ¬ 0 < SortCursorWithCollation.compare3 nativeCompare s t)
        (tr.map (fun p => p.1)) :=
  ⟨by decide,
   merge_sorted nativeCompare descK blocksExample nativeCompare_isThreeWay
     (fun d hd collator hc => by
       have hd1 : d = SortColumnDescription.ofName "k" 1 none := by simpa [descK] using hd
       subst hd1
       cases hc)
     (fun block hb => by
       simp only [blocksExample, List.mem_cons, List.mem_singleton, List.not_mem_nil,
         or_false] at hb
       rcases hb with hb | hb <;> subst hb <;>
         exact ⟨(blockKV_mergeable _).1, fun _ => (blockKV_mergeable _).2⟩)
     (fun b1 h1 b2 h2 _ _ => by
       simp only [blocksExample, List.mem_cons, List.mem_singleton, List.not_mem_nil,
         or_false] at h1 h2
       rcases h1 with h1 | h1 <;> rcases h2 with h2 | h2 <;> subst h1 <;> subst h2 <;> rfl)
     (fun block hb j hj => by
       simp only [blocksExample, List.mem_cons, List.mem_singleton, List.not_mem_nil,
         or_false] at hb
       rcases hb with hb | hb
       · subst hb
         have hj0 : j = 0 := by
           simp [Block.rows, blockKV, IColumn.size] at hj
           omega
         subst hj0
         decide
       · subst hb
         simp [Block.rows, blockKV, IColumn.size] at hj)⟩

end DB
